import Mathlib

/-!
# Exact graph colouring: DSATUR backtracking, 2-colour BFS, greedy pre-pass

A shallow embedding of the search core of the repository
(`graph.hpp`, `solver_common.cpp`, `solver_serial.cpp`, `solver_k2.cpp`,
`solver_greedy.cpp`, `solver_threads.cpp`) together with theorems about it.

Conventions of the embedding.

* `std::vector<int>` is `List Int`; `x[i]` is `x.getD i 0` (an access outside the
  vector is undefined behaviour in the source; every theorem works where all
  accesses are in range).
* Vertices are natural numbers: `Graph(n)` with a negative `n` cannot be
  constructed and `add_edge` refuses every vertex outside `[0, n)`.  Vertex counts
  and vector sizes are taken to fit in `int`, so the casts `(int)x.size()` are the
  identity; colours and `k` are integers, and no arithmetic on them can overflow
  (`c++` stays below `k`, `1 - color[u]` is `0` or `1`).
* The recursion of the engine and the `while` loop of the breadth-first search are
  driven by a fuel argument; running out of fuel is `none`, and theorems show that
  the fuel supplied by the entry points is always enough.
* Wall-clock time and the shared stop flag are external observations.  Every
  observation made by the code reads an oracle at the current value of a counter
  (`clock`) and advances that counter, so each possible run of the clock and of the
  flag is some oracle.  "No deadline" and "flag never set" are the oracles that
  always answer `false`.
* `color_threads_exact` is embedded for at most one worker, where the run is
  sequential; two or more workers are the outcome `ThreadsOutcome.concurrent`, about
  which nothing is stated.
* The counters `nodes` and `backtracks` (`long long`) are natural numbers; they
  cannot reach `2^63` in any run that finishes.  The field `seconds` of the result
  record is not modelled.
* A `reserve` call whose argument comes from a negative `int` converted to `size_t`
  asks for more than `max_size()` and throws `std::length_error`:
  `next.reserve(out.size() * (size_t)k)` in `generate_subproblems` (the result
  `none`) and `pool.reserve(threads)` in `color_threads_exact`
  (`ThreadsOutcome.length_error`).  Memory is otherwise unbounded.
-/

namespace GraphColoring

/-! ## Data model (`graph.hpp`, `coloring.hpp`) -/

/-- The struct `Graph`: vertex count and adjacency lists. -/
structure Graph where
  n : Nat
  adj : List (List Nat)
deriving DecidableEq, Repr

/-- The constructor `Graph(n)`: `n` empty adjacency lists. -/
def Graph.init (n : Nat) : Graph := ⟨n, List.replicate n []⟩

/-- The adjacency list `g.adj[u]`. -/
def Graph.nbrs (g : Graph) (u : Nat) : List Nat := g.adj.getD u []

/-- The statement `adj[u].push_back(v)`. -/
def push_back (adj : List (List Nat)) (u v : Nat) : List (List Nat) :=
  adj.set u (adj.getD u [] ++ [v])

/-- The method `Graph::add_edge`; `none` stands for the thrown `std::out_of_range`. -/
def Graph.add_edge (g : Graph) (u v : Int) : Option Graph :=
  if u < 0 ∨ v < 0 ∨ u ≥ (g.n : Int) ∨ v ≥ (g.n : Int) then none
  else if u = v then some g
  else some { g with adj := push_back (push_back g.adj u.toNat v.toNat) v.toNat u.toNat }

/-- Graphs obtained from `Graph(n)` by calls of `add_edge` that do not throw. -/
inductive Graph.Built : Graph → Prop
  | init (n : Nat) : Graph.Built (Graph.init n)
  | edge {g g1 : Graph} (u v : Int) : Graph.Built g → g.add_edge u v = some g1 → Graph.Built g1

/-- Well-formed graph: one adjacency list per vertex, every entry a vertex, no
self-loop, symmetric adjacency. -/
def Graph.WellFormed (g : Graph) : Prop :=
  g.adj.length = g.n ∧
  ∀ u, u < g.n → ∀ v ∈ g.nbrs u, v < g.n ∧ v ≠ u ∧ u ∈ g.nbrs v

instance (g : Graph) : Decidable g.WellFormed := by
  unfold Graph.WellFormed; infer_instance

/-- The struct `ColoringResult` without its wall-clock field. -/
structure ColoringResult where
  success : Bool
  color : List Int
  nodes : Nat
  backtracks : Nat
deriving DecidableEq, Repr

/-- The colours tried by `for (int c = 0; c < k; c++)`, in order. -/
def colors (k : Int) : List Int := (List.range k.toNat).map Int.ofNat

/-- The vector `std::vector<int>(g.n, -1)`. -/
def uncolored (g : Graph) : List Int := List.replicate g.n (-1)

/-- The degree vector computed by every entry point: `degree[i] = adj[i].size()`. -/
def degrees (g : Graph) : List Int := (List.range g.n).map (fun i => ((g.nbrs i).length : Int))

/-! ## Verifier (`solver_common.cpp`) -/

/-- The function `verify_coloring`. -/
def verify_coloring (g : Graph) (color : List Int) (k : Int) : Bool :=
  if (color.length : Int) ≠ (g.n : Int) then false
  else (List.range g.n).all (fun u =>
    !(decide (color.getD u 0 < 0) || decide (color.getD u 0 ≥ k)) &&
    (g.nbrs u).all (fun v => !(decide (u < v) && color.getD u 0 == color.getD v 0)))

/-! ## Feasibility check and DSATUR chooser (`solver_serial.cpp`, duplicated in
`solver_greedy.cpp` and `solver_threads.cpp`) -/

/-- The function `can_color`. -/
def can_color (g : Graph) (u : Nat) (c : Int) (color : List Int) : Bool :=
  (g.nbrs u).all (fun v => color.getD v 0 != c)

/-- The call `std::unique` followed by `erase`: drop every element equal to its
predecessor. -/
def unique : List Int → List Int
  | [] => []
  | [a] => [a]
  | a :: b :: t => if a = b then unique (b :: t) else a :: unique (b :: t)

/-- The list `seen` of `choose_vertex_dsatur` before sorting: the colours other than
`-1` of the neighbours of `u`, in adjacency order. -/
def seen_colors (g : Graph) (color : List Int) (u : Nat) : List Int :=
  ((g.nbrs u).map (fun v => color.getD v 0)).filter (fun c => c != -1)

/-- The value `sat` of `choose_vertex_dsatur`: size of `seen` after sort, unique,
erase. -/
def sat_of (g : Graph) (color : List Int) (u : Nat) : Int :=
  ((unique ((seen_colors g color u).insertionSort (· ≤ ·))).length : Int)

/-- The three locals `best`, `best_sat`, `best_deg` of `choose_vertex_dsatur`. -/
structure Best where
  best : Int
  best_sat : Int
  best_deg : Int
deriving DecidableEq, Repr

/-- One iteration of the scan of `choose_vertex_dsatur`. -/
def choose_step (g : Graph) (color degree : List Int) (b : Best) (u : Nat) : Best :=
  if color.getD u 0 ≠ -1 then b
  else
    let sat := sat_of g color u
    if sat > b.best_sat ∨ (sat = b.best_sat ∧ degree.getD u 0 > b.best_deg) then
      ⟨(u : Int), sat, degree.getD u 0⟩
    else b

/-- The function `choose_vertex_dsatur`. -/
def choose_vertex_dsatur (g : Graph) (color degree : List Int) : Int :=
  ((List.range g.n).foldl (choose_step g color degree) ⟨-1, -1, -1⟩).best

/-! ## Backtracking engine (`solver_serial.cpp`, `solver_threads.cpp`) -/

/-- The mutable search state of one engine call: the assignment, the two counters,
and the number of observations of the clock and of the stop flag made so far. -/
structure Search where
  color : List Int
  nodes : Nat
  backtracks : Nat
  clock : Nat
deriving DecidableEq, Repr

/-- The colour loop of `backtrack_exact` at vertex `u`, from colour list `cs` on;
`recur` is the recursive call. -/
def color_loop (recur : Search → Option (Bool × Search)) (g : Graph) (u : Nat) :
    List Int → Search → Option (Bool × Search)
  | [], s => some (false, { s with backtracks := s.backtracks + 1 })
  | c :: cs, s =>
    if !can_color g u c s.color then color_loop recur g u cs s
    else
      match recur { s with color := s.color.set u c } with
      | none => none
      | some (true, s1) => some (true, s1)
      | some (false, s1) => color_loop recur g u cs { s1 with color := s1.color.set u (-1) }

/-- The function `backtrack_exact` of `solver_serial.cpp`.  `expired i` is the value
of `max_seconds > 0.0 && t.seconds() > max_seconds` at observation `i`. -/
def backtrack_exact (g : Graph) (k : Int) (degree : List Int) (expired : Nat → Bool) :
    Nat → Search → Option (Bool × Search)
  | 0, _ => none
  | fuel + 1, s =>
    if expired s.clock then
      some (false, { s with nodes := s.nodes + 1, clock := s.clock + 1 })
    else
      let u := choose_vertex_dsatur g s.color degree
      if u = -1 then some (true, { s with nodes := s.nodes + 1, clock := s.clock + 1 })
      else
        color_loop (backtrack_exact g k degree expired fuel) g u.toNat (colors k)
          { s with nodes := s.nodes + 1, clock := s.clock + 1 }

/-- The colour loop of `backtrack_exact_stop`: before each colour the stop flag is
loaded and then the deadline is checked. -/
def color_loop_stop (recur : Search → Option (Bool × Search)) (g : Graph)
    (found expired : Nat → Bool) (u : Nat) : List Int → Search → Option (Bool × Search)
  | [], s => some (false, { s with backtracks := s.backtracks + 1 })
  | c :: cs, s =>
    if found s.clock then some (false, { s with clock := s.clock + 1 })
    else if expired (s.clock + 1) then some (false, { s with clock := s.clock + 2 })
    else if !can_color g u c s.color then
      color_loop_stop recur g found expired u cs { s with clock := s.clock + 2 }
    else
      match recur { s with color := s.color.set u c, clock := s.clock + 2 } with
      | none => none
      | some (true, s1) => some (true, s1)
      | some (false, s1) =>
        color_loop_stop recur g found expired u cs { s1 with color := s1.color.set u (-1) }

/-- The function `backtrack_exact_stop` of `solver_threads.cpp`.  `found i` is the
value loaded from the atomic flag at observation `i`. -/
def backtrack_exact_stop (g : Graph) (k : Int) (degree : List Int)
    (found expired : Nat → Bool) : Nat → Search → Option (Bool × Search)
  | 0, _ => none
  | fuel + 1, s =>
    if found s.clock then some (false, { s with clock := s.clock + 1 })
    else if expired (s.clock + 1) then
      some (false, { s with nodes := s.nodes + 1, clock := s.clock + 2 })
    else
      let u := choose_vertex_dsatur g s.color degree
      if u = -1 then some (true, { s with nodes := s.nodes + 1, clock := s.clock + 2 })
      else
        color_loop_stop (backtrack_exact_stop g k degree found expired fuel) g found expired
          u.toNat (colors k) { s with nodes := s.nodes + 1, clock := s.clock + 2 }

/-! ## Sub-problem generator (`solver_threads.cpp`) -/

/-- The body of the inner loop of `generate_subproblems` for one sub-problem `sp`:
the entries it appends to `next`. -/
def expand (g : Graph) (k : Int) (degree : List Int) (sp : List Int) : List (List Int) :=
  let u := choose_vertex_dsatur g sp degree
  if u = -1 then [sp]
  else ((colors k).filter (fun c => can_color g u.toNat c sp)).map (fun c => sp.set u.toNat c)

/-- The loop `for (depth = 0; depth < split_depth; depth++)` of
`generate_subproblems` with `d` iterations left; `none` is the `std::length_error`
thrown by `next.reserve(out.size() * (size_t)k)`, the first statement of every
iteration.  For `k < 0` the conversion `(size_t)k` wraps to `2^64 + k`; a negative
`k` reaches the call in the first iteration, where `out` holds one entry, so the
request `2^64 + k` is above `max_size()` and the call throws.  For `k ≥ 0` the
request is the product `out.size() * k`; the model puts no bound on memory. -/
def gen_levels (g : Graph) (k : Int) (degree : List Int) :
    Nat → List (List Int) → Option (List (List Int))
  | 0, out => some out
  | d + 1, out =>
    if k < 0 then none
    else
      let next := out.flatMap (expand g k degree)
      if next.isEmpty then some next else gen_levels g k degree d next

/-- The function `generate_subproblems`; the result is the final content of `out`,
or `none` when `next.reserve` throws `std::length_error`. -/
def generate_subproblems (g : Graph) (k : Int) (degree : List Int) (split_depth : Int) :
    Option (List (List Int)) :=
  gen_levels g k degree split_depth.toNat [uncolored g]

/-! ## Greedy pre-pass (`solver_greedy.cpp`) -/

/-- The loop `for (step = 0; step < g.n; step++)` of `color_greedy_dsatur` with
`steps` iterations left. -/
def greedy_loop (g : Graph) (k : Int) (degree : List Int) :
    Nat → List Int → Nat → ColoringResult
  | 0, color, nodes => ⟨true, color, nodes, 0⟩
  | steps + 1, color, nodes =>
    let u := choose_vertex_dsatur g color degree
    if u = -1 then ⟨true, color, nodes, 0⟩
    else
      match (colors k).find? (fun c => can_color g u.toNat c color) with
      | none => ⟨false, [], nodes + 1, 0⟩
      | some c => greedy_loop g k degree steps (color.set u.toNat c) (nodes + 1)

/-- The function `color_greedy_dsatur`. -/
def color_greedy_dsatur (g : Graph) (k : Int) : ColoringResult :=
  greedy_loop g k (degrees g) g.n (uncolored g) 0

/-! ## Two-colour fast path (`solver_k2.cpp`) -/

/-- The mutable state of the breadth-first search: `res.color`, the queue `q`
(front first) and `res.nodes`. -/
structure Bfs where
  color : List Int
  q : List Nat
  nodes : Nat
deriving DecidableEq, Repr

/-- The loop `for (int v : g.adj[u])` of `color_two_color_bipartite` over the rest
`vs` of the adjacency list.  `Except.error nodes` is the early return with
`success = false`, carrying the counter. -/
def bfs_visit (u : Nat) : List Nat → Bfs → Except Nat Bfs
  | [], s => .ok s
  | v :: vs, s =>
    if s.color.getD v 0 = -1 then
      bfs_visit u vs { s with color := s.color.set v (1 - s.color.getD u 0), q := s.q ++ [v] }
    else if s.color.getD v 0 = s.color.getD u 0 then .error s.nodes
    else bfs_visit u vs s

/-- The loop `while (!q.empty())` of `color_two_color_bipartite`; each iteration
uses one unit of fuel. -/
def bfs_while (g : Graph) : Nat → Bfs → Option (Except Nat Bfs)
  | 0, s => if s.q = [] then some (.ok s) else none
  | fuel + 1, s =>
    match s.q with
    | [] => some (.ok s)
    | u :: rest =>
      match bfs_visit u (g.nbrs u) { s with q := rest, nodes := s.nodes + 1 } with
      | .error e => some (.error e)
      | .ok s1 => bfs_while g fuel s1

/-- The loop `for (start = 0; start < g.n; start++)` of `color_two_color_bipartite`
over the remaining start vertices. -/
def bfs_starts (g : Graph) : List Nat → Bfs → Option (Except Nat Bfs)
  | [], s => some (.ok s)
  | start :: rest, s =>
    if s.color.getD start 0 ≠ -1 then bfs_starts g rest s
    else
      match bfs_while g g.n { s with color := s.color.set start 0, q := s.q ++ [start] } with
      | none => none
      | some (.error e) => some (.error e)
      | some (.ok s1) => bfs_starts g rest s1

/-- The function `color_two_color_bipartite`; `none` only if the fuel `g.n` given to
each `while` loop were too little. -/
def color_two_color_bipartite (g : Graph) : Option ColoringResult :=
  match bfs_starts g (List.range g.n) ⟨uncolored g, [], 0⟩ with
  | none => none
  | some (.error nodes) => some ⟨false, [], nodes, 0⟩
  | some (.ok s) => some ⟨true, s.color, s.nodes, 0⟩

/-! ## Serial entry point (`solver_serial.cpp`) -/

/-- The initial search state built by `color_serial_exact`. -/
def Search.start (g : Graph) : Search := ⟨uncolored g, 0, 0, 0⟩

/-- The function `color_serial_exact`.  `expired` is the deadline oracle
(`max_seconds = 0` is `fun _ => false`); `none` only if the fuel `g.n + 1` given to
the engine were too little. -/
def color_serial_exact (g : Graph) (k : Int) (expired : Nat → Bool) : Option ColoringResult :=
  if k = 2 then color_two_color_bipartite g
  else
    let gr := color_greedy_dsatur g k
    if gr.success then some gr
    else
      match backtrack_exact g k (degrees g) expired (g.n + 1) (Search.start g) with
      | none => none
      | some (ok, s) => some ⟨ok, if ok then s.color else [], s.nodes, s.backtracks⟩

/-- No deadline: `max_seconds = 0`, the deadline test is never true. -/
def no_deadline : Nat → Bool := fun _ => false

/-- The stop flag is never set. -/
def never_found : Nat → Bool := fun _ => false

/-! ## Specification vocabulary -/

/-- A complete proper `k`-colouring: one colour in `{0, …, k-1}` per vertex and no
edge with equal endpoints. -/
def IsProperColoring (g : Graph) (k : Int) (A : List Int) : Prop :=
  A.length = g.n ∧
  (∀ u, u < g.n → 0 ≤ A.getD u 0 ∧ A.getD u 0 < k) ∧
  (∀ u, u < g.n → ∀ v ∈ g.nbrs u, A.getD u 0 ≠ A.getD v 0)

/-- A proper partial assignment: length `n`, every entry either `-1` or a colour in
`{0, …, k-1}`, and no coloured vertex has a neighbour of its own colour. -/
def IsPartialColoring (g : Graph) (k : Int) (A : List Int) : Prop :=
  A.length = g.n ∧
  (∀ u, u < g.n → A.getD u 0 = -1 ∨ (0 ≤ A.getD u 0 ∧ A.getD u 0 < k)) ∧
  (∀ u, u < g.n → A.getD u 0 ≠ -1 → ∀ v ∈ g.nbrs u, A.getD v 0 ≠ A.getD u 0)

instance (g : Graph) (k : Int) (A : List Int) : Decidable (IsProperColoring g k A) := by
  unfold IsProperColoring; infer_instance

instance (g : Graph) (k : Int) (A : List Int) : Decidable (IsPartialColoring g k A) := by
  unfold IsPartialColoring; infer_instance

/-- Assignment `C` agrees with `A` on every vertex that `A` has coloured. -/
def Agrees (g : Graph) (A C : List Int) : Prop :=
  ∀ u, u < g.n → A.getD u 0 ≠ -1 → C.getD u 0 = A.getD u 0

instance (g : Graph) (A C : List Int) : Decidable (Agrees g A C) := by
  unfold Agrees; infer_instance

/-- The graph has some proper `k`-colouring. -/
def Colorable (g : Graph) (k : Int) : Prop := ∃ C, IsProperColoring g k C

/-- Number of uncoloured entries of an assignment. -/
def uncoloredCount (A : List Int) : Nat := A.count (-1)

/-- Saturation of `u` as the spec words it: the number of distinct colours other
than `-1` among the neighbours of `u`. -/
def saturation (g : Graph) (A : List Int) (u : Nat) : Nat :=
  (((g.nbrs u).map (fun v => A.getD v 0)).filter (fun c => c != -1)).toFinset.card

/-- The calls `add_edge(u, v)` for each listed pair, first to last, starting on `g`;
`none` if some call throws. -/
def Graph.add_edges : Graph → List (Int × Int) → Option Graph
  | g, [] => some g
  | g, e :: es =>
    match g.add_edge e.1 e.2 with
    | none => none
    | some g1 => g1.add_edges es

/-- The graph `Graph(n)` after `add_edge` for each listed pair in order. -/
def Graph.build (n : Nat) (es : List (Int × Int)) : Option Graph :=
  (Graph.init n).add_edges es

/-- Chromatic number as the verifier sees it: the least `k ≥ 0` for which some
assignment is accepted. -/
def IsChromaticNumber (g : Graph) (χ : Int) : Prop :=
  0 ≤ χ ∧ (∃ A, verify_coloring g A χ = true) ∧
    ∀ j, 0 ≤ j → j < χ → ¬ ∃ A, verify_coloring g A j = true

/-- A 3-colourable graph on 7 vertices on which the greedy pre-pass fails with
three colours. -/
def hardGraph : Graph :=
  ⟨7, [[1, 5, 6], [0, 4, 6], [3, 4, 5], [2, 4, 5], [1, 2, 3], [0, 2, 3], [0, 1]]⟩

/-- The triangle `K₃` built by `add_edge(0,1)`, `add_edge(1,2)`, `add_edge(0,2)`. -/
def triangle : Graph := ⟨3, [[1, 2], [0, 2], [1, 0]]⟩

/-- The path `0 - 1 - 2`. -/
def path3 : Graph := ⟨3, [[1], [0, 2], [1]]⟩

/-! ## Threaded entry point (`solver_threads.cpp`) -/

/-- What a call of `color_threads_exact` does: it returns a record, or a `reserve`
call throws `std::length_error` (`next.reserve` inside `generate_subproblems`, or
`pool.reserve(threads)`), or two or more workers run concurrently, which is outside
this embedding. -/
inductive ThreadsOutcome where
  | result (r : ColoringResult)
  | length_error
  | concurrent
deriving DecidableEq, Repr

/-- The loop of one worker of `color_threads_exact` when it is the only worker: the
remaining queue, the two shared sums and the observation counter.  No other thread
can set the flag, so every load of `found` inside the loop and inside the engine
reads `false`; the worker sets it itself after a success and returns. -/
def worker_loop (g : Graph) (k : Int) (degree : List Int) (expired : Nat → Bool) (fuel : Nat) :
    List (List Int) → Nat → Nat → Nat → Option ColoringResult
  | [], nodes_sum, backs_sum, _ => some ⟨false, [], nodes_sum, backs_sum⟩
  | sp :: work, nodes_sum, backs_sum, clock =>
    if expired (clock + 1) then some ⟨false, [], nodes_sum, backs_sum⟩
    else
      match backtrack_exact_stop g k degree never_found expired fuel ⟨sp, 0, 0, clock + 2⟩ with
      | none => none
      | some (true, s1) =>
        some ⟨true, s1.color, nodes_sum + s1.nodes, backs_sum + s1.backtracks⟩
      | some (false, s1) =>
        worker_loop g k degree expired fuel work (nodes_sum + s1.nodes)
          (backs_sum + s1.backtracks) s1.clock

/-- The function `color_threads_exact` for at most one worker.  An exception thrown
by `generate_subproblems` leaves the function.  With `threads < 0` the conversion of
`threads` to `size_t` in `pool.reserve(threads)` exceeds `max_size()` and the call
throws; with `threads = 0` no worker is started; with `threads = 1` the single
worker runs `worker_loop`.  `none` only if the fuel `g.n + 1` given to the engine
were too little. -/
def color_threads_exact (g : Graph) (k : Int) (threads split_depth : Int)
    (expired : Nat → Bool) : Option ThreadsOutcome :=
  if k = 2 then (color_two_color_bipartite g).map ThreadsOutcome.result
  else
    let gr := color_greedy_dsatur g k
    if gr.success then some (.result gr)
    else
      match generate_subproblems g k (degrees g) split_depth with
      | none => some .length_error
      | some subs =>
        if threads < 0 then some .length_error
        else if threads = 0 then some (.result ⟨false, [], 0, 0⟩)
        else if threads = 1 then
          (worker_loop g k (degrees g) expired (g.n + 1) subs 0 0 0).map ThreadsOutcome.result
        else some .concurrent

/-- The single-edge graph on two vertices. -/
def edge2 : Graph := ⟨2, [[1], [0]]⟩

/-! ## Generator of complete graphs (`generate.cpp`) -/

/-- The pairs `(i, j)` visited by the two loops of `make_complete`, in order. -/
def complete_pairs (n : Nat) : List (Int × Int) :=
  (List.range n).flatMap (fun i : Nat =>
    (List.range' (i + 1) (n - (i + 1))).map (fun j : Nat => ((i : Int), (j : Int))))

/-- The function `make_complete`: `Graph(n)` followed by `add_edge(i, j)` for all
`i < j < n`; `none` if a call of `add_edge` throws. -/
def make_complete (n : Nat) : Option Graph := Graph.build n (complete_pairs n)

/-! ## Invariants used in the proofs -/

/-- What the scan of `choose_vertex_dsatur` holds after the vertices below `m`. -/
def ScanInv (g : Graph) (color degree : List Int) (m : Nat) (b : Best) : Prop :=
  ((∀ u, u < m → color.getD u 0 ≠ -1) ∧ b = ⟨-1, -1, -1⟩) ∨
  ∃ u, u < m ∧ color.getD u 0 = -1 ∧ b = ⟨(u : Int), sat_of g color u, degree.getD u 0⟩ ∧
    ∀ w, w < m → color.getD w 0 = -1 →
      (sat_of g color w < sat_of g color u ∨
        (sat_of g color w = sat_of g color u ∧ degree.getD w 0 < degree.getD u 0) ∨
        (sat_of g color w = sat_of g color u ∧ degree.getD w 0 = degree.getD u 0 ∧ u ≤ w))


/-- Vertex `w` is finished: each neighbour is coloured, none with the colour of `w`. -/
def Finished (g : Graph) (color : List Int) (w : Nat) : Prop :=
  ∀ v ∈ g.nbrs w, color.getD v 0 ≠ -1 ∧ color.getD v 0 ≠ color.getD w 0

/-- Invariant of the breadth-first search between two iterations of the `while`
loop: colours are `-1`, `0` or `1`, queued vertices are coloured, and every coloured
vertex is queued or finished. -/
structure BfsInv (g : Graph) (s : Bfs) : Prop where
  len : s.color.length = g.n
  vals : ∀ w, w < g.n → s.color.getD w 0 = -1 ∨ s.color.getD w 0 = 0 ∨ s.color.getD w 0 = 1
  queued : ∀ w ∈ s.q, w < g.n ∧ s.color.getD w 0 ≠ -1
  fin : ∀ w, w < g.n → s.color.getD w 0 ≠ -1 → w ∈ s.q ∨ Finished g s.color w

/-- Invariant of the breadth-first search inside the adjacency loop of the popped
vertex `u`, with `vs` the part of the adjacency list still to visit. -/
structure VisitInv (g : Graph) (u : Nat) (vs : List Nat) (s : Bfs) : Prop where
  len : s.color.length = g.n
  vals : ∀ w, w < g.n → s.color.getD w 0 = -1 ∨ s.color.getD w 0 = 0 ∨ s.color.getD w 0 = 1
  queued : ∀ w ∈ s.q, w < g.n ∧ s.color.getD w 0 ≠ -1
  cur : u < g.n ∧ s.color.getD u 0 ≠ -1
  sub : ∀ v ∈ vs, v ∈ g.nbrs u
  pending : ∀ v ∈ g.nbrs u,
    v ∈ vs ∨ (s.color.getD v 0 ≠ -1 ∧ s.color.getD v 0 ≠ s.color.getD u 0)
  fin : ∀ w, w < g.n → s.color.getD w 0 ≠ -1 → w ∈ s.q ∨ w = u ∨ Finished g s.color w

/-- Colours already given are kept. -/
def Keeps (A B : List Int) : Prop := ∀ w, A.getD w 0 ≠ -1 → B.getD w 0 = A.getD w 0

/-- Two search states that differ at most in the observation counter. -/
def SameRun (s t : Search) : Prop :=
  s.color = t.color ∧ s.nodes = t.nodes ∧ s.backtracks = t.backtracks

/-- Two engine results that differ at most in the observation counter. -/
def SameResult : Option (Bool × Search) → Option (Bool × Search) → Prop
  | none, none => True
  | some (b, s), some (c, t) => b = c ∧ SameRun s t
  | _, _ => False

/-- The graph model invariant: one adjacency list per vertex, every entry a vertex,
no vertex in its own list, and each unordered pair listed equally often on both
sides. -/
def Graph.ModelInv (g : Graph) : Prop :=
  g.adj.length = g.n ∧
  (∀ u, u < g.n → ∀ v ∈ g.nbrs u, v < g.n) ∧
  (∀ u, u ∉ g.nbrs u) ∧
  (∀ u v, (g.nbrs u).count v = (g.nbrs v).count u)

/-- The part of the breadth-first invariant that needs no assumption on the graph:
colours are `-1`, `0` or `1` and queued vertices are coloured. -/
def BfsLight (s : Bfs) : Prop :=
  (∀ w, s.color.getD w 0 = -1 ∨ s.color.getD w 0 = 0 ∨ s.color.getD w 0 = 1) ∧
  (∀ w ∈ s.q, s.color.getD w 0 ≠ -1)

/-- The counter `res.nodes` at the end of a loop of the breadth-first search. -/
def bfsNodes : Except Nat Bfs → Nat
  | .ok s => s.nodes
  | .error e => e

/-- The shape of a result record for a graph with `n` vertices: empty assignment on
failure, `n` entries on success. -/
def RecordShape (n : Nat) (r : ColoringResult) : Prop :=
  (r.success = false → r.color = []) ∧ (r.success = true → r.color.length = n)

/-- Search state `s` is state `t` with the counters raised by `nd` and `bk`; the
observation counter is free. -/
def Offset (nd bk : Nat) (s t : Search) : Prop :=
  s.color = t.color ∧ s.nodes = t.nodes + nd ∧ s.backtracks = t.backtracks + bk

/-- Two engine results that differ by the offsets `nd` and `bk` of the counters. -/
def OffsetResult (nd bk : Nat) : Option (Bool × Search) → Option (Bool × Search) → Prop
  | none, none => True
  | some (b, s), some (c, t) => b = c ∧ Offset nd bk s t
  | _, _ => False

/-- The single worker with no deadline, written with the serial engine: run the
sub-problems in order with fresh counters, add the counters up, stop at the first
success. -/
def seq_search (g : Graph) (k : Int) (degree : List Int) (fuel : Nat) :
    List (List Int) → Nat → Nat → Option ColoringResult
  | [], ns, bs => some ⟨false, [], ns, bs⟩
  | sp :: rest, ns, bs =>
    match backtrack_exact g k degree no_deadline fuel ⟨sp, 0, 0, 0⟩ with
    | none => none
    | some (true, s1) => some ⟨true, s1.color, ns + s1.nodes, bs + s1.backtracks⟩
    | some (false, s1) =>
      seq_search g k degree fuel rest (ns + s1.nodes) (bs + s1.backtracks)

/-- The bound `1 + k + … + k^r` on the nodes of a search with `r` uncoloured
vertices, by its recurrence. -/
def nodeBound (k : Nat) : Nat → Nat
  | 0 => 1
  | r + 1 => 1 + k * nodeBound k r

/-- A walk of `g` from `u` to `v` with `L` edges. -/
inductive Walk (g : Graph) (u : Nat) : Nat → Nat → Prop
  | nil : Walk g u u 0
  | cons {w v L : Nat} : Walk g u w L → v ∈ g.nbrs w → Walk g u v (L + 1)

/-- Vertex `v` lies in the connected component of `u`. -/
def Reach (g : Graph) (u v : Nat) : Prop := ∃ L, Walk g u v L

/-- The shortest-path distance from `u` to `v` is `L`. -/
def IsDist (g : Graph) (u v L : Nat) : Prop :=
  Walk g u v L ∧ ∀ L1, Walk g u v L1 → L ≤ L1

/-- Vertex `m` is the lowest-numbered vertex of its connected component. -/
def IsComponentMin (g : Graph) (m : Nat) : Prop :=
  m < g.n ∧ ∀ x, Reach g m x → m ≤ x

/-- The bipartite graph with edges `(0,3), (0,4), (1,3), (1,4), (2,3), (2,4)`. -/
def bip5 : Graph := ⟨5, [[3, 4], [3, 4], [3, 4], [0, 1, 2], [0, 1, 2]]⟩

/-- The list that the loop of `generate_subproblems` builds in `d` iterations when no
`reserve` call throws. -/
def gen_levels_list (g : Graph) (k : Int) (degree : List Int) :
    Nat → List (List Int) → List (List Int)
  | 0, out => out
  | d + 1, out =>
    let next := out.flatMap (expand g k degree)
    if next.isEmpty then next else gen_levels_list g k degree d next

/-- The list that `generate_subproblems` returns when no `reserve` call throws. -/
def subproblem_list (g : Graph) (k : Int) (degree : List Int) (split_depth : Int) :
    List (List Int) :=
  gen_levels_list g k degree split_depth.toNat [uncolored g]

/-! ## Vectors -/

theorem getD_set_self (l : List Int) (u : Nat) (c : Int) (h : u < l.length) :
    (l.set u c).getD u 0 = c := by
  simp [List.getD_eq_getElem?_getD, List.getElem?_set, h]

theorem getD_set_other (l : List Int) (u w : Nat) (c : Int) (h : u ≠ w) :
    (l.set u c).getD w 0 = l.getD w 0 := by
  simp [List.getD_eq_getElem?_getD, List.getElem?_set, h]

theorem lt_length_of_getD_ne {l : List Int} {u : Nat} (h : l.getD u 0 ≠ 0) : u < l.length := by
  by_contra hlt
  apply h
  simp [List.getD_eq_getElem?_getD, List.getElem?_eq_none (Nat.le_of_not_lt hlt)]

theorem lt_length_of_uncolored {l : List Int} {u : Nat} (h : l.getD u 0 = -1) : u < l.length :=
  lt_length_of_getD_ne (by rw [h]; decide)

theorem set_restore (l : List Int) (u : Nat) (c : Int) (h : l.getD u 0 = -1) :
    (l.set u c).set u (-1) = l := by
  have hlt := lt_length_of_uncolored h
  rw [List.set_set]
  apply List.ext_getElem?
  intro i
  by_cases hi : u = i
  · subst hi
    have : l[u]? = some (-1) := by
      rw [List.getD_eq_getElem?_getD, List.getElem?_eq_getElem hlt] at h
      rw [List.getElem?_eq_getElem hlt]
      simpa using h
    simp [List.getElem?_set, hlt, this]
  · simp [List.getElem?_set, hi]

theorem count_set_uncolored (l : List Int) (u : Nat) (c : Int) (h : l.getD u 0 = -1)
    (hc : c ≠ -1) : uncoloredCount (l.set u c) + 1 = uncoloredCount l := by
  unfold uncoloredCount
  induction l generalizing u with
  | nil => simp at h
  | cons a t ih =>
    cases u with
    | zero =>
      simp at h
      subst h
      simp [List.count_cons, hc]
    | succ u =>
      simp at h
      have := ih u (by simpa using h)
      by_cases ha : a = -1
      · simp [List.count_cons, ha]; omega
      · simp [List.count_cons, ha]; omega

theorem getD_uncolored (g : Graph) (u : Nat) (h : u < g.n) : (uncolored g).getD u 0 = -1 := by
  simp [uncolored, List.getD_eq_getElem?_getD, List.getElem?_replicate, h]

theorem uncoloredCount_uncolored (g : Graph) : uncoloredCount (uncolored g) = g.n := by
  simp [uncoloredCount, uncolored]

theorem exists_uncolored_of_count {l : List Int} (h : 0 < uncoloredCount l) :
    ∃ u, u < l.length ∧ l.getD u 0 = -1 := by
  unfold uncoloredCount at h
  have hm : (-1 : Int) ∈ l := List.count_pos_iff.mp h
  obtain ⟨i, hi, he⟩ := List.getElem_of_mem hm
  exact ⟨i, hi, by simp [List.getD_eq_getElem?_getD, List.getElem?_eq_getElem hi, he]⟩

theorem count_zero_of_all_colored {l : List Int} (h : ∀ u, u < l.length → l.getD u 0 ≠ -1) :
    uncoloredCount l = 0 := by
  by_contra hne
  obtain ⟨u, hu, he⟩ := exists_uncolored_of_count (Nat.pos_of_ne_zero hne)
  exact h u hu he

theorem mem_colors {k c : Int} : c ∈ colors k ↔ 0 ≤ c ∧ c < k := by
  unfold colors
  constructor
  · intro h
    obtain ⟨i, hi, rfl⟩ := List.mem_map.mp h
    have := List.mem_range.mp hi
    constructor
    · exact Int.ofNat_nonneg i
    · have : (i : Int) < (k.toNat : Int) := by exact_mod_cast this
      have h2 : (k.toNat : Int) = max k 0 := Int.toNat_eq_max k
      show (i : Int) < k
      omega
  · rintro ⟨h0, hk⟩
    refine List.mem_map.mpr ⟨c.toNat, List.mem_range.mpr ?_, ?_⟩
    · omega
    · show (c.toNat : Int) = c
      omega

theorem colors_nodup (k : Int) : (colors k).Nodup := by
  unfold colors
  exact (List.nodup_range _).map (fun a b h => by simpa using h)

theorem can_color_iff (g : Graph) (u : Nat) (c : Int) (color : List Int) :
    can_color g u c color = true ↔ ∀ v ∈ g.nbrs u, color.getD v 0 ≠ c := by
  simp [can_color, List.all_eq_true]

/-! ## The DSATUR chooser -/

theorem sat_of_nonneg (g : Graph) (color : List Int) (u : Nat) : 0 ≤ sat_of g color u := by
  unfold sat_of; exact Int.ofNat_nonneg _

theorem scan_inv (g : Graph) (color degree : List Int) (m : Nat) :
    ScanInv g color degree m ((List.range m).foldl (choose_step g color degree) ⟨-1, -1, -1⟩) := by
  induction m with
  | zero => left; exact ⟨fun u hu => absurd hu (Nat.not_lt_zero u), rfl⟩
  | succ m ih =>
    rw [List.range_succ, List.foldl_append]
    simp only [List.foldl_cons, List.foldl_nil]
    generalize (List.range m).foldl (choose_step g color degree) ⟨-1, -1, -1⟩ = b at ih
    unfold choose_step
    by_cases hm : color.getD m 0 = -1
    · rw [if_neg (not_not.mpr hm)]
      rcases ih with ⟨hall, rfl⟩ | ⟨u, hu, huc, rfl, hmax⟩
      · have h0 := sat_of_nonneg g color m
        have hgt : sat_of g color m > -1 := by omega
        simp only [hgt, true_or, if_true]
        right
        refine ⟨m, Nat.lt_succ_self m, hm, rfl, ?_⟩
        intro w hw hwc
        rcases Nat.lt_succ_iff_lt_or_eq.mp hw with h | h
        · exact absurd hwc (hall w h)
        · subst h; right; right; exact ⟨rfl, rfl, le_refl _⟩
      · simp only []
        split
        · rename_i hupd
          right
          refine ⟨m, Nat.lt_succ_self m, hm, rfl, ?_⟩
          intro w hw hwc
          rcases Nat.lt_succ_iff_lt_or_eq.mp hw with h | h
          · have := hmax w h hwc
            omega
          · subst h; right; right; exact ⟨rfl, rfl, le_refl _⟩
        · rename_i hupd
          right
          refine ⟨u, Nat.lt_succ_of_lt hu, huc, rfl, ?_⟩
          intro w hw hwc
          rcases Nat.lt_succ_iff_lt_or_eq.mp hw with h | h
          · exact hmax w h hwc
          · subst h
            have : u ≤ w := Nat.le_of_lt hu
            omega
    · rw [if_pos hm]
      rcases ih with ⟨hall, rfl⟩ | ⟨u, hu, huc, rfl, hmax⟩
      · left
        refine ⟨?_, rfl⟩
        intro w hw
        rcases Nat.lt_succ_iff_lt_or_eq.mp hw with h | h
        · exact hall w h
        · subst h; exact hm
      · right
        refine ⟨u, Nat.lt_succ_of_lt hu, huc, rfl, ?_⟩
        intro w hw hwc
        rcases Nat.lt_succ_iff_lt_or_eq.mp hw with h | h
        · exact hmax w h hwc
        · subst h; exact absurd hwc hm

theorem choose_inv (g : Graph) (color degree : List Int) :
    ((∀ u, u < g.n → color.getD u 0 ≠ -1) ∧ choose_vertex_dsatur g color degree = -1) ∨
    ∃ u, u < g.n ∧ color.getD u 0 = -1 ∧ choose_vertex_dsatur g color degree = (u : Int) ∧
      ∀ w, w < g.n → color.getD w 0 = -1 →
        (sat_of g color w < sat_of g color u ∨
          (sat_of g color w = sat_of g color u ∧ degree.getD w 0 < degree.getD u 0) ∨
          (sat_of g color w = sat_of g color u ∧ degree.getD w 0 = degree.getD u 0 ∧ u ≤ w)) := by
  have h := scan_inv g color degree g.n
  unfold choose_vertex_dsatur
  rcases h with ⟨hall, hb⟩ | ⟨u, hu, huc, hb, hmax⟩
  · left; exact ⟨hall, by rw [hb]⟩
  · right; exact ⟨u, hu, huc, by rw [hb], hmax⟩

theorem choose_eq_neg_one_iff (g : Graph) (color degree : List Int) :
    choose_vertex_dsatur g color degree = -1 ↔ ∀ u, u < g.n → color.getD u 0 ≠ -1 := by
  rcases choose_inv g color degree with ⟨hall, he⟩ | ⟨u, hu, huc, he, _⟩
  · exact ⟨fun _ => hall, fun _ => he⟩
  · constructor
    · intro h; rw [he] at h; omega
    · intro h; exact absurd huc (h u hu)

theorem choose_uncolored (g : Graph) (color degree : List Int)
    (h : choose_vertex_dsatur g color degree ≠ -1) :
    (choose_vertex_dsatur g color degree).toNat < g.n ∧
      color.getD (choose_vertex_dsatur g color degree).toNat 0 = -1 := by
  rcases choose_inv g color degree with ⟨_, he⟩ | ⟨u, hu, huc, he, _⟩
  · exact absurd he h
  · rw [he]; simp only [Int.toNat_ofNat]; exact ⟨hu, huc⟩

/-! ## Saturation: sort, unique, size counts the distinct colours -/

theorem mem_unique (x : Int) (l : List Int) : x ∈ unique l ↔ x ∈ l := by
  induction l using unique.induct with
  | case1 => simp [unique]
  | case2 a => simp [unique]
  | case3 a t ih =>
    rw [unique, if_pos rfl, ih]
    simp
  | case4 a b t hab ih =>
    rw [unique, if_neg hab, List.mem_cons, ih, List.mem_cons]
    simp

theorem unique_nodup (l : List Int) (h : l.Sorted (· ≤ ·)) : (unique l).Nodup := by
  induction l using unique.induct with
  | case1 => simp [unique]
  | case2 a => simp [unique]
  | case3 a t ih =>
    rw [unique, if_pos rfl]
    exact ih (List.Sorted.of_cons h)
  | case4 a b t hab ih =>
    rw [unique, if_neg hab]
    refine List.nodup_cons.mpr ⟨?_, ih (List.Sorted.of_cons h)⟩
    rw [mem_unique]
    intro hmem
    have h1 : a ≤ b := List.rel_of_sorted_cons h b (List.mem_cons_self b t)
    rcases List.mem_cons.mp hmem with h2 | h2
    · exact hab h2
    · have h3 : b ≤ a := List.rel_of_sorted_cons (List.Sorted.of_cons h) a h2
      exact hab (le_antisymm h1 h3)

theorem sat_of_eq_saturation (g : Graph) (A : List Int) (u : Nat) :
    sat_of g A u = (saturation g A u : Int) := by
  unfold sat_of saturation seen_colors
  generalize ((g.nbrs u).map (fun v => A.getD v 0)).filter (fun c => c != -1) = l
  have hs : (l.insertionSort (· ≤ ·)).Sorted (· ≤ ·) := List.sorted_insertionSort _ l
  have hn := unique_nodup _ hs
  rw [← List.toFinset_card_of_nodup hn]
  congr 2
  ext x
  simp only [List.mem_toFinset, mem_unique]
  exact (List.perm_insertionSort (· ≤ ·) l).mem_iff


/-! ## The engine: frame, termination, inversion -/

theorem color_loop_frame (recur : Search → Option (Bool × Search)) (g : Graph) (u : Nat)
    (hrec : ∀ t r, recur t = some (false, r) → r.color = t.color)
    (cs : List Int) (s s1 : Search) (hu : s.color.getD u 0 = -1)
    (h : color_loop recur g u cs s = some (false, s1)) : s1.color = s.color := by
  induction cs generalizing s with
  | nil =>
    simp only [color_loop, Option.some.injEq, Prod.mk.injEq, true_and] at h
    rw [← h]
  | cons c cs ih =>
    rw [color_loop] at h
    split at h
    · exact ih s hu h
    · split at h
      · exact absurd h (by simp)
      · exact absurd h (by simp)
      · rename_i r heq
        have hr := hrec _ _ heq
        simp only at hr
        have hres : r.color.set u (-1) = s.color := by rw [hr]; exact set_restore _ _ _ hu
        have := ih { r with color := r.color.set u (-1) } (by simp only [hres]; exact hu) h
        rw [this]; exact hres

theorem backtrack_exact_frame (g : Graph) (k : Int) (degree : List Int) (expired : Nat → Bool)
    (fuel : Nat) (s s1 : Search)
    (h : backtrack_exact g k degree expired fuel s = some (false, s1)) : s1.color = s.color := by
  induction fuel generalizing s s1 with
  | zero => simp [backtrack_exact] at h
  | succ fuel ih =>
    rw [backtrack_exact] at h
    split at h
    · simp only [Option.some.injEq, Prod.mk.injEq, true_and] at h
      rw [← h]
    · simp only at h
      split at h
      · exact absurd h (by simp)
      · rename_i hne
        have hu := (choose_uncolored g s.color degree hne).2
        exact color_loop_frame _ g _ (fun t r => ih t r) _
          { s with nodes := s.nodes + 1, clock := s.clock + 1 } s1 hu h

theorem color_loop_total (recur : Search → Option (Bool × Search)) (g : Graph) (u : Nat)
    (m : Nat)
    (hrec : ∀ t, uncoloredCount t.color ≤ m → ∃ r, recur t = some r)
    (hfr : ∀ t r, recur t = some (false, r) → r.color = t.color)
    (cs : List Int) (hcs : ∀ c ∈ cs, c ≠ -1) (s : Search) (hu : s.color.getD u 0 = -1)
    (hm : uncoloredCount s.color ≤ m + 1) :
    ∃ r, color_loop recur g u cs s = some r := by
  induction cs generalizing s with
  | nil => exact ⟨_, rfl⟩
  | cons c cs ih =>
    have hcs1 : ∀ c ∈ cs, c ≠ -1 := fun c hc => hcs c (List.mem_cons_of_mem _ hc)
    rw [color_loop]
    split
    · exact ih hcs1 s hu hm
    · have hcnt := count_set_uncolored s.color u c hu (hcs c (List.mem_cons_self c cs))
      obtain ⟨⟨b, r⟩, hr⟩ := hrec { s with color := s.color.set u c } (by simp only; omega)
      rw [hr]
      cases b with
      | true => exact ⟨_, rfl⟩
      | false =>
        have hfr1 := hfr _ _ hr
        simp only at hfr1
        have hres : r.color.set u (-1) = s.color := by rw [hfr1]; exact set_restore _ _ _ hu
        exact ih hcs1 { r with color := r.color.set u (-1) } (by simp only [hres]; exact hu)
          (by simp only [hres]; exact hm)

theorem colors_ne_neg_one (k : Int) : ∀ c ∈ colors k, c ≠ -1 := by
  intro c hc
  have := (mem_colors.mp hc).1
  omega

theorem backtrack_exact_total (g : Graph) (k : Int) (degree : List Int) (expired : Nat → Bool)
    (fuel : Nat) (s : Search) (h : uncoloredCount s.color < fuel) :
    ∃ r, backtrack_exact g k degree expired fuel s = some r := by
  induction fuel generalizing s with
  | zero => exact absurd h (Nat.not_lt_zero _)
  | succ fuel ih =>
    rw [backtrack_exact]
    split
    · exact ⟨_, rfl⟩
    · simp only
      split
      · exact ⟨_, rfl⟩
      · rename_i hne
        have hu := (choose_uncolored g s.color degree hne).2
        cases fuel with
        | zero =>
          have h0 : uncoloredCount s.color = 0 := by omega
          have hpos : 0 < s.color.count (-1) := by
            apply List.count_pos_iff.mpr
            have hlt := lt_length_of_uncolored hu
            rw [List.getD_eq_getElem?_getD, List.getElem?_eq_getElem hlt] at hu
            simp only [Option.getD_some] at hu
            rw [← hu]
            exact List.getElem_mem hlt
          unfold uncoloredCount at h0
          omega
        | succ m =>
          exact color_loop_total _ g _ m (fun t ht => ih t (by omega))
            (fun t r => backtrack_exact_frame g k degree expired _ t r) _ (colors_ne_neg_one k)
            _ hu (by simp only; omega)

theorem color_loop_true_inv (recur : Search → Option (Bool × Search)) (g : Graph) (u : Nat)
    (hfr : ∀ t r, recur t = some (false, r) → r.color = t.color)
    (cs : List Int) (s s1 : Search) (hu : s.color.getD u 0 = -1)
    (h : color_loop recur g u cs s = some (true, s1)) :
    ∃ c ∈ cs, can_color g u c s.color = true ∧
      ∃ t, t.color = s.color.set u c ∧ recur t = some (true, s1) := by
  induction cs generalizing s with
  | nil => simp [color_loop] at h
  | cons c cs ih =>
    rw [color_loop] at h
    split at h
    · obtain ⟨c1, hc1, hrest⟩ := ih s hu h
      exact ⟨c1, List.mem_cons_of_mem _ hc1, hrest⟩
    · rename_i hcan
      split at h
      · exact absurd h (by simp)
      · rename_i r heq
        simp only [Option.some.injEq, Prod.mk.injEq, true_and] at h
        subst h
        exact ⟨c, List.mem_cons_self c cs, by simpa using hcan, _, rfl, heq⟩
      · rename_i r heq
        have hr := hfr _ _ heq
        simp only at hr
        have hres : r.color.set u (-1) = s.color := by rw [hr]; exact set_restore _ _ _ hu
        obtain ⟨c1, hc1, hrest⟩ :=
          ih { r with color := r.color.set u (-1) } (by simp only [hres]; exact hu) h
        simp only [hres] at hrest
        exact ⟨c1, List.mem_cons_of_mem _ hc1, hrest⟩

theorem color_loop_false_inv (recur : Search → Option (Bool × Search)) (g : Graph) (u : Nat)
    (hfr : ∀ t r, recur t = some (false, r) → r.color = t.color)
    (cs : List Int) (s s1 : Search) (hu : s.color.getD u 0 = -1)
    (h : color_loop recur g u cs s = some (false, s1)) :
    ∀ c ∈ cs, can_color g u c s.color = true →
      ∃ t r, t.color = s.color.set u c ∧ recur t = some (false, r) := by
  induction cs generalizing s with
  | nil => intro c hc; simp at hc
  | cons c cs ih =>
    rw [color_loop] at h
    split at h
    · rename_i hcan
      intro c1 hc1 hcan1
      rcases List.mem_cons.mp hc1 with rfl | hin
      · simp [hcan1] at hcan
      · exact ih s hu h c1 hin hcan1
    · split at h
      · exact absurd h (by simp)
      · exact absurd h (by simp)
      · rename_i r heq
        have hr := hfr _ _ heq
        simp only at hr
        have hres : r.color.set u (-1) = s.color := by rw [hr]; exact set_restore _ _ _ hu
        have hrest := ih { r with color := r.color.set u (-1) } (by simp only [hres]; exact hu) h
        simp only [hres] at hrest
        intro c1 hc1 hcan1
        rcases List.mem_cons.mp hc1 with rfl | hin
        · exact ⟨_, r, rfl, heq⟩
        · exact hrest c1 hin hcan1

/-! ## Assignments -/

theorem proper_of_partial_of_complete {g : Graph} {k : Int} {A : List Int}
    (hp : IsPartialColoring g k A) (hc : ∀ u, u < g.n → A.getD u 0 ≠ -1) :
    IsProperColoring g k A := by
  obtain ⟨hl, hv, he⟩ := hp
  refine ⟨hl, ?_, ?_⟩
  · intro u hu
    rcases hv u hu with h | h
    · exact absurd h (hc u hu)
    · exact h
  · intro u hu v hv1
    exact fun h => he u hu (hc u hu) v hv1 h.symm

theorem partial_set {g : Graph} (hg : g.WellFormed) {k : Int} {A : List Int}
    (hp : IsPartialColoring g k A) {u : Nat} (huc : A.getD u 0 = -1)
    {c : Int} (hc : c ∈ colors k) (hcan : can_color g u c A = true) :
    IsPartialColoring g k (A.set u c) := by
  obtain ⟨hl, hv, he⟩ := hp
  have hlt : u < A.length := lt_length_of_uncolored huc
  have hcr := mem_colors.mp hc
  rw [can_color_iff] at hcan
  refine ⟨by rw [List.length_set]; exact hl, ?_, ?_⟩
  · intro w hw
    by_cases hwu : u = w
    · subst hwu; rw [getD_set_self _ _ _ hlt]; right; exact hcr
    · rw [getD_set_other _ _ _ _ hwu]; exact hv w hw
  · intro w hw hwc v hvw
    have hwf := hg.2 w hw v hvw
    by_cases hwu : u = w
    · subst hwu
      rw [getD_set_self _ _ _ hlt, getD_set_other _ _ _ _ (Ne.symm hwf.2.1)]
      exact hcan v hvw
    · rw [getD_set_other _ _ _ _ hwu] at hwc ⊢
      by_cases hvu : u = v
      · subst hvu
        rw [getD_set_self _ _ _ hlt]
        exact fun h => hcan w hwf.2.2 h.symm
      · rw [getD_set_other _ _ _ _ hvu]
        exact he w hw hwc v hvw

theorem agrees_of_set {g : Graph} {A C : List Int} {u : Nat} {c : Int}
    (huc : A.getD u 0 = -1) (h : Agrees g (A.set u c) C) : Agrees g A C := by
  intro w hw hwc
  have hwu : u ≠ w := fun e => hwc (e ▸ huc)
  have := h w hw (by rw [getD_set_other _ _ _ _ hwu]; exact hwc)
  rw [getD_set_other _ _ _ _ hwu] at this
  exact this

theorem agrees_set {g : Graph} {A C : List Int} {u : Nat}
    (huc : A.getD u 0 = -1) (h : Agrees g A C) : Agrees g (A.set u (C.getD u 0)) C := by
  have hlt : u < A.length := lt_length_of_uncolored huc
  intro w hw hwc
  by_cases hwu : u = w
  · subst hwu; rw [getD_set_self _ _ _ hlt]
  · rw [getD_set_other _ _ _ _ hwu] at hwc ⊢
    exact h w hw hwc

theorem agrees_refl (g : Graph) (A : List Int) : Agrees g A A := fun _ _ _ => rfl

theorem can_color_of_agrees {g : Graph} (hg : g.WellFormed) {k : Int} {A C : List Int}
    (hC : IsProperColoring g k C) (h : Agrees g A C) {u : Nat} (hu : u < g.n) :
    can_color g u (C.getD u 0) A = true := by
  rw [can_color_iff]
  intro v hv
  have hvn := (hg.2 u hu v hv).1
  by_cases hvc : A.getD v 0 = -1
  · have := (hC.2.1 u hu).1
    omega
  · rw [← h v hvn hvc]
    exact fun e => hC.2.2 u hu v hv e.symm

theorem uncoloredCount_le_length (A : List Int) : uncoloredCount A ≤ A.length :=
  List.count_le_length _ _

/-! ## The engine: soundness and completeness -/

theorem backtrack_exact_sound {g : Graph} (hg : g.WellFormed) (k : Int) (degree : List Int)
    (expired : Nat → Bool) (fuel : Nat) (s s1 : Search) (hp : IsPartialColoring g k s.color)
    (h : backtrack_exact g k degree expired fuel s = some (true, s1)) :
    IsProperColoring g k s1.color ∧ Agrees g s.color s1.color := by
  induction fuel generalizing s s1 with
  | zero => simp [backtrack_exact] at h
  | succ fuel ih =>
    rw [backtrack_exact] at h
    split at h
    · exact absurd h (by simp)
    · simp only at h
      split at h
      · rename_i hch
        simp only [Option.some.injEq, Prod.mk.injEq, true_and] at h
        subst h
        exact ⟨proper_of_partial_of_complete hp ((choose_eq_neg_one_iff g s.color degree).mp hch),
          agrees_refl g _⟩
      · rename_i hne
        obtain ⟨hun, huc⟩ := choose_uncolored g s.color degree hne
        obtain ⟨c, hc, hcan, t, ht, hrec⟩ := color_loop_true_inv _ g _
          (fun t r => backtrack_exact_frame g k degree expired fuel t r) _
          { s with nodes := s.nodes + 1, clock := s.clock + 1 } s1 huc h
        simp only at ht hcan
        have hpt : IsPartialColoring g k t.color := by
          rw [ht]; exact partial_set hg hp huc hc hcan
        obtain ⟨h1, h2⟩ := ih t s1 hpt hrec
        rw [ht] at h2
        exact ⟨h1, agrees_of_set huc h2⟩

theorem backtrack_exact_complete {g : Graph} (hg : g.WellFormed) (k : Int) (degree : List Int)
    (fuel : Nat) (s : Search) (b : Bool) (s1 : Search) (hp : IsPartialColoring g k s.color)
    (C : List Int) (hC : IsProperColoring g k C) (hag : Agrees g s.color C)
    (h : backtrack_exact g k degree no_deadline fuel s = some (b, s1)) : b = true := by
  induction fuel generalizing s s1 b with
  | zero => simp [backtrack_exact] at h
  | succ fuel ih =>
    rw [backtrack_exact] at h
    simp only [no_deadline, Bool.false_eq_true, if_false] at h
    split at h
    · simp only [Option.some.injEq, Prod.mk.injEq] at h
      exact h.1.symm
    · rename_i hne
      obtain ⟨hun, huc⟩ := choose_uncolored g s.color degree hne
      cases b with
      | true => rfl
      | false =>
        exfalso
        have hmem : C.getD (choose_vertex_dsatur g s.color degree).toNat 0 ∈ colors k :=
          mem_colors.mpr (hC.2.1 _ hun)
        obtain ⟨t, r, ht, hrec⟩ := color_loop_false_inv _ g _
          (fun t r => backtrack_exact_frame g k degree no_deadline fuel t r) _
          { s with nodes := s.nodes + 1, clock := s.clock + 1 } s1 huc h _ hmem
          (can_color_of_agrees hg hC hag hun)
        simp only at ht
        have hpt : IsPartialColoring g k t.color := by
          rw [ht]; exact partial_set hg hp huc hmem (can_color_of_agrees hg hC hag hun)
        have := ih t false r hpt (by rw [ht]; exact agrees_set huc hag) hrec
        exact absurd this (by simp)

/-! ## The verifier -/

theorem verify_coloring_raw (g : Graph) (A : List Int) (k : Int) :
    verify_coloring g A k = true ↔
      A.length = g.n ∧ ∀ u, u < g.n → (0 ≤ A.getD u 0 ∧ A.getD u 0 < k) ∧
        ∀ v ∈ g.nbrs u, u < v → A.getD u 0 ≠ A.getD v 0 := by
  unfold verify_coloring
  by_cases hl : A.length = g.n
  · have hl1 : ¬ ((A.length : Int) ≠ (g.n : Int)) := by simp [hl]
    rw [if_neg hl1]
    simp only [List.all_eq_true, List.mem_range, Bool.and_eq_true, Bool.not_eq_true',
      Bool.or_eq_false_iff, decide_eq_false_iff_not, not_lt, ge_iff_le, not_le,
      Bool.and_eq_false_iff, decide_eq_true_eq, beq_iff_eq, hl, true_and]
    constructor
    · intro h u hu
      refine ⟨(h u hu).1, ?_⟩
      intro v hv huv
      rcases (h u hu).2 v hv with h1 | h1
      · omega
      · simpa using h1
    · intro h u hu
      refine ⟨(h u hu).1, ?_⟩
      intro v hv
      by_cases huv : u < v
      · right; simpa using (h u hu).2 v hv huv
      · left; omega
  · have hl1 : (A.length : Int) ≠ (g.n : Int) := by exact_mod_cast hl
    rw [if_pos hl1]
    simp [hl]

theorem verify_coloring_iff_proper {g : Graph} (hg : g.WellFormed) (A : List Int) (k : Int) :
    verify_coloring g A k = true ↔ IsProperColoring g k A := by
  rw [verify_coloring_raw]
  unfold IsProperColoring
  constructor
  · rintro ⟨hl, h⟩
    refine ⟨hl, fun u hu => (h u hu).1, ?_⟩
    intro u hu v hv
    obtain ⟨hvn, hne, hsym⟩ := hg.2 u hu v hv
    rcases Nat.lt_or_gt_of_ne hne with hlt | hgt
    · exact fun e => (h v hvn).2 u hsym hlt e.symm
    · exact (h u hu).2 v hv hgt
  · rintro ⟨hl, hv, he⟩
    exact ⟨hl, fun u hu => ⟨hv u hu, fun v hvm _ => he u hu v hvm⟩⟩

/-! ## The greedy pre-pass -/

theorem uncoloredCount_pos_of_uncolored {A : List Int} {u : Nat} (hu : A.getD u 0 = -1) :
    0 < uncoloredCount A := by
  apply List.count_pos_iff.mpr
  have hlt := lt_length_of_uncolored hu
  rw [List.getD_eq_getElem?_getD, List.getElem?_eq_getElem hlt] at hu
  simp only [Option.getD_some] at hu
  rw [← hu]
  exact List.getElem_mem hlt

theorem partial_uncolored (g : Graph) (k : Int) : IsPartialColoring g k (uncolored g) := by
  refine ⟨by simp [uncolored], ?_, ?_⟩
  · intro u hu; left; exact getD_uncolored g u hu
  · intro u hu hc; exact absurd (getD_uncolored g u hu) hc

theorem greedy_loop_sound {g : Graph} (hg : g.WellFormed) (k : Int) (degree : List Int)
    (steps : Nat) (color : List Int) (nodes : Nat) (hp : IsPartialColoring g k color)
    (hcnt : uncoloredCount color ≤ steps)
    (hs : (greedy_loop g k degree steps color nodes).success = true) :
    IsProperColoring g k (greedy_loop g k degree steps color nodes).color := by
  induction steps generalizing color nodes with
  | zero =>
    simp only [greedy_loop]
    apply proper_of_partial_of_complete hp
    intro u _ hu
    have := uncoloredCount_pos_of_uncolored hu
    omega
  | succ steps ih =>
    rw [greedy_loop] at hs ⊢
    split
    · rename_i hch
      exact proper_of_partial_of_complete hp ((choose_eq_neg_one_iff g color degree).mp hch)
    · rename_i hne
      rw [if_neg hne] at hs
      obtain ⟨_, huc⟩ := choose_uncolored g color degree hne
      split
      · rename_i hfind
        rw [hfind] at hs
        exact absurd hs (by simp)
      · rename_i c hfind
        rw [hfind] at hs
        have hc : c ∈ colors k := List.mem_of_find?_eq_some hfind
        have hcan : can_color g (choose_vertex_dsatur g color degree).toNat c color = true := by
          simpa using List.find?_some hfind
        have hcount := count_set_uncolored color _ c huc (colors_ne_neg_one k c hc)
        exact ih _ _ (partial_set hg hp huc hc hcan) (by omega) hs

/-! ## The two-colour fast path -/

theorem keeps_refl (A : List Int) : Keeps A A := fun _ _ => rfl

theorem keeps_trans {A B C : List Int} (h1 : Keeps A B) (h2 : Keeps B C) : Keeps A C := by
  intro w hw
  have hb := h1 w hw
  rw [h2 w (by rw [hb]; exact hw), hb]

theorem keeps_set {A : List Int} {v : Nat} (hv : A.getD v 0 = -1) (x : Int) :
    Keeps A (A.set v x) := by
  intro w hw
  exact getD_set_other _ _ _ _ (fun e => hw (e ▸ hv))

theorem finished_set {g : Graph} {A : List Int} {v w : Nat} (hv : A.getD v 0 = -1)
    (hw : A.getD w 0 ≠ -1) (x : Int) (h : Finished g A w) : Finished g (A.set v x) w := by
  intro y hy
  obtain ⟨h1, h2⟩ := h y hy
  have hyv : v ≠ y := fun e => h1 (e ▸ hv)
  have hwv : v ≠ w := fun e => hw (e ▸ hv)
  rw [getD_set_other _ _ _ _ hyv, getD_set_other _ _ _ _ hwv]
  exact ⟨h1, h2⟩

theorem visit_step_new {g : Graph} (hg : g.WellFormed) {u v : Nat} {vs : List Nat} {s : Bfs}
    (h : VisitInv g u (v :: vs) s) (hv : s.color.getD v 0 = -1) :
    VisitInv g u vs
      { s with color := s.color.set v (1 - s.color.getD u 0), q := s.q ++ [v] } := by
  have hvl : v < s.color.length := lt_length_of_uncolored hv
  have hvu : v ≠ u := fun e => h.cur.2 (e ▸ hv)
  have hcu : s.color.getD u 0 = 0 ∨ s.color.getD u 0 = 1 := by
    rcases h.vals u h.cur.1 with h1 | h1
    · exact absurd h1 h.cur.2
    · exact h1
  have hvn : v < g.n := (hg.2 u h.cur.1 v (h.sub v (List.mem_cons_self v vs))).1
  have hnew : (s.color.set v (1 - s.color.getD u 0)).getD v 0 = 1 - s.color.getD u 0 :=
    getD_set_self _ _ _ hvl
  have hold : ∀ w, s.color.getD w 0 ≠ -1 →
      (s.color.set v (1 - s.color.getD u 0)).getD w 0 = s.color.getD w 0 :=
    keeps_set hv _
  constructor
  · simp only [List.length_set]; exact h.len
  · intro w hw
    simp only
    by_cases hwv : v = w
    · subst hwv; rw [hnew]; omega
    · rw [getD_set_other _ _ _ _ hwv]; exact h.vals w hw
  · intro w hw
    simp only at hw ⊢
    rcases List.mem_append.mp hw with h1 | h1
    · have := h.queued w h1
      rw [hold w this.2]; exact this
    · have : w = v := by simpa using h1
      subst this
      rw [hnew]; exact ⟨hvn, by omega⟩
  · simp only
    rw [hold u h.cur.2]; exact h.cur
  · intro x hx; exact h.sub x (List.mem_cons_of_mem _ hx)
  · intro x hx
    simp only
    rw [hold u h.cur.2]
    rcases h.pending x hx with h1 | h1
    · rcases List.mem_cons.mp h1 with h2 | h2
      · subst h2; right; rw [hnew]; omega
      · left; exact h2
    · right; rw [hold x h1.1]; exact h1
  · intro w hw hwc
    simp only at hwc ⊢
    by_cases hwv : v = w
    · subst hwv; left; simp
    · rw [getD_set_other _ _ _ _ hwv] at hwc
      rcases h.fin w hw hwc with h1 | h1 | h1
      · left; exact List.mem_append_left _ h1
      · right; left; exact h1
      · right; right; exact finished_set hv hwc _ h1

theorem visit_step_old {g : Graph} {u v : Nat} {vs : List Nat} {s : Bfs}
    (h : VisitInv g u (v :: vs) s) (hv : s.color.getD v 0 ≠ -1)
    (hne : s.color.getD v 0 ≠ s.color.getD u 0) : VisitInv g u vs s := by
  refine ⟨h.len, h.vals, h.queued, h.cur, fun x hx => h.sub x (List.mem_cons_of_mem _ hx), ?_,
    h.fin⟩
  intro x hx
  rcases h.pending x hx with h1 | h1
  · rcases List.mem_cons.mp h1 with h2 | h2
    · subst h2; right; exact ⟨hv, hne⟩
    · left; exact h2
  · right; exact h1

theorem bfs_visit_inv {g : Graph} (hg : g.WellFormed) (u : Nat) (vs : List Nat) (s s1 : Bfs)
    (h : VisitInv g u vs s) (hr : bfs_visit u vs s = .ok s1) :
    VisitInv g u [] s1 ∧ Keeps s.color s1.color ∧
      uncoloredCount s1.color + s1.q.length = uncoloredCount s.color + s.q.length := by
  induction vs generalizing s with
  | nil =>
    simp only [bfs_visit, Except.ok.injEq] at hr
    subst hr
    exact ⟨h, keeps_refl _, rfl⟩
  | cons v vs ih =>
    rw [bfs_visit] at hr
    split at hr
    · rename_i hv
      obtain ⟨h1, h2, h3⟩ := ih _ (visit_step_new hg h hv) hr
      refine ⟨h1, keeps_trans (keeps_set hv _) h2, ?_⟩
      have hcu : 1 - s.color.getD u 0 ≠ -1 := by
        rcases h.vals u h.cur.1 with h1 | h1 | h1 <;> omega
      have := count_set_uncolored s.color v _ hv hcu
      simp only [List.length_append, List.length_singleton] at h3
      omega
    · rename_i hv
      split at hr
      · exact absurd hr (by simp)
      · rename_i hne
        exact ih _ (visit_step_old h hv hne) hr

theorem bfs_visit_agrees {g : Graph} (hg : g.WellFormed) (u : Nat) (vs : List Nat) (s : Bfs)
    (h : VisitInv g u vs s) (C : List Int) (hC : IsProperColoring g 2 C)
    (hag : Agrees g s.color C) :
    ∃ s1, bfs_visit u vs s = .ok s1 ∧ Agrees g s1.color C := by
  induction vs generalizing s with
  | nil => exact ⟨s, rfl, hag⟩
  | cons v vs ih =>
    have hvm : v ∈ g.nbrs u := h.sub v (List.mem_cons_self v vs)
    have hvn : v < g.n := (hg.2 u h.cur.1 v hvm).1
    have hCu : C.getD u 0 = s.color.getD u 0 := hag u h.cur.1 h.cur.2
    have hne : C.getD u 0 ≠ C.getD v 0 := hC.2.2 u h.cur.1 v hvm
    have hru := hC.2.1 u h.cur.1
    have hrv := hC.2.1 v hvn
    rw [bfs_visit]
    split
    · rename_i hv
      apply ih _ (visit_step_new hg h hv)
      intro w hw hwc
      simp only at hwc ⊢
      by_cases hwv : v = w
      · subst hwv
        rw [getD_set_self _ _ _ (lt_length_of_uncolored hv)]
        omega
      · rw [getD_set_other _ _ _ _ hwv] at hwc ⊢
        exact hag w hw hwc
    · rename_i hv
      have hCv : C.getD v 0 = s.color.getD v 0 := hag v hvn hv
      split
      · rename_i heq
        exfalso; apply hne; rw [hCu, hCv, heq]
      · rename_i hne1
        exact ih _ (visit_step_old h hv hne1) hag

theorem bfs_while_spec {g : Graph} (hg : g.WellFormed) (fuel : Nat) (s : Bfs)
    (h : BfsInv g s) (hb : uncoloredCount s.color + s.q.length ≤ fuel) :
    ∃ r, bfs_while g fuel s = some r ∧
      (∀ s1, r = .ok s1 → BfsInv g s1 ∧ s1.q = [] ∧ Keeps s.color s1.color) ∧
      (∀ C, IsProperColoring g 2 C → Agrees g s.color C →
        ∃ s1, r = .ok s1 ∧ Agrees g s1.color C) := by
  induction fuel generalizing s with
  | zero =>
    have hq : s.q = [] := List.eq_nil_of_length_eq_zero (by omega)
    refine ⟨.ok s, by simp [bfs_while, hq], ?_, ?_⟩
    · intro s1 hs1
      simp only [Except.ok.injEq] at hs1
      subst hs1
      exact ⟨h, hq, keeps_refl _⟩
    · intro C _ hag
      exact ⟨s, rfl, hag⟩
  | succ fuel ih =>
    rw [bfs_while]
    cases hq : s.q with
    | nil =>
      refine ⟨.ok s, rfl, ?_, ?_⟩
      · intro s1 hs1
        simp only [Except.ok.injEq] at hs1
        subst hs1
        exact ⟨h, hq, keeps_refl _⟩
      · intro C _ hag
        exact ⟨s, rfl, hag⟩
    | cons u rest =>
      simp only
      have hu := h.queued u (by rw [hq]; exact List.mem_cons_self u rest)
      have hvi : VisitInv g u (g.nbrs u) { s with q := rest, nodes := s.nodes + 1 } := by
        refine ⟨h.len, h.vals, ?_, hu, fun v hv => hv, fun v hv => Or.inl hv, ?_⟩
        · intro w hw; exact h.queued w (by rw [hq]; exact List.mem_cons_of_mem _ hw)
        · intro w hw hwc
          rcases h.fin w hw hwc with h1 | h1
          · rw [hq] at h1
            rcases List.mem_cons.mp h1 with h2 | h2
            · right; left; exact h2
            · left; exact h2
          · right; right; exact h1
      cases hvis : bfs_visit u (g.nbrs u) { s with q := rest, nodes := s.nodes + 1 } with
      | error e =>
        refine ⟨.error e, rfl, ?_, ?_⟩
        · intro s1 hs1; exact absurd hs1 (by simp)
        · intro C hC hag
          obtain ⟨s1, hs1, _⟩ := bfs_visit_agrees hg u _ _ hvi C hC hag
          rw [hvis] at hs1
          exact absurd hs1 (by simp)
      | ok s1 =>
        simp only
        obtain ⟨hv1, hk1, hc1⟩ := bfs_visit_inv hg u _ _ s1 hvi hvis
        simp only at hk1 hc1
        have hinv1 : BfsInv g s1 := by
          refine ⟨hv1.len, hv1.vals, hv1.queued, ?_⟩
          intro w hw hwc
          rcases hv1.fin w hw hwc with h1 | h1 | h1
          · left; exact h1
          · right
            subst h1
            intro v hv
            rcases hv1.pending v hv with h2 | h2
            · simp at h2
            · exact h2
          · right; exact h1
        have hlen : s.q.length = rest.length + 1 := by rw [hq]; rfl
        obtain ⟨r, hr, hr1, hr2⟩ := ih s1 hinv1 (by omega)
        refine ⟨r, hr, ?_, ?_⟩
        · intro s2 hs2
          obtain ⟨a, b, c⟩ := hr1 s2 hs2
          exact ⟨a, b, keeps_trans hk1 c⟩
        · intro C hC hag
          obtain ⟨s1a, hs1a, hag1⟩ := bfs_visit_agrees hg u _ _ hvi C hC hag
          rw [hvis] at hs1a
          simp only [Except.ok.injEq] at hs1a
          subst hs1a
          exact hr2 C hC hag1

theorem getD_map_range (n : Nat) (f : Nat → Int) (w : Nat) (hw : w < n) :
    ((List.range n).map f).getD w 0 = f w := by
  simp [List.getD_eq_getElem?_getD, List.getElem?_map, List.getElem?_range hw]

theorem bfs_restart {g : Graph} (hg : g.WellFormed) (s : Bfs) (h : BfsInv g s) (hq : s.q = [])
    (start : Nat) (hs : start < g.n) (hsc : s.color.getD start 0 = -1)
    (C : List Int) (hC : IsProperColoring g 2 C) (hag : Agrees g s.color C) :
    ∃ C1, IsProperColoring g 2 C1 ∧ Agrees g (s.color.set start 0) C1 := by
  have hsl := lt_length_of_uncolored hsc
  by_cases h0 : C.getD start 0 = 0
  · refine ⟨C, hC, ?_⟩
    intro w hw hwc
    by_cases hws : start = w
    · subst hws; rw [getD_set_self _ _ _ hsl]; exact h0
    · rw [getD_set_other _ _ _ _ hws] at hwc ⊢
      exact hag w hw hwc
  · have hfin : ∀ w, w < g.n → s.color.getD w 0 ≠ -1 → Finished g s.color w := by
      intro w hw hwc
      rcases h.fin w hw hwc with h1 | h1
      · rw [hq] at h1; simp at h1
      · exact h1
    refine ⟨(List.range g.n).map
      (fun w => if s.color.getD w 0 ≠ -1 then C.getD w 0 else 1 - C.getD w 0), ?_, ?_⟩
    · refine ⟨by simp, ?_, ?_⟩
      · intro u hu
        rw [getD_map_range _ _ u hu]
        have := hC.2.1 u hu
        split <;> omega
      · intro u hu v hv
        obtain ⟨hvn, _, hsym⟩ := hg.2 u hu v hv
        rw [getD_map_range _ _ u hu, getD_map_range _ _ v hvn]
        have hne := hC.2.2 u hu v hv
        by_cases hcu : s.color.getD u 0 = -1
        · by_cases hcv : s.color.getD v 0 = -1
          · rw [if_neg (not_not.mpr hcu), if_neg (not_not.mpr hcv)]; omega
          · exact absurd hcu (hfin v hvn hcv u hsym).1
        · by_cases hcv : s.color.getD v 0 = -1
          · exact absurd hcv (hfin u hu hcu v hv).1
          · rw [if_pos hcu, if_pos hcv]; exact hne
    · intro w hw hwc
      rw [getD_map_range _ _ w hw]
      by_cases hws : start = w
      · subst hws
        rw [getD_set_self _ _ _ hsl, if_neg (not_not.mpr hsc)]
        have := hC.2.1 start hs
        omega
      · rw [getD_set_other _ _ _ _ hws] at hwc ⊢
        rw [if_pos hwc]
        exact hag w hw hwc

theorem bfs_starts_spec {g : Graph} (hg : g.WellFormed) (starts : List Nat)
    (hst : ∀ w ∈ starts, w < g.n) (s : Bfs) (h : BfsInv g s) (hq : s.q = []) :
    ∃ r, bfs_starts g starts s = some r ∧
      (∀ s1, r = .ok s1 → BfsInv g s1 ∧ s1.q = [] ∧ Keeps s.color s1.color ∧
        ∀ w ∈ starts, s1.color.getD w 0 ≠ -1) ∧
      ((∃ C, IsProperColoring g 2 C ∧ Agrees g s.color C) → ∃ s1, r = .ok s1) := by
  induction starts generalizing s with
  | nil =>
    refine ⟨.ok s, rfl, ?_, fun _ => ⟨s, rfl⟩⟩
    intro s1 hs1
    simp only [Except.ok.injEq] at hs1
    subst hs1
    exact ⟨h, hq, keeps_refl _, fun w hw => absurd hw (List.not_mem_nil w)⟩
  | cons start rest ih =>
    have hst1 : ∀ w ∈ rest, w < g.n := fun w hw => hst w (List.mem_cons_of_mem _ hw)
    rw [bfs_starts]
    split
    · rename_i hsc
      obtain ⟨r, hr, hr1, hr2⟩ := ih hst1 s h hq
      refine ⟨r, hr, ?_, hr2⟩
      intro s1 hs1
      obtain ⟨a, b, c, d⟩ := hr1 s1 hs1
      refine ⟨a, b, c, ?_⟩
      intro w hw
      rcases List.mem_cons.mp hw with h1 | h1
      · subst h1; rw [c w hsc]; exact hsc
      · exact d w h1
    · rename_i hsc
      have hsc : s.color.getD start 0 = -1 := not_not.mp hsc
      have hsn : start < g.n := hst start (List.mem_cons_self start rest)
      have hsl := lt_length_of_uncolored hsc
      have hinv0 : BfsInv g { s with color := s.color.set start 0, q := s.q ++ [start] } := by
        constructor
        · simp only [List.length_set]; exact h.len
        · intro w hw
          simp only
          by_cases hws : start = w
          · subst hws; rw [getD_set_self _ _ _ hsl]; omega
          · rw [getD_set_other _ _ _ _ hws]; exact h.vals w hw
        · intro w hw
          simp only [hq, List.nil_append, List.mem_singleton] at hw
          subst hw
          simp only
          rw [getD_set_self _ _ _ hsl]
          exact ⟨hsn, by omega⟩
        · intro w hw hwc
          simp only at hwc ⊢
          by_cases hws : start = w
          · subst hws; left; simp
          · rw [getD_set_other _ _ _ _ hws] at hwc
            rcases h.fin w hw hwc with h1 | h1
            · rw [hq] at h1; simp at h1
            · right; exact finished_set hsc hwc _ h1
      have hbud : uncoloredCount (s.color.set start 0) + (s.q ++ [start]).length ≤ g.n := by
        have h1 := count_set_uncolored s.color start 0 hsc (by omega)
        have h2 := uncoloredCount_le_length s.color
        rw [h.len] at h2
        simp only [hq, List.nil_append, List.length_singleton]
        omega
      obtain ⟨r, hr, hr1, hr2⟩ := bfs_while_spec hg g.n _ hinv0 hbud
      rw [hr]
      cases r with
      | error e =>
        refine ⟨.error e, rfl, fun s1 hs1 => absurd hs1 (by simp), ?_⟩
        rintro ⟨C, hC, hag⟩
        obtain ⟨C1, hC1, hag1⟩ := bfs_restart hg s h hq start hsn hsc C hC hag
        obtain ⟨s1, hs1, _⟩ := hr2 C1 hC1 hag1
        exact absurd hs1 (by simp)
      | ok s1 =>
        simp only
        obtain ⟨hinv1, hq1, hk1⟩ := hr1 s1 rfl
        simp only at hk1
        obtain ⟨r2, hr2a, hr2b, hr2c⟩ := ih hst1 s1 hinv1 hq1
        refine ⟨r2, hr2a, ?_, ?_⟩
        · intro s2 hs2
          obtain ⟨a, b, c, d⟩ := hr2b s2 hs2
          have hk : Keeps s.color s2.color := keeps_trans (keeps_trans (keeps_set hsc 0) hk1) c
          refine ⟨a, b, hk, ?_⟩
          intro w hw
          rcases List.mem_cons.mp hw with h1 | h1
          · subst h1
            have e1 : (s.color.set w 0).getD w 0 = 0 := getD_set_self _ _ _ hsl
            have e2 := hk1 w (by rw [e1]; omega)
            have e3 := c w (by rw [e2, e1]; omega)
            rw [e3, e2, e1]; omega
          · exact d w h1
        · rintro ⟨C, hC, hag⟩
          obtain ⟨C1, hC1, hag1⟩ := bfs_restart hg s h hq start hsn hsc C hC hag
          obtain ⟨s1a, hs1a, hag2⟩ := hr2 C1 hC1 hag1
          simp only [Except.ok.injEq] at hs1a
          subst hs1a
          exact hr2c ⟨C1, hC1, hag2⟩

theorem two_color_spec {g : Graph} (hg : g.WellFormed) :
    ∃ r, color_two_color_bipartite g = some r ∧
      (r.success = true → IsProperColoring g 2 r.color) ∧
      (Colorable g 2 → r.success = true) := by
  have hinv : BfsInv g ⟨uncolored g, [], 0⟩ := by
    refine ⟨by simp [uncolored], ?_, ?_, ?_⟩
    · intro w hw; left; exact getD_uncolored g w hw
    · intro w hw; simp at hw
    · intro w hw hwc; exact absurd (getD_uncolored g w hw) hwc
  obtain ⟨r, hr, hr1, hr2⟩ := bfs_starts_spec hg (List.range g.n)
    (fun w hw => List.mem_range.mp hw) _ hinv rfl
  unfold color_two_color_bipartite
  rw [hr]
  cases r with
  | error e =>
    refine ⟨_, rfl, fun hs => absurd hs (by simp), ?_⟩
    rintro ⟨C, hC⟩
    obtain ⟨s1, hs1⟩ := hr2 ⟨C, hC, fun w hw hwc => absurd (getD_uncolored g w hw) hwc⟩
    exact absurd hs1 (by simp)
  | ok s1 =>
    refine ⟨_, rfl, fun _ => ?_, fun _ => rfl⟩
    obtain ⟨hinv1, hq1, _, hall⟩ := hr1 s1 rfl
    simp only
    have hcol : ∀ w, w < g.n → s1.color.getD w 0 ≠ -1 :=
      fun w hw => hall w (List.mem_range.mpr hw)
    refine ⟨hinv1.len, ?_, ?_⟩
    · intro u hu
      rcases hinv1.vals u hu with h1 | h1 | h1
      · exact absurd h1 (hcol u hu)
      · omega
      · omega
    · intro u hu v hv
      rcases hinv1.fin u hu (hcol u hu) with h1 | h1
      · rw [hq1] at h1; simp at h1
      · exact fun e => (h1 v hv).2 e.symm

/-! ## The serial entry point -/

theorem serial_spec {g : Graph} (hg : g.WellFormed) (k : Int) (expired : Nat → Bool) :
    ∃ r, color_serial_exact g k expired = some r ∧
      (r.success = true → IsProperColoring g k r.color) ∧
      (expired = no_deadline → Colorable g k → r.success = true) := by
  unfold color_serial_exact
  by_cases hk : k = 2
  · subst hk
    rw [if_pos rfl]
    obtain ⟨r, hr, h1, h2⟩ := two_color_spec hg
    exact ⟨r, hr, h1, fun _ => h2⟩
  · rw [if_neg hk]
    simp only
    by_cases hgr : (color_greedy_dsatur g k).success = true
    · rw [if_pos hgr]
      refine ⟨_, rfl, fun _ => ?_, fun _ _ => hgr⟩
      exact greedy_loop_sound hg k (degrees g) g.n (uncolored g) 0 (partial_uncolored g k)
        (by rw [uncoloredCount_uncolored]) hgr
    · rw [if_neg hgr]
      obtain ⟨⟨b, s1⟩, hr⟩ := backtrack_exact_total g k (degrees g) expired (g.n + 1)
        (Search.start g) (by simp [Search.start, uncoloredCount_uncolored])
      rw [hr]
      refine ⟨_, rfl, ?_, ?_⟩
      · intro hs
        simp only at hs
        subst hs
        simp only [if_true]
        exact (backtrack_exact_sound hg k (degrees g) expired _ _ s1
          (by simp only [Search.start]; exact partial_uncolored g k) hr).1
      · rintro rfl ⟨C, hC⟩
        simp only
        exact backtrack_exact_complete hg k (degrees g) _ _ b s1
          (by simp only [Search.start]; exact partial_uncolored g k) C hC
          (fun w hw hwc => absurd (getD_uncolored g w hw) hwc) hr

theorem serial_iff_colorable {g : Graph} (hg : g.WellFormed) (k : Int) :
    ∃ r, color_serial_exact g k no_deadline = some r ∧
      (r.success = true ↔ ∃ A, verify_coloring g A k = true) := by
  obtain ⟨r, hr, h1, h2⟩ := serial_spec hg k no_deadline
  refine ⟨r, hr, ?_, ?_⟩
  · intro hs
    exact ⟨r.color, (verify_coloring_iff_proper hg _ _).mpr (h1 hs)⟩
  · rintro ⟨A, hA⟩
    exact h2 rfl ⟨A, (verify_coloring_iff_proper hg _ _).mp hA⟩

theorem built_wellFormed_edge {g g1 : Graph} (hg : g.WellFormed) (u v : Int)
    (h : g.add_edge u v = some g1) : g1.WellFormed := by
  unfold Graph.add_edge at h
  split at h
  · exact absurd h (by simp)
  · rename_i hr
    split at h
    · simp only [Option.some.injEq] at h; subst h; exact hg
    · rename_i huv
      simp only [Option.some.injEq] at h
      subst h
      have hu0 : 0 ≤ u := by omega
      have hv0 : 0 ≤ v := by omega
      obtain ⟨a, rfl⟩ := Int.eq_ofNat_of_zero_le hu0
      obtain ⟨b, rfl⟩ := Int.eq_ofNat_of_zero_le hv0
      have ha : a < g.n := by omega
      have hb : b < g.n := by omega
      have hab : a ≠ b := fun e => huv (by rw [e])
      simp only [Int.toNat_ofNat]
      obtain ⟨hl, hw⟩ := hg
      have key : ∀ w, (push_back (push_back g.adj a b) b a).getD w [] =
          g.adj.getD w [] ++ (if w = a then [b] else []) ++ (if w = b then [a] else []) := by
        intro w
        unfold push_back
        simp only [List.getD_eq_getElem?_getD, List.getElem?_set, List.length_set]
        by_cases hwa : w = a
        · subst hwa
          have : ¬ b = w := fun e => hab e.symm
          simp [this, hl, ha, hab]
        · by_cases hwb : w = b
          · subst hwb
            simp [hl, hb, hwa, Ne.symm hwa]
          · simp [hwa, hwb, Ne.symm hwa, Ne.symm hwb]
      refine ⟨by simp [push_back, hl], ?_⟩
      intro x hx y hy
      simp only [Graph.nbrs] at hy ⊢
      rw [key] at hy
      rw [key]
      simp only [List.mem_append] at hy ⊢
      rcases hy with (hy | hy) | hy
      · obtain ⟨h1, h2, h3⟩ := hw x hx y hy
        exact ⟨h1, h2, Or.inl (Or.inl h3)⟩
      · split at hy
        · rename_i hxa
          simp only [List.mem_singleton] at hy
          subst hy; subst hxa
          exact ⟨hb, Ne.symm hab, Or.inr (by simp)⟩
        · simp at hy
      · split at hy
        · rename_i hxb
          simp only [List.mem_singleton] at hy
          subst hy; subst hxb
          exact ⟨ha, hab, Or.inl (Or.inr (by simp))⟩
        · simp at hy

theorem wellFormed_init (n : Nat) : (Graph.init n).WellFormed := by
  refine ⟨by simp [Graph.init], ?_⟩
  intro u hu v hv
  have hu1 : u < n := hu
  simp [Graph.init, Graph.nbrs, List.getD_eq_getElem?_getD, List.getElem?_replicate, hu1] at hv

theorem wellFormed_of_built {g : Graph} (h : g.Built) : g.WellFormed := by
  induction h with
  | init n => exact wellFormed_init n
  | edge u v _ hadd ih => exact built_wellFormed_edge ih u v hadd

theorem built_of_add_edges (es : List (Int × Int)) (g g1 : Graph) (hg : g.Built)
    (h : g.add_edges es = some g1) : g1.Built := by
  induction es generalizing g with
  | nil =>
    simp only [Graph.add_edges, Option.some.injEq] at h
    subst h
    exact hg
  | cons e es ih =>
    rw [Graph.add_edges] at h
    split at h
    · exact absurd h (by simp)
    · rename_i g0 hg0
      exact ih g0 (Graph.Built.edge e.1 e.2 hg hg0) h

theorem built_of_build (n : Nat) (es : List (Int × Int)) (g : Graph)
    (h : Graph.build n es = some g) : g.Built :=
  built_of_add_edges es _ g (Graph.Built.init n) h

/-! ## The threaded engine with the flag never set and no deadline -/

theorem color_loop_stop_sim (r1 r2 : Search → Option (Bool × Search))
    (hrec : ∀ s t, SameRun s t → SameResult (r1 s) (r2 t)) (g : Graph) (u : Nat)
    (cs : List Int) (s t : Search) (h : SameRun s t) :
    SameResult (color_loop_stop r1 g never_found no_deadline u cs s)
      (color_loop r2 g u cs t) := by
  induction cs generalizing s t with
  | nil =>
    simp only [color_loop_stop, color_loop, SameResult, SameRun]
    exact ⟨trivial, h.1, h.2.1, by rw [h.2.2]⟩
  | cons c cs ih =>
    rw [color_loop_stop, color_loop]
    simp only [never_found, no_deadline, Bool.false_eq_true, if_false]
    rw [h.1]
    split
    · exact ih _ _ ⟨rfl, h.2.1, h.2.2⟩
    · have hsim := hrec { s with color := t.color.set u c, clock := s.clock + 2 }
        { t with color := t.color.set u c } ⟨rfl, h.2.1, h.2.2⟩
      revert hsim
      generalize r1 { s with color := t.color.set u c, clock := s.clock + 2 } = x
      generalize r2 { t with color := t.color.set u c } = y
      intro hsim
      match x, y, hsim with
      | none, none, _ => trivial
      | some (true, s1), some (true, t1), hs => exact hs
      | some (false, s1), some (false, t1), hs =>
        simp only
        apply ih
        obtain ⟨_, h1, h2, h3⟩ := hs
        exact ⟨by simp only [h1], h2, h3⟩
      | some (true, s1), some (false, t1), hs => exact absurd hs.1 (by simp)
      | some (false, s1), some (true, t1), hs => exact absurd hs.1 (by simp)

theorem backtrack_exact_stop_sim (g : Graph) (k : Int) (degree : List Int) (fuel : Nat)
    (s t : Search) (h : SameRun s t) :
    SameResult (backtrack_exact_stop g k degree never_found no_deadline fuel s)
      (backtrack_exact g k degree no_deadline fuel t) := by
  induction fuel generalizing s t with
  | zero => simp [backtrack_exact_stop, backtrack_exact, SameResult]
  | succ fuel ih =>
    rw [backtrack_exact_stop, backtrack_exact]
    simp only [never_found, no_deadline, Bool.false_eq_true, if_false]
    rw [h.1]
    split
    · exact ⟨rfl, rfl, by simp only [h.2.1], h.2.2⟩
    · exact color_loop_stop_sim _ _ (fun s t hst => ih s t hst) g _ _ _ _
        ⟨rfl, by simp only [h.2.1], h.2.2⟩

theorem stop_true_iff_serial_true (g : Graph) (k : Int) (degree : List Int) (fuel : Nat)
    (s : Search) :
    (∃ s1, backtrack_exact_stop g k degree never_found no_deadline fuel s = some (true, s1)) ↔
      ∃ s1, backtrack_exact g k degree no_deadline fuel s = some (true, s1) := by
  have h := backtrack_exact_stop_sim g k degree fuel s s ⟨rfl, rfl, rfl⟩
  revert h
  generalize backtrack_exact_stop g k degree never_found no_deadline fuel s = x
  generalize backtrack_exact g k degree no_deadline fuel s = y
  intro h
  match x, y, h with
  | none, none, _ => simp
  | some (b, s1), some (c, t1), hs =>
    obtain ⟨hb, _⟩ := hs
    subst hb
    cases b <;> simp

/-! ## The sub-problem generator -/

theorem expand_partial {g : Graph} (hg : g.WellFormed) (k : Int) (degree : List Int)
    (sp : List Int) (hp : IsPartialColoring g k sp) :
    ∀ x ∈ expand g k degree sp, IsPartialColoring g k x := by
  intro x hx
  unfold expand at hx
  simp only at hx
  split at hx
  · simp only [List.mem_singleton] at hx; subst hx; exact hp
  · rename_i hne
    obtain ⟨_, huc⟩ := choose_uncolored g sp degree hne
    obtain ⟨c, hc, rfl⟩ := List.mem_map.mp hx
    obtain ⟨hc1, hc2⟩ := List.mem_filter.mp hc
    exact partial_set hg hp huc hc1 hc2

theorem gen_levels_partial {g : Graph} (hg : g.WellFormed) (k : Int) (degree : List Int)
    (d : Nat) (out : List (List Int)) (h : ∀ sp ∈ out, IsPartialColoring g k sp) :
    ∀ sp ∈ gen_levels_list g k degree d out, IsPartialColoring g k sp := by
  induction d generalizing out with
  | zero => exact h
  | succ d ih =>
    have hnext : ∀ sp ∈ out.flatMap (expand g k degree), IsPartialColoring g k sp := by
      intro sp hsp
      obtain ⟨p, hp, hmem⟩ := List.mem_flatMap.mp hsp
      exact expand_partial hg k degree p (h p hp) sp hmem
    rw [gen_levels_list]
    split
    · exact hnext
    · exact ih _ hnext

theorem expand_count {g : Graph} (hg : g.WellFormed) (k : Int) (degree : List Int)
    (C : List Int) (hC : IsProperColoring g k C) (sp : List Int) :
    (expand g k degree sp).countP (fun x => decide (Agrees g x C)) =
      if Agrees g sp C then 1 else 0 := by
  unfold expand
  simp only
  split
  · simp [List.countP_cons]
  · rename_i hne
    obtain ⟨hun, huc⟩ := choose_uncolored g sp degree hne
    generalize (choose_vertex_dsatur g sp degree).toNat = u at hun huc
    have hlt := lt_length_of_uncolored huc
    rw [List.countP_map]
    by_cases hag : Agrees g sp C
    · rw [if_pos hag]
      have hCu := hC.2.1 u hun
      have hmemC : C.getD u 0 ∈ (colors k).filter (fun c => can_color g u c sp) :=
        List.mem_filter.mpr ⟨mem_colors.mpr hCu, can_color_of_agrees hg hC hag hun⟩
      have hnd : ((colors k).filter (fun c => can_color g u c sp)).Nodup :=
        (colors_nodup k).filter _
      have hcongr : ((colors k).filter (fun c => can_color g u c sp)).countP
          ((fun x => decide (Agrees g x C)) ∘ fun c => sp.set u c) =
          ((colors k).filter (fun c => can_color g u c sp)).countP (fun c => c == C.getD u 0) := by
        apply List.countP_congr
        intro c hc
        have hcn := colors_ne_neg_one k c (List.mem_filter.mp hc).1
        simp only [Function.comp, decide_eq_true_eq, beq_iff_eq]
        constructor
        · intro h
          have := h u hun (by rw [getD_set_self _ _ _ hlt]; exact hcn)
          rw [getD_set_self _ _ _ hlt] at this
          exact this.symm
        · rintro rfl; exact agrees_set huc hag
      rw [hcongr]
      exact List.count_eq_one_of_mem hnd hmemC
    · rw [if_neg hag]
      rw [List.countP_eq_zero]
      intro c _
      simp only [Function.comp, decide_eq_true_eq]
      intro h
      exact hag (agrees_of_set huc h)

theorem flatMap_expand_count {g : Graph} (hg : g.WellFormed) (k : Int) (degree : List Int)
    (C : List Int) (hC : IsProperColoring g k C) (out : List (List Int)) :
    (out.flatMap (expand g k degree)).countP (fun x => decide (Agrees g x C)) =
      out.countP (fun x => decide (Agrees g x C)) := by
  induction out with
  | nil => rfl
  | cons sp out ih =>
    rw [List.flatMap_cons, List.countP_append, ih, expand_count hg k degree C hC, List.countP_cons]
    simp only [decide_eq_true_eq]
    omega

theorem gen_levels_count {g : Graph} (hg : g.WellFormed) (k : Int) (degree : List Int)
    (C : List Int) (hC : IsProperColoring g k C) (d : Nat) (out : List (List Int)) :
    (gen_levels_list g k degree d out).countP (fun x => decide (Agrees g x C)) =
      out.countP (fun x => decide (Agrees g x C)) := by
  induction d generalizing out with
  | zero => rfl
  | succ d ih =>
    rw [gen_levels_list]
    split
    · exact flatMap_expand_count hg k degree C hC out
    · rw [ih, flatMap_expand_count hg k degree C hC out]

theorem generate_count {g : Graph} (hg : g.WellFormed) (k : Int) (degree : List Int)
    (d : Int) (C : List Int) (hC : IsProperColoring g k C) :
    (subproblem_list g k degree d).countP (fun x => decide (Agrees g x C)) = 1 := by
  unfold subproblem_list
  rw [gen_levels_count hg k degree C hC]
  have : Agrees g (uncolored g) C := fun w hw hwc => absurd (getD_uncolored g w hw) hwc
  simp [List.countP_cons, this]

theorem countP_one_unique {α : Type} (p : α → Bool) (l : List α) (h : l.countP p = 1)
    (i j : Nat) (hi : i < l.length) (hj : j < l.length) (hpi : p (l.get ⟨i, hi⟩) = true)
    (hpj : p (l.get ⟨j, hj⟩) = true) : i = j := by
  induction l generalizing i j with
  | nil => simp at hi
  | cons a t ih =>
    rw [List.countP_cons] at h
    have hpos : ∀ m (hm : m < t.length), p (t.get ⟨m, hm⟩) = true → 0 < t.countP p := by
      intro m hm hp
      exact List.countP_pos_iff.mpr ⟨_, List.get_mem t m hm, hp⟩
    cases i with
    | zero =>
      cases j with
      | zero => rfl
      | succ j =>
        exfalso
        have hpa : p a = true := hpi
        have hpt : p (t.get ⟨j, by simpa using hj⟩) = true := hpj
        have := hpos j (by simpa using hj) hpt
        simp only [hpa, if_true] at h
        omega
    | succ i =>
      have hpi1 : p (t.get ⟨i, by simpa using hi⟩) = true := hpi
      have hi1 := hpos i (by simpa using hi) hpi1
      cases j with
      | zero =>
        exfalso
        have hpa : p a = true := hpj
        simp only [hpa, if_true] at h
        omega
      | succ j =>
        have hpj1 : p (t.get ⟨j, by simpa using hj⟩) = true := hpj
        by_cases hpa : p a = true
        · simp only [hpa, if_true] at h; omega
        · simp only [hpa] at h
          have := ih (by simpa using h) i j (by simpa using hi) (by simpa using hj) hpi1 hpj1
          rw [this]

theorem partition_of_count {g : Graph} (hg : g.WellFormed) (k : Int)
    (degree : List Int) (d : Int) (C : List Int) (hC : IsProperColoring g k C) :
    (∃ sp ∈ subproblem_list g k degree d, Agrees g sp C) ∧
    ∀ (i j : Nat) (hi : i < (subproblem_list g k degree d).length)
      (hj : j < (subproblem_list g k degree d).length),
      Agrees g ((subproblem_list g k degree d).get ⟨i, hi⟩) C →
      Agrees g ((subproblem_list g k degree d).get ⟨j, hj⟩) C → i = j := by
  have hcount := generate_count hg k degree d C hC
  constructor
  · have hpos : 0 < (subproblem_list g k degree d).countP
        (fun x => decide (Agrees g x C)) := by omega
    obtain ⟨sp, hsp, hp⟩ := List.countP_pos_iff.mp hpos
    exact ⟨sp, hsp, by simpa using hp⟩
  · intro i j hi hj hai haj
    exact countP_one_unique _ _ hcount i j hi hj (by simpa using hai) (by simpa using haj)

/-! ## One colour -/

theorem no_edges_of_one_coloring {g : Graph} (hg : g.WellFormed) {C : List Int}
    (hC : IsProperColoring g 1 C) : ∀ u, u < g.n → g.nbrs u = [] := by
  intro u hu
  apply List.eq_nil_iff_forall_not_mem.mpr
  intro v hv
  have hvn := (hg.2 u hu v hv).1
  have h1 := hC.2.1 u hu
  have h2 := hC.2.1 v hvn
  exact hC.2.2 u hu v hv (by omega)

theorem one_coloring_of_no_edges {g : Graph} (h : ∀ u, u < g.n → g.nbrs u = []) :
    IsProperColoring g 1 (List.replicate g.n 0) := by
  refine ⟨by simp, ?_, ?_⟩
  · intro u hu
    simp [List.getD_eq_getElem?_getD, List.getElem?_replicate, hu]
  · intro u hu v hv
    rw [h u hu] at hv
    simp at hv

theorem eq_zeros_of_one_coloring {g : Graph} {C : List Int} (hC : IsProperColoring g 1 C) :
    C = List.replicate g.n 0 := by
  apply List.eq_replicate_iff.mpr
  refine ⟨hC.1, ?_⟩
  intro b hb
  obtain ⟨i, hi, rfl⟩ := List.getElem_of_mem hb
  have := hC.2.1 i (by rw [← hC.1]; exact hi)
  rw [List.getD_eq_getElem?_getD, List.getElem?_eq_getElem hi] at this
  simp only [Option.getD_some] at this
  omega


/-! ## Boundary cases of the serial entry point -/

theorem colors_of_neg {k : Int} (hk : k < 0) : colors k = [] := by
  unfold colors
  have : k.toNat = 0 := by omega
  rw [this]; rfl

theorem choose_ne_of_uncolored (g : Graph) (degree : List Int) (hn : 0 < g.n) :
    choose_vertex_dsatur g (uncolored g) degree ≠ -1 := by
  intro h
  exact (choose_eq_neg_one_iff g _ degree).mp h 0 hn (getD_uncolored g 0 hn)

theorem serial_negative_k (g : Graph) (k : Int) (hk : k < 0) (expired : Nat → Bool) :
    color_serial_exact g k expired =
      some (if g.n = 0 then ⟨true, [], 0, 0⟩
        else ⟨false, [], 1, if expired 0 = true then 0 else 1⟩) := by
  have hk2 : k ≠ 2 := by omega
  unfold color_serial_exact
  rw [if_neg hk2]
  simp only
  by_cases hn : g.n = 0
  · have hgr : color_greedy_dsatur g k = ⟨true, [], 0, 0⟩ := by
      unfold color_greedy_dsatur uncolored
      rw [hn]; rfl
    rw [hgr, if_pos hn]
    simp
  · have hpos : 0 < g.n := Nat.pos_of_ne_zero hn
    obtain ⟨m, hm⟩ := Nat.exists_eq_succ_of_ne_zero hn
    have hch := choose_ne_of_uncolored g (degrees g) hpos
    have hgr : color_greedy_dsatur g k = ⟨false, [], 1, 0⟩ := by
      unfold color_greedy_dsatur
      rw [hm, greedy_loop]
      simp only [hch, if_false, colors_of_neg hk, List.find?_nil, Nat.zero_add]
    rw [hgr, if_neg hn]
    simp only [Bool.false_eq_true, if_false]
    rw [backtrack_exact]
    simp only [Search.start]
    by_cases he : expired 0 = true
    · simp [he]
    · simp only [he, if_false, hch, colors_of_neg hk, color_loop]
      simp

/-! ## Size of the sub-problem list -/

theorem expand_length_le (g : Graph) (k : Int) (degree : List Int) (sp : List Int)
    (hk : 1 ≤ k) : (expand g k degree sp).length ≤ k.toNat := by
  unfold expand
  simp only
  split
  · simp only [List.length_singleton]; omega
  · rw [List.length_map]
    have h1 := List.length_filter_le
      (fun c => can_color g (choose_vertex_dsatur g sp degree).toNat c sp) (colors k)
    have h2 : (colors k).length = k.toNat := by simp [colors]
    omega

theorem flatMap_expand_length_le (g : Graph) (k : Int) (degree : List Int) (hk : 1 ≤ k)
    (out : List (List Int)) :
    (out.flatMap (expand g k degree)).length ≤ k.toNat * out.length := by
  induction out with
  | nil => simp
  | cons sp out ih =>
    rw [List.flatMap_cons, List.length_append, List.length_cons]
    have := expand_length_le g k degree sp hk
    rw [Nat.mul_succ]
    omega

theorem gen_levels_length_le (g : Graph) (k : Int) (degree : List Int) (hk : 1 ≤ k) (d : Nat)
    (out : List (List Int)) :
    (gen_levels_list g k degree d out).length ≤ k.toNat ^ d * out.length := by
  induction d generalizing out with
  | zero => simp [gen_levels_list]
  | succ d ih =>
    have hstep := flatMap_expand_length_le g k degree hk out
    rw [gen_levels_list]
    split
    · rename_i hemp
      rw [List.isEmpty_iff.mp hemp]
      exact Nat.zero_le _
    · calc (gen_levels_list g k degree d (out.flatMap (expand g k degree))).length
          ≤ k.toNat ^ d * (out.flatMap (expand g k degree)).length := ih _
        _ ≤ k.toNat ^ d * (k.toNat * out.length) := Nat.mul_le_mul_left _ hstep
        _ = k.toNat ^ (d + 1) * out.length := by rw [pow_succ, Nat.mul_assoc]


/-! ## The graph model -/

theorem getD_push_push (adj : List (List Nat)) (a b w : Nat) (ha : a < adj.length)
    (hb : b < adj.length) (hab : a ≠ b) :
    (push_back (push_back adj a b) b a).getD w [] =
      adj.getD w [] ++ (if w = a then [b] else []) ++ (if w = b then [a] else []) := by
  unfold push_back
  simp only [List.getD_eq_getElem?_getD, List.getElem?_set, List.length_set]
  by_cases hwa : w = a
  · subst hwa
    have : ¬ b = w := fun e => hab e.symm
    simp [this, ha, hab]
  · by_cases hwb : w = b
    · subst hwb
      simp [hb, hwa, Ne.symm hwa]
    · simp [hwa, hwb, Ne.symm hwa, Ne.symm hwb]

theorem add_edge_cases (g g1 : Graph) (u v : Int) (h : g.add_edge u v = some g1) :
    g1 = g ∨ ∃ a b : Nat, a < g.n ∧ b < g.n ∧ a ≠ b ∧ g1.n = g.n ∧
      g1.adj = push_back (push_back g.adj a b) b a := by
  unfold Graph.add_edge at h
  split at h
  · exact absurd h (by simp)
  · rename_i hr
    split at h
    · left; simp only [Option.some.injEq] at h; exact h.symm
    · rename_i huv
      right
      simp only [Option.some.injEq] at h
      subst h
      refine ⟨u.toNat, v.toNat, by omega, by omega, ?_, rfl, rfl⟩
      intro e
      apply huv
      omega

theorem modelInv_init (n : Nat) : (Graph.init n).ModelInv := by
  have hn : ∀ u, (Graph.init n).nbrs u = [] := by
    intro u
    simp only [Graph.init, Graph.nbrs, List.getD_eq_getElem?_getD, List.getElem?_replicate]
    split <;> rfl
  refine ⟨by simp [Graph.init], ?_, ?_, ?_⟩
  · intro u _ v hv; rw [hn u] at hv; simp at hv
  · intro u hu; rw [hn u] at hu; simp at hu
  · intro u v; rw [hn u, hn v]; rfl

theorem modelInv_add_edge {g g1 : Graph} (hg : g.ModelInv) (u v : Int)
    (h : g.add_edge u v = some g1) : g1.ModelInv := by
  rcases add_edge_cases g g1 u v h with rfl | ⟨a, b, ha, hb, hab, hn, hadj⟩
  · exact hg
  · obtain ⟨hl, hr, hs, hc⟩ := hg
    have key : ∀ w, g1.nbrs w =
        g.nbrs w ++ (if w = a then [b] else []) ++ (if w = b then [a] else []) := by
      intro w
      unfold Graph.nbrs
      rw [hadj]
      exact getD_push_push g.adj a b w (by omega) (by omega) hab
    refine ⟨by rw [hadj, hn]; simp [push_back, hl], ?_, ?_, ?_⟩
    · intro x hx y hy
      rw [hn] at hx ⊢
      rw [key] at hy
      simp only [List.mem_append] at hy
      rcases hy with (hy | hy) | hy
      · exact hr x hx y hy
      · split at hy
        · simp only [List.mem_singleton] at hy; omega
        · simp at hy
      · split at hy
        · simp only [List.mem_singleton] at hy; omega
        · simp at hy
    · intro x hx
      rw [key] at hx
      simp only [List.mem_append] at hx
      rcases hx with (hx | hx) | hx
      · exact hs x hx
      · split at hx
        · simp only [List.mem_singleton] at hx; omega
        · simp at hx
      · split at hx
        · simp only [List.mem_singleton] at hx; omega
        · simp at hx
    · intro x y
      rw [key x, key y]
      simp only [List.count_append]
      rw [hc x y]
      have e1 : ∀ (p : Prop) [Decidable p] (z w : Nat),
          (if p then [z] else ([] : List Nat)).count w = if p ∧ z = w then 1 else 0 := by
        intro p _ z w
        by_cases hp : p
        · by_cases hz : z = w
          · simp [hp, hz]
          · simp [hp, hz, List.count_cons]
        · simp [hp]
      rw [e1, e1, e1, e1]
      have p1 : (y = b ∧ a = x) ↔ (x = a ∧ b = y) :=
        ⟨fun h => ⟨h.2.symm, h.1.symm⟩, fun h => ⟨h.2.symm, h.1.symm⟩⟩
      have p2 : (y = a ∧ b = x) ↔ (x = b ∧ a = y) :=
        ⟨fun h => ⟨h.2.symm, h.1.symm⟩, fun h => ⟨h.2.symm, h.1.symm⟩⟩
      by_cases hA : x = a ∧ b = y <;> by_cases hB : x = b ∧ a = y
      · rw [if_pos hA, if_pos hB, if_pos (p2.mpr hB), if_pos (p1.mpr hA)]
      · rw [if_pos hA, if_neg hB, if_neg (fun h => hB (p2.mp h)), if_pos (p1.mpr hA)]
      · rw [if_neg hA, if_pos hB, if_pos (p2.mpr hB), if_neg (fun h => hA (p1.mp h))]
      · rw [if_neg hA, if_neg hB, if_neg (fun h => hB (p2.mp h)),
          if_neg (fun h => hA (p1.mp h))]

theorem modelInv_of_built {g : Graph} (h : g.Built) : g.ModelInv := by
  induction h with
  | init n => exact modelInv_init n
  | edge u v _ hadd ih => exact modelInv_add_edge ih u v hadd

theorem add_edge_self (g : Graph) (u : Int) (h0 : 0 ≤ u) (hn : u < (g.n : Int)) :
    g.add_edge u u = some g := by
  unfold Graph.add_edge
  rw [if_neg (by omega), if_pos rfl]

theorem add_edge_out_of_range (g : Graph) (u v : Int)
    (h : u < 0 ∨ v < 0 ∨ (g.n : Int) ≤ u ∨ (g.n : Int) ≤ v) : g.add_edge u v = none := by
  unfold Graph.add_edge
  rw [if_pos (by omega)]

/-! ## The `reserve` call of `generate_subproblems` -/

theorem gen_levels_of_nonneg (g : Graph) (k : Int) (degree : List Int) (hk : 0 ≤ k) (d : Nat)
    (out : List (List Int)) :
    gen_levels g k degree d out = some (gen_levels_list g k degree d out) := by
  induction d generalizing out with
  | zero => rfl
  | succ d ih =>
    rw [gen_levels, gen_levels_list, if_neg (by omega)]
    simp only
    split
    · rfl
    · exact ih _

theorem gen_levels_of_neg (g : Graph) (k : Int) (degree : List Int) (hk : k < 0) (d : Nat)
    (out : List (List Int)) : gen_levels g k degree (d + 1) out = none := by
  rw [gen_levels, if_pos hk]

theorem generate_returns (g : Graph) (k : Int) (degree : List Int) (d : Int)
    (h : 0 ≤ k ∨ d ≤ 0) :
    generate_subproblems g k degree d = some (subproblem_list g k degree d) := by
  unfold generate_subproblems subproblem_list
  by_cases hk : 0 ≤ k
  · exact gen_levels_of_nonneg g k degree hk _ _
  · have hd0 : d.toNat = 0 := by omega
    rw [hd0]; rfl

theorem generate_throws (g : Graph) (k : Int) (degree : List Int) (d : Int)
    (hk : k < 0) (hd : 0 < d) : generate_subproblems g k degree d = none := by
  unfold generate_subproblems
  obtain ⟨m, hm⟩ : ∃ m, d.toNat = m + 1 := ⟨d.toNat - 1, by omega⟩
  rw [hm]
  exact gen_levels_of_neg g k degree hk m _

theorem generate_none_iff (g : Graph) (k : Int) (degree : List Int) (d : Int) :
    generate_subproblems g k degree d = none ↔ (k < 0 ∧ 0 < d) := by
  constructor
  · intro h
    by_contra hn
    rw [generate_returns g k degree d (by omega)] at h
    exact absurd h (by simp)
  · rintro ⟨hk, hd⟩
    exact generate_throws g k degree d hk hd

theorem greedy_zero_vertices (g : Graph) (k : Int) (hn : g.n = 0) :
    color_greedy_dsatur g k = ⟨true, [], 0, 0⟩ := by
  unfold color_greedy_dsatur uncolored
  rw [hn]; rfl

theorem greedy_negative_k (g : Graph) (k : Int) (hk : k < 0) (hn : 0 < g.n) :
    color_greedy_dsatur g k = ⟨false, [], 1, 0⟩ := by
  obtain ⟨m, hm⟩ := Nat.exists_eq_succ_of_ne_zero (Nat.pos_iff_ne_zero.mp hn)
  have hch := choose_ne_of_uncolored g (degrees g) hn
  unfold color_greedy_dsatur
  rw [hm, greedy_loop]
  simp only [hch, if_false, colors_of_neg hk, List.find?_nil, Nat.zero_add]

theorem threads_generate_throws (g : Graph) (k : Int) (threads d : Int) (expired : Nat → Bool)
    (hk : k < 0) (hd : 0 < d) (hgr : (color_greedy_dsatur g k).success = false) :
    color_threads_exact g k threads d expired = some .length_error := by
  unfold color_threads_exact
  rw [if_neg (by omega)]
  simp only [hgr, Bool.false_eq_true, if_false, generate_throws g k (degrees g) d hk hd]

theorem threads_after_generate (g : Graph) (k : Int) (threads d : Int) (expired : Nat → Bool)
    (hk : k ≠ 2) (hgr : (color_greedy_dsatur g k).success = false) (h : 0 ≤ k ∨ d ≤ 0) :
    color_threads_exact g k threads d expired =
      if threads < 0 then some .length_error
      else if threads = 0 then some (.result ⟨false, [], 0, 0⟩)
      else if threads = 1 then
        (worker_loop g k (degrees g) expired (g.n + 1) (subproblem_list g k (degrees g) d)
          0 0 0).map ThreadsOutcome.result
      else some .concurrent := by
  unfold color_threads_exact
  rw [if_neg hk]
  simp only [hgr, Bool.false_eq_true, if_false, generate_returns g k (degrees g) d h]

/-! ## At least as many colours as vertices -/

theorem exists_free_color {g : Graph} (hg : g.WellFormed) {k : Int} (hk : (g.n : Int) ≤ k)
    {u : Nat} (hu : u < g.n) (color : List Int) :
    ∃ c ∈ colors k, can_color g u c color = true := by
  have hsub : (g.nbrs u).toFinset ⊆ (Finset.range g.n).erase u := by
    intro v hv
    have hvm : v ∈ g.nbrs u := List.mem_toFinset.mp hv
    obtain ⟨h1, h2, _⟩ := hg.2 u hu v hvm
    exact Finset.mem_erase.mpr ⟨h2, Finset.mem_range.mpr h1⟩
  have hcard1 : (g.nbrs u).toFinset.card ≤ g.n - 1 := by
    have := Finset.card_le_card hsub
    rw [Finset.card_erase_of_mem (Finset.mem_range.mpr hu), Finset.card_range] at this
    exact this
  have hcard2 : ((g.nbrs u).toFinset.image (fun v => color.getD v 0)).card ≤ g.n - 1 :=
    le_trans Finset.card_image_le hcard1
  have hcard3 : ((Finset.range g.n).image (fun i : Nat => (i : Int))).card = g.n := by
    rw [Finset.card_image_of_injective _ (fun a b h => by exact_mod_cast h), Finset.card_range]
  have hex : ∃ c ∈ (Finset.range g.n).image (fun i : Nat => (i : Int)),
      c ∉ (g.nbrs u).toFinset.image (fun v => color.getD v 0) := by
    by_contra hall
    have hss : (Finset.range g.n).image (fun i : Nat => (i : Int)) ⊆
        (g.nbrs u).toFinset.image (fun v => color.getD v 0) := by
      intro c hc
      by_contra hcn
      exact hall ⟨c, hc, hcn⟩
    have := Finset.card_le_card hss
    omega
  obtain ⟨c, hcT, hcS⟩ := hex
  obtain ⟨i, hi, rfl⟩ := Finset.mem_image.mp hcT
  have hi' := Finset.mem_range.mp hi
  refine ⟨(i : Int), mem_colors.mpr ⟨by omega, by omega⟩, ?_⟩
  rw [can_color_iff]
  intro v hv hc
  apply hcS
  exact Finset.mem_image.mpr ⟨v, List.mem_toFinset.mpr hv, hc⟩

theorem greedy_loop_large_k {g : Graph} (hg : g.WellFormed) {k : Int} (hk : (g.n : Int) ≤ k)
    (degree : List Int) (steps : Nat) (color : List Int) (nodes : Nat) :
    (greedy_loop g k degree steps color nodes).success = true := by
  induction steps generalizing color nodes with
  | zero => rfl
  | succ steps ih =>
    rw [greedy_loop]
    split
    · rfl
    · rename_i hne
      obtain ⟨hun, _⟩ := choose_uncolored g color degree hne
      obtain ⟨c, hc, hcan⟩ := exists_free_color hg hk hun color
      split
      · rename_i hfind
        have := List.find?_eq_none.mp hfind c hc
        exact absurd hcan this
      · exact ih _ _

theorem greedy_loop_backtracks (g : Graph) (k : Int) (degree : List Int) (steps : Nat)
    (color : List Int) (nodes : Nat) :
    (greedy_loop g k degree steps color nodes).backtracks = 0 := by
  induction steps generalizing color nodes with
  | zero => rfl
  | succ steps ih =>
    rw [greedy_loop]
    split
    · rfl
    · split
      · rfl
      · exact ih _ _

theorem two_color_backtracks (g : Graph) (r : ColoringResult)
    (h : color_two_color_bipartite g = some r) : r.backtracks = 0 := by
  unfold color_two_color_bipartite at h
  split at h
  · exact absurd h (by simp)
  · simp only [Option.some.injEq] at h; rw [← h]
  · simp only [Option.some.injEq] at h; rw [← h]


/-! ## The two-colour fast path on arbitrary graphs: termination, shape, counter -/

theorem bfs_visit_light (u : Nat) (vs : List Nat) (s : Bfs) (h : BfsLight s)
    (hu : s.color.getD u 0 ≠ -1) :
    (∀ s1, bfs_visit u vs s = .ok s1 →
      BfsLight s1 ∧ s1.color.length = s.color.length ∧ s1.nodes = s.nodes ∧
      uncoloredCount s1.color + s1.q.length = uncoloredCount s.color + s.q.length) ∧
    (∀ e, bfs_visit u vs s = .error e → e = s.nodes) := by
  induction vs generalizing s with
  | nil =>
    constructor
    · intro s1 hs1
      simp only [bfs_visit, Except.ok.injEq] at hs1
      subst hs1
      exact ⟨h, rfl, rfl, rfl⟩
    · intro e he
      simp [bfs_visit] at he
  | cons v vs ih =>
    rw [bfs_visit]
    split
    · rename_i hv
      have hvl := lt_length_of_uncolored hv
      have hcu : s.color.getD u 0 = 0 ∨ s.color.getD u 0 = 1 := by
        rcases h.1 u with h1 | h1
        · exact absurd h1 hu
        · exact h1
      have hvu : v ≠ u := fun e => hu (e ▸ hv)
      have hlight : BfsLight
          { s with color := s.color.set v (1 - s.color.getD u 0), q := s.q ++ [v] } := by
        constructor
        · intro w
          simp only
          by_cases hwv : v = w
          · subst hwv; rw [getD_set_self _ _ _ hvl]; omega
          · rw [getD_set_other _ _ _ _ hwv]; exact h.1 w
        · intro w hw
          simp only at hw ⊢
          rcases List.mem_append.mp hw with h1 | h1
          · have hwc := h.2 w h1
            rw [keeps_set hv _ w hwc]; exact hwc
          · have : w = v := by simpa using h1
            subst this
            rw [getD_set_self _ _ _ hvl]; omega
      have hu1 : (s.color.set v (1 - s.color.getD u 0)).getD u 0 ≠ -1 := by
        rw [getD_set_other _ _ _ _ hvu]; exact hu
      obtain ⟨ih1, ih2⟩ := ih _ hlight hu1
      constructor
      · intro s1 hs1
        obtain ⟨a, b, c, d⟩ := ih1 s1 hs1
        simp only [List.length_set, List.length_append, List.length_singleton] at b c d
        have := count_set_uncolored s.color v (1 - s.color.getD u 0) hv (by omega)
        exact ⟨a, b, c, by omega⟩
      · intro e he
        exact ih2 e he
    · split
      · constructor
        · intro s1 hs1; exact absurd hs1 (by simp)
        · intro e he
          simp only [Except.error.injEq] at he
          exact he.symm
      · exact ih s h hu

theorem bfs_while_light (g : Graph) (fuel : Nat) (s : Bfs) (h : BfsLight s)
    (hb : uncoloredCount s.color + s.q.length ≤ fuel) :
    ∃ r, bfs_while g fuel s = some r ∧
      (∀ s1, r = .ok s1 → BfsLight s1 ∧ s1.q = [] ∧ s1.color.length = s.color.length) ∧
      s.nodes ≤ bfsNodes r ∧ (s.q ≠ [] → s.nodes + 1 ≤ bfsNodes r) ∧
      (∀ e, r = .error e → s.nodes + 1 ≤ e) := by
  induction fuel generalizing s with
  | zero =>
    have hq : s.q = [] := List.eq_nil_of_length_eq_zero (by omega)
    refine ⟨.ok s, by simp [bfs_while, hq], ?_, le_refl _, fun hne => absurd hq hne, ?_⟩
    · intro s1 hs1
      simp only [Except.ok.injEq] at hs1
      subst hs1
      exact ⟨h, hq, rfl⟩
    · intro e he; exact absurd he (by simp)
  | succ fuel ih =>
    rw [bfs_while]
    cases hq : s.q with
    | nil =>
      refine ⟨.ok s, rfl, ?_, le_refl _, fun hne => absurd rfl hne, ?_⟩
      · intro s1 hs1
        simp only [Except.ok.injEq] at hs1
        subst hs1
        exact ⟨h, hq, rfl⟩
      · intro e he; exact absurd he (by simp)
    | cons u rest =>
      simp only
      have hu : s.color.getD u 0 ≠ -1 := h.2 u (by rw [hq]; exact List.mem_cons_self u rest)
      have hl0 : BfsLight { s with q := rest, nodes := s.nodes + 1 } :=
        ⟨h.1, fun w hw => h.2 w (by rw [hq]; exact List.mem_cons_of_mem _ hw)⟩
      obtain ⟨hv1, hv2⟩ := bfs_visit_light u (g.nbrs u) _ hl0 hu
      cases hvis : bfs_visit u (g.nbrs u) { s with q := rest, nodes := s.nodes + 1 } with
      | error e =>
        have he := hv2 e hvis
        simp only at he
        refine ⟨.error e, rfl, fun s1 hs1 => absurd hs1 (by simp), ?_, ?_, ?_⟩
        · simp only [bfsNodes]; omega
        · intro _; simp only [bfsNodes]; omega
        · intro e1 he1
          simp only [Except.error.injEq] at he1
          omega
      | ok s1 =>
        simp only
        obtain ⟨a, b, c, d⟩ := hv1 s1 hvis
        simp only at b c d
        have hlen : s.q.length = rest.length + 1 := by rw [hq]; rfl
        obtain ⟨r, hr, hr1, hr2, _, hr4⟩ := ih s1 a (by omega)
        refine ⟨r, hr, ?_, by omega, fun _ => by omega, ?_⟩
        · intro s2 hs2
          obtain ⟨x, y, z⟩ := hr1 s2 hs2
          exact ⟨x, y, by rw [z, b]⟩
        · intro e he
          have := hr4 e he
          omega

theorem bfs_starts_light (g : Graph) (starts : List Nat) (s : Bfs) (h : BfsLight s)
    (hq : s.q = []) (hl : s.color.length = g.n) :
    ∃ r, bfs_starts g starts s = some r ∧
      (∀ s1, r = .ok s1 → s1.color.length = g.n) ∧
      s.nodes ≤ bfsNodes r ∧
      ((∃ w ∈ starts, s.color.getD w 0 = -1) → s.nodes + 1 ≤ bfsNodes r) := by
  induction starts generalizing s with
  | nil =>
    refine ⟨.ok s, rfl, ?_, le_refl _, ?_⟩
    · intro s1 hs1
      simp only [Except.ok.injEq] at hs1
      subst hs1
      exact hl
    · rintro ⟨w, hw, _⟩; simp at hw
  | cons start rest ih =>
    rw [bfs_starts]
    split
    · rename_i hsc
      obtain ⟨r, hr, hr1, hr2, hr3⟩ := ih s h hq hl
      refine ⟨r, hr, hr1, hr2, ?_⟩
      rintro ⟨w, hw, hwc⟩
      rcases List.mem_cons.mp hw with h1 | h1
      · subst h1; exact absurd hwc hsc
      · exact hr3 ⟨w, h1, hwc⟩
    · rename_i hsc
      have hsc : s.color.getD start 0 = -1 := not_not.mp hsc
      have hsl := lt_length_of_uncolored hsc
      have hl0 : BfsLight { s with color := s.color.set start 0, q := s.q ++ [start] } := by
        constructor
        · intro w
          simp only
          by_cases hws : start = w
          · subst hws; rw [getD_set_self _ _ _ hsl]; omega
          · rw [getD_set_other _ _ _ _ hws]; exact h.1 w
        · intro w hw
          simp only [hq, List.nil_append, List.mem_singleton] at hw
          subst hw
          simp only
          rw [getD_set_self _ _ _ hsl]; omega
      have hbud : uncoloredCount (s.color.set start 0) + (s.q ++ [start]).length ≤ g.n := by
        have h1 := count_set_uncolored s.color start 0 hsc (by omega)
        have h2 := uncoloredCount_le_length s.color
        rw [hl] at h2
        simp only [hq, List.nil_append, List.length_singleton]
        omega
      obtain ⟨r, hr, hr1, hr2, hr3, hr4⟩ := bfs_while_light g g.n _ hl0 hbud
      simp only at hr2 hr3 hr4
      have hne : s.q ++ [start] ≠ [] := by simp
      have hr3 := hr3 hne
      rw [hr]
      cases r with
      | error e =>
        refine ⟨.error e, rfl, fun s1 hs1 => absurd hs1 (by simp), ?_, ?_⟩
        · simp only [bfsNodes] at hr3 ⊢; omega
        · intro _; simp only [bfsNodes] at hr3 ⊢; omega
      | ok s1 =>
        simp only
        obtain ⟨a, b, c⟩ := hr1 s1 rfl
        simp only [List.length_set] at c
        simp only [bfsNodes] at hr3
        obtain ⟨r2, hr2a, hr2b, hr2c, _⟩ := ih s1 a b (by rw [c, hl])
        exact ⟨r2, hr2a, hr2b, by omega, fun _ => by omega⟩

theorem two_color_shape (g : Graph) :
    ∃ r, color_two_color_bipartite g = some r ∧ RecordShape g.n r ∧
      r.backtracks = 0 ∧ (0 < g.n → 1 ≤ r.nodes) := by
  have hl0 : BfsLight ⟨uncolored g, [], 0⟩ := by
    constructor
    · intro w
      simp only [uncolored, List.getD_eq_getElem?_getD, List.getElem?_replicate]
      split <;> simp
    · intro w hw; simp at hw
  obtain ⟨r, hr, hr1, _, hr3⟩ := bfs_starts_light g (List.range g.n) _ hl0 rfl
    (by simp [uncolored])
  have hn : 0 < g.n → 1 ≤ bfsNodes r := by
    intro hpos
    have := hr3 ⟨0, List.mem_range.mpr hpos, getD_uncolored g 0 hpos⟩
    simpa using this
  unfold color_two_color_bipartite
  rw [hr]
  cases r with
  | error e =>
    exact ⟨_, rfl, ⟨fun _ => rfl, fun hs => absurd hs (by simp)⟩, rfl, hn⟩
  | ok s1 =>
    exact ⟨_, rfl, ⟨fun hs => absurd hs (by simp), fun _ => hr1 s1 rfl⟩, rfl, hn⟩

/-! ## Result records: shape and counters -/

theorem greedy_loop_shape (g : Graph) (k : Int) (degree : List Int) (steps : Nat)
    (color : List Int) (nodes : Nat) :
    ((greedy_loop g k degree steps color nodes).success = false →
      (greedy_loop g k degree steps color nodes).color = []) ∧
    ((greedy_loop g k degree steps color nodes).success = true →
      (greedy_loop g k degree steps color nodes).color.length = color.length) ∧
    nodes ≤ (greedy_loop g k degree steps color nodes).nodes ∧
    (0 < steps → choose_vertex_dsatur g color degree ≠ -1 →
      nodes + 1 ≤ (greedy_loop g k degree steps color nodes).nodes) := by
  induction steps generalizing color nodes with
  | zero =>
    exact ⟨fun h => absurd h (by simp [greedy_loop]), fun _ => rfl, le_refl _,
      fun h => absurd h (Nat.lt_irrefl 0)⟩
  | succ steps ih =>
    rw [greedy_loop]
    split
    · rename_i hch
      exact ⟨fun h => absurd h (by simp), fun _ => rfl, le_refl _, fun _ h => absurd hch h⟩
    · split
      · exact ⟨fun _ => rfl, fun h => absurd h (by simp), Nat.le_succ _, fun _ _ => le_refl _⟩
      · rename_i c _
        obtain ⟨a, b, c1, _⟩ := ih (color.set (choose_vertex_dsatur g color degree).toNat c)
          (nodes + 1)
        refine ⟨a, ?_, by omega, fun _ _ => c1⟩
        intro hs
        rw [b hs, List.length_set]

theorem color_loop_counters (recur : Search → Option (Bool × Search)) (g : Graph) (u : Nat)
    (hrec : ∀ t b r, recur t = some (b, r) →
      t.nodes + 1 ≤ r.nodes ∧ t.backtracks ≤ r.backtracks ∧
      r.backtracks + t.nodes ≤ r.nodes + t.backtracks)
    (cs : List Int) (s : Search) (b : Bool) (s1 : Search)
    (h : color_loop recur g u cs s = some (b, s1)) :
    s.nodes ≤ s1.nodes ∧ s.backtracks ≤ s1.backtracks ∧
      s1.backtracks + s.nodes ≤ s1.nodes + s.backtracks + 1 := by
  induction cs generalizing s with
  | nil =>
    simp only [color_loop, Option.some.injEq, Prod.mk.injEq] at h
    obtain ⟨_, rfl⟩ := h
    simp only
    omega
  | cons c cs ih =>
    rw [color_loop] at h
    split at h
    · exact ih s h
    · split at h
      · exact absurd h (by simp)
      · rename_i r heq
        simp only [Option.some.injEq, Prod.mk.injEq] at h
        obtain ⟨_, rfl⟩ := h
        have := hrec _ _ _ heq
        simp only at this
        omega
      · rename_i r heq
        have h1 := hrec _ _ _ heq
        have h2 := ih _ h
        simp only at h1 h2
        omega

theorem backtrack_exact_counters (g : Graph) (k : Int) (degree : List Int)
    (expired : Nat → Bool) (fuel : Nat) (s : Search) (b : Bool) (s1 : Search)
    (h : backtrack_exact g k degree expired fuel s = some (b, s1)) :
    s.nodes + 1 ≤ s1.nodes ∧ s.backtracks ≤ s1.backtracks ∧
      s1.backtracks + s.nodes ≤ s1.nodes + s.backtracks := by
  induction fuel generalizing s b s1 with
  | zero => simp [backtrack_exact] at h
  | succ fuel ih =>
    rw [backtrack_exact] at h
    split at h
    · simp only [Option.some.injEq, Prod.mk.injEq] at h
      obtain ⟨_, rfl⟩ := h
      simp only
      omega
    · simp only at h
      split at h
      · simp only [Option.some.injEq, Prod.mk.injEq] at h
        obtain ⟨_, rfl⟩ := h
        simp only
        omega
      · have := color_loop_counters _ g _ (fun t b r => ih t b r) _ _ b s1 h
        simp only at this
        omega

theorem backtrack_exact_length (g : Graph) (k : Int) (degree : List Int)
    (expired : Nat → Bool) (fuel : Nat) (s s1 : Search)
    (h : backtrack_exact g k degree expired fuel s = some (true, s1)) :
    s1.color.length = s.color.length := by
  induction fuel generalizing s s1 with
  | zero => simp [backtrack_exact] at h
  | succ fuel ih =>
    rw [backtrack_exact] at h
    split at h
    · exact absurd h (by simp)
    · simp only at h
      split at h
      · simp only [Option.some.injEq, Prod.mk.injEq, true_and] at h
        rw [← h]
      · rename_i hne
        obtain ⟨_, huc⟩ := choose_uncolored g s.color degree hne
        obtain ⟨c, _, _, t, ht, hrec⟩ := color_loop_true_inv _ g _
          (fun t r => backtrack_exact_frame g k degree expired fuel t r) _
          { s with nodes := s.nodes + 1, clock := s.clock + 1 } s1 huc h
        simp only at ht
        rw [ih t s1 hrec, ht, List.length_set]

theorem serial_shape (g : Graph) (k : Int) (expired : Nat → Bool) :
    ∃ r, color_serial_exact g k expired = some r ∧ RecordShape g.n r ∧
      (0 < g.n → 1 ≤ r.nodes) ∧ r.backtracks ≤ r.nodes := by
  unfold color_serial_exact
  by_cases hk : k = 2
  · rw [if_pos hk]
    obtain ⟨r, hr, h1, h2, h3⟩ := two_color_shape g
    exact ⟨r, hr, h1, h3, by omega⟩
  · rw [if_neg hk]
    simp only
    obtain ⟨a, b, _, d⟩ := greedy_loop_shape g k (degrees g) g.n (uncolored g) 0
    have hbk := greedy_loop_backtracks g k (degrees g) g.n (uncolored g) 0
    by_cases hgr : (color_greedy_dsatur g k).success = true
    · rw [if_pos hgr]
      refine ⟨_, rfl, ⟨a, fun hs => ?_⟩, ?_, ?_⟩
      · have := b hs
        simp only [uncolored, List.length_replicate] at this
        exact this
      · intro hn
        have := d hn (choose_ne_of_uncolored g (degrees g) hn)
        unfold color_greedy_dsatur
        omega
      · unfold color_greedy_dsatur
        omega
    · rw [if_neg hgr]
      obtain ⟨⟨ok, s1⟩, hr⟩ := backtrack_exact_total g k (degrees g) expired (g.n + 1)
        (Search.start g) (by simp [Search.start, uncoloredCount_uncolored])
      rw [hr]
      have hc := backtrack_exact_counters g k (degrees g) expired _ _ ok s1 hr
      simp only [Search.start] at hc
      refine ⟨_, rfl, ⟨?_, ?_⟩, fun _ => by simp only; omega, by simp only; omega⟩
      · intro hs
        simp only at hs
        subst hs
        rfl
      · intro hs
        simp only at hs
        subst hs
        simp only [if_true]
        rw [backtrack_exact_length g k (degrees g) expired _ _ s1 hr]
        simp [Search.start, uncolored]


/-! ## The single worker against the serial search -/

theorem color_loop_offset (r1 r2 : Search → Option (Bool × Search)) (nd bk : Nat)
    (hrec : ∀ s t, Offset nd bk s t → OffsetResult nd bk (r1 s) (r2 t)) (g : Graph) (u : Nat)
    (cs : List Int) (s t : Search) (h : Offset nd bk s t) :
    OffsetResult nd bk (color_loop r1 g u cs s) (color_loop r2 g u cs t) := by
  induction cs generalizing s t with
  | nil =>
    simp only [color_loop, OffsetResult, Offset]
    exact ⟨trivial, h.1, h.2.1, by rw [h.2.2]; omega⟩
  | cons c cs ih =>
    rw [color_loop, color_loop]
    rw [h.1]
    split
    · exact ih _ _ h
    · have hsim := hrec { s with color := t.color.set u c } { t with color := t.color.set u c }
        ⟨rfl, h.2.1, h.2.2⟩
      revert hsim
      generalize r1 { s with color := t.color.set u c } = x
      generalize r2 { t with color := t.color.set u c } = y
      intro hsim
      match x, y, hsim with
      | none, none, _ => trivial
      | some (true, s1), some (true, t1), hs => exact hs
      | some (false, s1), some (false, t1), hs =>
        simp only
        apply ih
        obtain ⟨_, h1, h2, h3⟩ := hs
        exact ⟨by simp only [h1], h2, h3⟩
      | some (true, s1), some (false, t1), hs => exact absurd hs.1 (by simp)
      | some (false, s1), some (true, t1), hs => exact absurd hs.1 (by simp)

theorem backtrack_exact_offset (g : Graph) (k : Int) (degree : List Int) (fuel : Nat)
    (nd bk : Nat) (s t : Search) (h : Offset nd bk s t) :
    OffsetResult nd bk (backtrack_exact g k degree no_deadline fuel s)
      (backtrack_exact g k degree no_deadline fuel t) := by
  induction fuel generalizing s t with
  | zero => simp [backtrack_exact, OffsetResult]
  | succ fuel ih =>
    rw [backtrack_exact, backtrack_exact]
    simp only [no_deadline, Bool.false_eq_true, if_false]
    rw [h.1]
    split
    · exact ⟨rfl, rfl, by simp only [h.2.1]; omega, h.2.2⟩
    · exact color_loop_offset _ _ nd bk (fun s t hst => ih s t hst) g _ _ _ _
        ⟨rfl, by simp only [h.2.1]; omega, h.2.2⟩

theorem color_loop_fuel_mono (r1 r2 : Search → Option (Bool × Search))
    (hrec : ∀ t r, r1 t = some r → r2 t = some r) (g : Graph) (u : Nat)
    (cs : List Int) (s : Search) (r : Bool × Search)
    (h : color_loop r1 g u cs s = some r) : color_loop r2 g u cs s = some r := by
  induction cs generalizing s with
  | nil => simpa [color_loop] using h
  | cons c cs ih =>
    rw [color_loop] at h ⊢
    split
    · rename_i hcan
      rw [if_pos hcan] at h
      exact ih s h
    · rename_i hcan
      rw [if_neg hcan] at h
      cases hx : r1 { s with color := s.color.set u c } with
      | none => rw [hx] at h; exact absurd h (by simp)
      | some x =>
        rw [hx] at h
        rw [hrec _ _ hx]
        obtain ⟨b, s1⟩ := x
        cases b with
        | true => exact h
        | false => exact ih _ h

theorem backtrack_exact_fuel_succ (g : Graph) (k : Int) (degree : List Int)
    (expired : Nat → Bool) (fuel : Nat) (s : Search) (r : Bool × Search)
    (h : backtrack_exact g k degree expired fuel s = some r) :
    backtrack_exact g k degree expired (fuel + 1) s = some r := by
  induction fuel generalizing s r with
  | zero => simp [backtrack_exact] at h
  | succ fuel ih =>
    rw [backtrack_exact] at h ⊢
    split
    · rename_i he
      rw [if_pos he] at h
      exact h
    · rename_i he
      rw [if_neg he] at h
      simp only at h ⊢
      split
      · rename_i hch
        rw [if_pos hch] at h
        exact h
      · rename_i hch
        rw [if_neg hch] at h
        exact color_loop_fuel_mono _ _ (fun t r => ih t r) g _ _ _ r h

theorem backtrack_exact_fuel_le (g : Graph) (k : Int) (degree : List Int)
    (expired : Nat → Bool) (f1 f2 : Nat) (hle : f1 ≤ f2) (s : Search) (r : Bool × Search)
    (h : backtrack_exact g k degree expired f1 s = some r) :
    backtrack_exact g k degree expired f2 s = some r := by
  induction hle with
  | refl => exact h
  | step _ ih => exact backtrack_exact_fuel_succ g k degree expired _ s r ih

theorem worker_loop_eq_seq_search (g : Graph) (k : Int) (degree : List Int) (fuel : Nat)
    (work : List (List Int)) (ns bs clock : Nat) :
    worker_loop g k degree no_deadline fuel work ns bs clock =
      seq_search g k degree fuel work ns bs := by
  induction work generalizing ns bs clock with
  | nil => rfl
  | cons sp work ih =>
    rw [worker_loop, seq_search]
    have hne : no_deadline (clock + 1) = false := rfl
    simp only [hne, Bool.false_eq_true, if_false]
    have hsim := backtrack_exact_stop_sim g k degree fuel ⟨sp, 0, 0, clock + 2⟩ ⟨sp, 0, 0, 0⟩
      ⟨rfl, rfl, rfl⟩
    revert hsim
    generalize backtrack_exact_stop g k degree never_found no_deadline fuel
      ⟨sp, 0, 0, clock + 2⟩ = x
    generalize backtrack_exact g k degree no_deadline fuel ⟨sp, 0, 0, 0⟩ = y
    intro hsim
    match x, y, hsim with
    | none, none, _ => rfl
    | some (true, s1), some (true, t1), hs =>
      obtain ⟨_, h1, h2, h3⟩ := hs
      simp only [h1, h2, h3]
    | some (false, s1), some (false, t1), hs =>
      obtain ⟨_, h1, h2, h3⟩ := hs
      simp only [h2, h3]
      exact ih _ _ _
    | some (true, s1), some (false, t1), hs => exact absurd hs.1 (by simp)
    | some (false, s1), some (true, t1), hs => exact absurd hs.1 (by simp)

theorem color_loop_vs_seq_search (g : Graph) (k : Int) (degree : List Int) (f F : Nat)
    (hF : f ≤ F) (u : Nat) (sp : List Int) (hu : sp.getD u 0 = -1) (cs : List Int)
    (s : Search) (hs : s.color = sp) (b : Bool) (s1 : Search)
    (h : color_loop (backtrack_exact g k degree no_deadline f) g u cs s = some (b, s1))
    (ns bs : Nat) :
    ∃ N B, s1.nodes = s.nodes + N ∧
      s1.backtracks + (if b = true then 1 else 0) = s.backtracks + B + 1 ∧
      seq_search g k degree F
        ((cs.filter (fun c => can_color g u c sp)).map (fun c => sp.set u c)) ns bs =
        some ⟨b, if b = true then s1.color else [], ns + N, bs + B⟩ := by
  induction cs generalizing s ns bs with
  | nil =>
    simp only [color_loop, Option.some.injEq, Prod.mk.injEq] at h
    obtain ⟨rfl, rfl⟩ := h
    exact ⟨0, 0, rfl, by simp, by simp [seq_search]⟩
  | cons c cs ih =>
    rw [color_loop, hs] at h
    by_cases hcan : can_color g u c sp = true
    · simp only [hcan, Bool.not_true, Bool.false_eq_true, if_false] at h
      rw [List.filter_cons_of_pos (p := fun c => can_color g u c sp) (a := c) hcan,
        List.map_cons, seq_search]
      have hoff := backtrack_exact_offset g k degree f s.nodes s.backtracks
        { s with color := sp.set u c } ⟨sp.set u c, 0, 0, 0⟩ ⟨rfl, by simp, by simp⟩
      cases hx : backtrack_exact g k degree no_deadline f { s with color := sp.set u c } with
      | none => rw [hx] at h; exact absurd h (by simp)
      | some x =>
        obtain ⟨b1, r⟩ := x
        rw [hx] at h hoff
        cases hy : backtrack_exact g k degree no_deadline f ⟨sp.set u c, 0, 0, 0⟩ with
        | none => rw [hy] at hoff; exact absurd hoff (by simp [OffsetResult])
        | some y =>
          obtain ⟨b0, r0⟩ := y
          rw [hy] at hoff
          obtain ⟨hb, hcol, hnd, hbk⟩ := hoff
          subst hb
          rw [backtrack_exact_fuel_le g k degree no_deadline f F hF _ _ hy]
          cases b1 with
          | true =>
            simp only [Option.some.injEq, Prod.mk.injEq] at h
            obtain ⟨rfl, rfl⟩ := h
            refine ⟨r0.nodes, r0.backtracks, by omega, by simp only [if_true]; omega, ?_⟩
            simp only [if_true, hcol]
          | false =>
            simp only at h
            have hfr := backtrack_exact_frame g k degree no_deadline f _ r hx
            simp only at hfr
            have hres : r.color.set u (-1) = sp := by rw [hfr]; exact set_restore _ _ _ hu
            obtain ⟨N, B, h1, h2, h3⟩ := ih { r with color := r.color.set u (-1) } hres h
              (ns + r0.nodes) (bs + r0.backtracks)
            simp only at h1 h2
            refine ⟨r0.nodes + N, r0.backtracks + B, by omega, by omega, ?_⟩
            simp only
            rw [h3, Nat.add_assoc, Nat.add_assoc]
    · have hcan' : can_color g u c sp = false := by simpa using hcan
      simp only [hcan', Bool.not_false, if_true] at h
      rw [List.filter_cons_of_neg (p := fun c => can_color g u c sp) (a := c) hcan]
      exact ih s hs h ns bs

theorem expand_vs_engine (g : Graph) (k : Int) (degree : List Int) (F : Nat)
    (sp : List Int) (b : Bool) (s1 : Search)
    (h : backtrack_exact g k degree no_deadline F ⟨sp, 0, 0, 0⟩ = some (b, s1)) (ns bs : Nat) :
    ∃ N B, N ≤ s1.nodes ∧ B ≤ s1.backtracks ∧
      seq_search g k degree F (expand g k degree sp) ns bs =
        some ⟨b, if b = true then s1.color else [], ns + N, bs + B⟩ := by
  cases F with
  | zero => simp [backtrack_exact] at h
  | succ f =>
    have h0 := h
    rw [backtrack_exact] at h
    simp only [no_deadline, Bool.false_eq_true, if_false] at h
    unfold expand
    simp only
    split at h
    · rename_i hch
      rw [if_pos hch]
      simp only [Option.some.injEq, Prod.mk.injEq] at h
      obtain ⟨hb, hs1⟩ := h
      subst hb
      refine ⟨s1.nodes, s1.backtracks, le_refl _, le_refl _, ?_⟩
      rw [seq_search, h0]
      simp [seq_search]
    · rename_i hch
      rw [if_neg hch]
      obtain ⟨_, huc⟩ := choose_uncolored g sp degree hch
      obtain ⟨N, B, h1, h2, h3⟩ := color_loop_vs_seq_search g k degree f (f + 1)
        (Nat.le_succ f) _ sp huc (colors k) _ rfl b s1 h ns bs
      simp only at h1 h2
      refine ⟨N, B, by omega, ?_, h3⟩
      split at h2 <;> omega

theorem seq_search_append (g : Graph) (k : Int) (degree : List Int) (F : Nat)
    (l1 l2 : List (List Int)) (ns bs : Nat) :
    seq_search g k degree F (l1 ++ l2) ns bs =
      match seq_search g k degree F l1 ns bs with
      | none => none
      | some r => if r.success = true then some r else seq_search g k degree F l2 r.nodes
          r.backtracks := by
  induction l1 generalizing ns bs with
  | nil => simp [seq_search]
  | cons sp l1 ih =>
    rw [List.cons_append, seq_search, seq_search]
    cases backtrack_exact g k degree no_deadline F ⟨sp, 0, 0, 0⟩ with
    | none => rfl
    | some x =>
      obtain ⟨b, s1⟩ := x
      cases b with
      | true => simp
      | false => simp only; exact ih _ _

theorem seq_search_level (g : Graph) (k : Int) (degree : List Int) (F : Nat)
    (out : List (List Int)) (ns bs ns1 bs1 : Nat) (hns : ns1 ≤ ns) (hbs : bs1 ≤ bs)
    (r : ColoringResult) (h : seq_search g k degree F out ns bs = some r) :
    ∃ r1, seq_search g k degree F (out.flatMap (expand g k degree)) ns1 bs1 = some r1 ∧
      r1.success = r.success ∧ r1.color = r.color ∧ r1.nodes ≤ r.nodes ∧
      r1.backtracks ≤ r.backtracks := by
  induction out generalizing ns bs ns1 bs1 with
  | nil =>
    simp only [seq_search, Option.some.injEq] at h
    subst h
    exact ⟨_, rfl, rfl, rfl, hns, hbs⟩
  | cons sp out ih =>
    rw [seq_search] at h
    rw [List.flatMap_cons, seq_search_append]
    cases hx : backtrack_exact g k degree no_deadline F ⟨sp, 0, 0, 0⟩ with
    | none => rw [hx] at h; exact absurd h (by simp)
    | some x =>
      obtain ⟨b, s1⟩ := x
      rw [hx] at h
      obtain ⟨N, B, hN, hB, hseq⟩ := expand_vs_engine g k degree F sp b s1 hx ns1 bs1
      rw [hseq]
      cases b with
      | true =>
        simp only [Option.some.injEq] at h
        subst h
        simp only [if_true]
        exact ⟨_, rfl, rfl, rfl, by simp only; omega, by simp only; omega⟩
      | false =>
        simp only [Bool.false_eq_true, if_false] at h ⊢
        exact ih _ _ _ _ (by omega) (by omega) h

theorem seq_search_shift (g : Graph) (k : Int) (degree : List Int) (F : Nat)
    (out : List (List Int)) (ns bs ns1 bs1 : Nat) (hns : ns1 ≤ ns) (hbs : bs1 ≤ bs)
    (r : ColoringResult) (h : seq_search g k degree F out ns bs = some r) :
    ∃ r1, seq_search g k degree F out ns1 bs1 = some r1 ∧
      r1.success = r.success ∧ r1.color = r.color ∧ r1.nodes ≤ r.nodes ∧
      r1.backtracks ≤ r.backtracks := by
  induction out generalizing ns bs ns1 bs1 with
  | nil =>
    simp only [seq_search, Option.some.injEq] at h ⊢
    subst h
    exact ⟨_, rfl, rfl, rfl, hns, hbs⟩
  | cons sp out ih =>
    rw [seq_search] at h ⊢
    cases hx : backtrack_exact g k degree no_deadline F ⟨sp, 0, 0, 0⟩ with
    | none => rw [hx] at h; exact absurd h (by simp)
    | some x =>
      obtain ⟨b, s1⟩ := x
      rw [hx] at h
      cases b with
      | true =>
        simp only [Option.some.injEq] at h
        subst h
        exact ⟨_, rfl, rfl, rfl, by simp only; omega, by simp only; omega⟩
      | false =>
        simp only at h ⊢
        exact ih _ _ _ _ (by omega) (by omega) h

theorem seq_search_gen_levels (g : Graph) (k : Int) (degree : List Int) (F : Nat) (d : Nat)
    (out : List (List Int)) (ns bs ns1 bs1 : Nat) (hns : ns1 ≤ ns) (hbs : bs1 ≤ bs)
    (r : ColoringResult) (h : seq_search g k degree F out ns bs = some r) :
    ∃ r1, seq_search g k degree F (gen_levels_list g k degree d out) ns1 bs1 = some r1 ∧
      r1.success = r.success ∧ r1.color = r.color ∧ r1.nodes ≤ r.nodes ∧
      r1.backtracks ≤ r.backtracks := by
  induction d generalizing out ns bs ns1 bs1 r with
  | zero => exact seq_search_shift g k degree F out ns bs ns1 bs1 hns hbs r h
  | succ d ih =>
    obtain ⟨r1, hr1, a1, a2, a3, a4⟩ := seq_search_level g k degree F out ns bs ns1 bs1 hns hbs r h
    rw [gen_levels_list]
    split
    · exact ⟨r1, hr1, a1, a2, a3, a4⟩
    · obtain ⟨r2, hr2, c1, c2, c3, c4⟩ := ih _ ns1 bs1 ns1 bs1 (le_refl _) (le_refl _) r1 hr1
      exact ⟨r2, hr2, by rw [c1, a1], by rw [c2, a2], by omega, by omega⟩

theorem threads_one_vs_serial (g : Graph) (k : Int) (hk : k ≠ 2)
    (hgr : (color_greedy_dsatur g k).success = false) (d : Int) (hkd : 0 ≤ k ∨ d ≤ 0) :
    ∃ rs rt, color_serial_exact g k no_deadline = some rs ∧
      color_threads_exact g k 1 d no_deadline = some (.result rt) ∧
      rt.success = rs.success ∧ rt.color = rs.color ∧
      rt.nodes ≤ rs.nodes ∧ rt.backtracks ≤ rs.backtracks ∧ (d ≤ 0 → rt = rs) := by
  obtain ⟨⟨b, s1⟩, hr⟩ := backtrack_exact_total g k (degrees g) no_deadline (g.n + 1)
    (Search.start g) (by simp [Search.start, uncoloredCount_uncolored])
  have hserial : color_serial_exact g k no_deadline =
      some ⟨b, if b = true then s1.color else [], s1.nodes, s1.backtracks⟩ := by
    unfold color_serial_exact
    rw [if_neg hk]
    simp only [hgr, Bool.false_eq_true, if_false, hr]
  have hseq : seq_search g k (degrees g) (g.n + 1) [uncolored g] 0 0 =
      some ⟨b, if b = true then s1.color else [], s1.nodes, s1.backtracks⟩ := by
    have hr0 : backtrack_exact g k (degrees g) no_deadline (g.n + 1) ⟨uncolored g, 0, 0, 0⟩ =
        some (b, s1) := hr
    rw [seq_search, hr0]
    cases b with
    | true => simp
    | false => simp [seq_search]
  have hthreads : color_threads_exact g k 1 d no_deadline =
      (seq_search g k (degrees g) (g.n + 1) (subproblem_list g k (degrees g) d) 0 0).map
        ThreadsOutcome.result := by
    rw [threads_after_generate g k 1 d no_deadline hk hgr hkd]
    rw [if_neg (by decide), if_neg (by decide), if_pos rfl, worker_loop_eq_seq_search]
  obtain ⟨rt, hrt, a1, a2, a3, a4⟩ := seq_search_gen_levels g k (degrees g) (g.n + 1) d.toNat
    [uncolored g] 0 0 0 0 (le_refl _) (le_refl _) _ hseq
  refine ⟨_, rt, hserial, ?_, a1, a2, a3, a4, ?_⟩
  · rw [hthreads]
    unfold subproblem_list
    rw [hrt]; rfl
  · intro hd
    have hd0 : d.toNat = 0 := by omega
    rw [hd0] at hrt
    simp only [gen_levels_list] at hrt
    rw [hseq] at hrt
    simp only [Option.some.injEq] at hrt
    exact hrt.symm

/-! ## The threaded engine under any behaviour of the flag and of the clock -/

theorem color_loop_stop_frame (recur : Search → Option (Bool × Search)) (g : Graph)
    (found expired : Nat → Bool) (u : Nat)
    (hrec : ∀ t r, recur t = some (false, r) → r.color = t.color)
    (cs : List Int) (s s1 : Search) (hu : s.color.getD u 0 = -1)
    (h : color_loop_stop recur g found expired u cs s = some (false, s1)) :
    s1.color = s.color := by
  induction cs generalizing s with
  | nil =>
    simp only [color_loop_stop, Option.some.injEq, Prod.mk.injEq, true_and] at h
    rw [← h]
  | cons c cs ih =>
    rw [color_loop_stop] at h
    split at h
    · simp only [Option.some.injEq, Prod.mk.injEq, true_and] at h
      rw [← h]
    · split at h
      · simp only [Option.some.injEq, Prod.mk.injEq, true_and] at h
        rw [← h]
      · split at h
        · exact ih { s with clock := s.clock + 2 } hu h
        · split at h
          · exact absurd h (by simp)
          · exact absurd h (by simp)
          · rename_i r heq
            have hr := hrec _ _ heq
            simp only at hr
            have hres : r.color.set u (-1) = s.color := by rw [hr]; exact set_restore _ _ _ hu
            have := ih { r with color := r.color.set u (-1) } (by simp only [hres]; exact hu) h
            rw [this]; exact hres

theorem backtrack_exact_stop_frame (g : Graph) (k : Int) (degree : List Int)
    (found expired : Nat → Bool) (fuel : Nat) (s s1 : Search)
    (h : backtrack_exact_stop g k degree found expired fuel s = some (false, s1)) :
    s1.color = s.color := by
  induction fuel generalizing s s1 with
  | zero => simp [backtrack_exact_stop] at h
  | succ fuel ih =>
    rw [backtrack_exact_stop] at h
    split at h
    · simp only [Option.some.injEq, Prod.mk.injEq, true_and] at h
      rw [← h]
    · split at h
      · simp only [Option.some.injEq, Prod.mk.injEq, true_and] at h
        rw [← h]
      · simp only at h
        split at h
        · exact absurd h (by simp)
        · rename_i hne
          have hu := (choose_uncolored g s.color degree hne).2
          exact color_loop_stop_frame _ g found expired _ (fun t r => ih t r) _
            { s with nodes := s.nodes + 1, clock := s.clock + 2 } s1 hu h

theorem color_loop_stop_total (recur : Search → Option (Bool × Search)) (g : Graph)
    (found expired : Nat → Bool) (u : Nat) (m : Nat)
    (hrec : ∀ t, uncoloredCount t.color ≤ m → ∃ r, recur t = some r)
    (hfr : ∀ t r, recur t = some (false, r) → r.color = t.color)
    (cs : List Int) (hcs : ∀ c ∈ cs, c ≠ -1) (s : Search) (hu : s.color.getD u 0 = -1)
    (hm : uncoloredCount s.color ≤ m + 1) :
    ∃ r, color_loop_stop recur g found expired u cs s = some r := by
  induction cs generalizing s with
  | nil => exact ⟨_, rfl⟩
  | cons c cs ih =>
    have hcs1 : ∀ c ∈ cs, c ≠ -1 := fun c hc => hcs c (List.mem_cons_of_mem _ hc)
    rw [color_loop_stop]
    split
    · exact ⟨_, rfl⟩
    · split
      · exact ⟨_, rfl⟩
      · split
        · exact ih hcs1 { s with clock := s.clock + 2 } hu hm
        · have hcnt := count_set_uncolored s.color u c hu (hcs c (List.mem_cons_self c cs))
          obtain ⟨⟨b, r⟩, hr⟩ := hrec { s with color := s.color.set u c, clock := s.clock + 2 }
            (by simp only; omega)
          rw [hr]
          cases b with
          | true => exact ⟨_, rfl⟩
          | false =>
            have hfr1 := hfr _ _ hr
            simp only at hfr1
            have hres : r.color.set u (-1) = s.color := by
              rw [hfr1]; exact set_restore _ _ _ hu
            exact ih hcs1 { r with color := r.color.set u (-1) }
              (by simp only [hres]; exact hu) (by simp only [hres]; exact hm)

theorem backtrack_exact_stop_total (g : Graph) (k : Int) (degree : List Int)
    (found expired : Nat → Bool) (fuel : Nat) (s : Search)
    (h : uncoloredCount s.color < fuel) :
    ∃ r, backtrack_exact_stop g k degree found expired fuel s = some r := by
  induction fuel generalizing s with
  | zero => exact absurd h (Nat.not_lt_zero _)
  | succ fuel ih =>
    rw [backtrack_exact_stop]
    split
    · exact ⟨_, rfl⟩
    · split
      · exact ⟨_, rfl⟩
      · simp only
        split
        · exact ⟨_, rfl⟩
        · rename_i hne
          have hu := (choose_uncolored g s.color degree hne).2
          have hpos := uncoloredCount_pos_of_uncolored hu
          cases fuel with
          | zero => omega
          | succ m =>
            exact color_loop_stop_total _ g found expired _ m (fun t ht => ih t (by omega))
              (fun t r => backtrack_exact_stop_frame g k degree found expired _ t r) _
              (colors_ne_neg_one k) _ hu (by simp only; omega)

theorem stop_sim_self (g : Graph) (k : Int) (degree : List Int) (fuel : Nat) (s : Search)
    (h : uncoloredCount s.color < fuel) :
    ∃ b s1 t1,
      backtrack_exact_stop g k degree never_found no_deadline fuel s = some (b, s1) ∧
      backtrack_exact g k degree no_deadline fuel s = some (b, t1) ∧
      s1.color = t1.color ∧ s1.nodes = t1.nodes ∧ s1.backtracks = t1.backtracks := by
  obtain ⟨⟨b, t1⟩, ht⟩ := backtrack_exact_total g k degree no_deadline fuel s h
  have hsim := backtrack_exact_stop_sim g k degree fuel s s ⟨rfl, rfl, rfl⟩
  rw [ht] at hsim
  cases hx : backtrack_exact_stop g k degree never_found no_deadline fuel s with
  | none => rw [hx] at hsim; exact absurd hsim (by simp [SameResult])
  | some x =>
    obtain ⟨c, s1⟩ := x
    rw [hx] at hsim
    obtain ⟨hb, h1, h2, h3⟩ := hsim
    subst hb
    exact ⟨c, s1, t1, rfl, ht, h1, h2, h3⟩


theorem no_uncolored_of_proper {g : Graph} {k : Int} {A : List Int}
    (h : IsProperColoring g k A) : (-1 : Int) ∉ A := by
  intro hm
  obtain ⟨i, hi, he⟩ := List.getElem_of_mem hm
  have := (h.2.1 i (by rw [← h.1]; exact hi)).1
  rw [List.getD_eq_getElem?_getD, List.getElem?_eq_getElem hi] at this
  simp only [Option.getD_some, he] at this
  omega

theorem threads_one_result (g : Graph) (k : Int) (d : Int)
    (hkd : 0 ≤ k ∨ d ≤ 0 ∨ g.n = 0) :
    ∃ rs rt, color_serial_exact g k no_deadline = some rs ∧
      color_threads_exact g k 1 d no_deadline = some (.result rt) ∧
      rt.success = rs.success ∧ rt.color = rs.color := by
  by_cases hk : k = 2
  · obtain ⟨r, hr, _⟩ := two_color_shape g
    refine ⟨r, r, ?_, ?_, rfl, rfl⟩
    · unfold color_serial_exact; rw [if_pos hk]; exact hr
    · unfold color_threads_exact; rw [if_pos hk, hr]; rfl
  · by_cases hgr : (color_greedy_dsatur g k).success = true
    · refine ⟨color_greedy_dsatur g k, color_greedy_dsatur g k, ?_, ?_, rfl, rfl⟩
      · unfold color_serial_exact; rw [if_neg hk]; simp only [hgr, if_true]
      · unfold color_threads_exact; rw [if_neg hk]; simp only [hgr, if_true]
    · have hgr' : (color_greedy_dsatur g k).success = false := by simpa using hgr
      have hn : g.n ≠ 0 := fun hn => hgr (by rw [greedy_zero_vertices g k hn])
      obtain ⟨rs, rt, h1, h2, h3, h4, _⟩ := threads_one_vs_serial g k hk hgr' d (by omega)
      exact ⟨rs, rt, h1, h2, h3, h4⟩


/-! ## Generated sub-problems: shape -/

theorem expand_level {g : Graph} (hg : g.WellFormed) (k : Int) (degree : List Int)
    (j : Nat) (sp : List Int) (hp : IsPartialColoring g k sp)
    (hc : uncoloredCount sp + min j g.n = g.n) :
    ∀ x ∈ expand g k degree sp,
      IsPartialColoring g k x ∧ uncoloredCount x + min (j + 1) g.n = g.n := by
  intro x hx
  refine ⟨ expand_partial hg k degree sp hp x hx, ?_⟩
  unfold expand at hx
  simp only at hx
  split at hx
  · rename_i hch
    simp only [List.mem_singleton] at hx
    subst hx
    have hall := (choose_eq_neg_one_iff g x degree).mp hch
    have h0 : uncoloredCount x = 0 :=
      count_zero_of_all_colored (fun u hu => hall u (by rw [← hp.1]; exact hu))
    rw [h0] at hc ⊢
    omega
  · rename_i hne
    obtain ⟨_, huc⟩ := choose_uncolored g sp degree hne
    obtain ⟨c, hcm, rfl⟩ := List.mem_map.mp hx
    have hc1 := (List.mem_filter.mp hcm).1
    have hcnt := count_set_uncolored sp _ c huc (colors_ne_neg_one k c hc1)
    omega

theorem gen_levels_level {g : Graph} (hg : g.WellFormed) (k : Int) (degree : List Int)
    (d j : Nat) (out : List (List Int))
    (h : ∀ sp ∈ out, IsPartialColoring g k sp ∧ uncoloredCount sp + min j g.n = g.n) :
    ∀ sp ∈ gen_levels_list g k degree d out,
      IsPartialColoring g k sp ∧ uncoloredCount sp + min (j + d) g.n = g.n := by
  induction d generalizing out j with
  | zero => exact h
  | succ d ih =>
    have hnext : ∀ sp ∈ out.flatMap (expand g k degree),
        IsPartialColoring g k sp ∧ uncoloredCount sp + min (j + 1) g.n = g.n := by
      intro sp hsp
      obtain ⟨p, hp, hmem⟩ := List.mem_flatMap.mp hsp
      exact expand_level hg k degree j p (h p hp).1 (h p hp).2 sp hmem
    rw [gen_levels_list]
    split
    · rename_i hemp
      intro sp hsp
      rw [List.isEmpty_iff.mp hemp] at hsp
      simp at hsp
    · have := ih (j + 1) _ hnext
      rw [Nat.add_assoc, Nat.add_comm 1 d] at this
      exact this

/-! ## Node bound of the engine -/

theorem nodeBound_pos (k r : Nat) : 1 ≤ nodeBound k r := by
  cases r with
  | zero => exact le_refl _
  | succ r => rw [nodeBound]; omega

theorem nodeBound_eq_sum (k r : Nat) : nodeBound k r = ∑ i ∈ Finset.range (r + 1), k ^ i := by
  induction r with
  | zero => simp [nodeBound]
  | succ r ih =>
    rw [nodeBound, ih, Finset.sum_range_succ' _ (r + 1), Finset.mul_sum]
    simp only [pow_succ, pow_zero]
    rw [Nat.add_comm]
    congr 1
    apply Finset.sum_congr rfl
    intro i _
    rw [Nat.mul_comm]

theorem color_loop_nodes_le (recur : Search → Option (Bool × Search)) (g : Graph) (u : Nat)
    (m M : Nat)
    (hrec : ∀ t b r, uncoloredCount t.color ≤ m → recur t = some (b, r) →
      r.nodes ≤ t.nodes + M)
    (hfr : ∀ t r, recur t = some (false, r) → r.color = t.color)
    (cs : List Int) (hcs : ∀ c ∈ cs, c ≠ -1) (s : Search) (hu : s.color.getD u 0 = -1)
    (hm : uncoloredCount s.color ≤ m + 1) (b : Bool) (s1 : Search)
    (h : color_loop recur g u cs s = some (b, s1)) :
    s1.nodes ≤ s.nodes + cs.length * M := by
  induction cs generalizing s with
  | nil =>
    simp only [color_loop, Option.some.injEq, Prod.mk.injEq] at h
    obtain ⟨_, rfl⟩ := h
    simp
  | cons c cs ih =>
    have hcs1 : ∀ c ∈ cs, c ≠ -1 := fun c hc => hcs c (List.mem_cons_of_mem _ hc)
    rw [List.length_cons, Nat.succ_mul]
    rw [color_loop] at h
    split at h
    · have := ih hcs1 s hu hm h
      omega
    · have hcnt := count_set_uncolored s.color u c hu (hcs c (List.mem_cons_self c cs))
      split at h
      · exact absurd h (by simp)
      · rename_i r heq
        simp only [Option.some.injEq, Prod.mk.injEq] at h
        obtain ⟨_, rfl⟩ := h
        have := hrec _ _ _ (by simp only; omega) heq
        simp only at this
        omega
      · rename_i r heq
        have h1 := hrec _ _ _ (by simp only; omega) heq
        have hfr1 := hfr _ _ heq
        simp only at h1 hfr1
        have hres : r.color.set u (-1) = s.color := by rw [hfr1]; exact set_restore _ _ _ hu
        have h2 := ih hcs1 { r with color := r.color.set u (-1) }
          (by simp only [hres]; exact hu) (by simp only [hres]; exact hm) h
        simp only at h2
        omega

theorem backtrack_exact_nodes_le (g : Graph) (k : Int) (degree : List Int)
    (expired : Nat → Bool) (fuel : Nat) (r : Nat) (s : Search)
    (hr : uncoloredCount s.color ≤ r) (b : Bool) (s1 : Search)
    (h : backtrack_exact g k degree expired fuel s = some (b, s1)) :
    s1.nodes ≤ s.nodes + nodeBound k.toNat r := by
  induction fuel generalizing r s b s1 with
  | zero => simp [backtrack_exact] at h
  | succ fuel ih =>
    have hpos := nodeBound_pos k.toNat r
    rw [backtrack_exact] at h
    split at h
    · simp only [Option.some.injEq, Prod.mk.injEq] at h
      obtain ⟨_, rfl⟩ := h
      simp only
      omega
    · simp only at h
      split at h
      · simp only [Option.some.injEq, Prod.mk.injEq] at h
        obtain ⟨_, rfl⟩ := h
        simp only
        omega
      · rename_i hne
        have hu := (choose_uncolored g s.color degree hne).2
        have hcpos := uncoloredCount_pos_of_uncolored hu
        obtain ⟨m, rfl⟩ : ∃ m, r = m + 1 := ⟨r - 1, by omega⟩
        have hloop := color_loop_nodes_le _ g _ m (nodeBound k.toNat m)
          (fun t b r ht hrec => ih m t ht b r hrec)
          (fun t r => backtrack_exact_frame g k degree expired fuel t r) (colors k)
          (colors_ne_neg_one k) { s with nodes := s.nodes + 1, clock := s.clock + 1 } hu
          (by simp only; omega) b s1 h
        have hlen : (colors k).length = k.toNat := by simp [colors]
        rw [hlen] at hloop
        simp only at hloop
        rw [nodeBound]
        omega


/-! ## The greedy pre-pass is the first descent of the engine -/

theorem color_loop_find_none (recur : Search → Option (Bool × Search)) (g : Graph) (u : Nat)
    (cs : List Int) (s : Search)
    (h : cs.find? (fun c => can_color g u c s.color) = none) :
    color_loop recur g u cs s = some (false, { s with backtracks := s.backtracks + 1 }) := by
  induction cs with
  | nil => rfl
  | cons c cs ih =>
    rw [List.find?_cons] at h
    cases hcan : can_color g u c s.color with
    | true => rw [hcan] at h; exact absurd h (by simp)
    | false =>
      rw [hcan] at h
      rw [color_loop]
      simp only [hcan, Bool.not_false, if_true]
      exact ih h

theorem color_loop_find_some (recur : Search → Option (Bool × Search)) (g : Graph) (u : Nat)
    (cs : List Int) (s : Search) (c : Int)
    (h : cs.find? (fun c => can_color g u c s.color) = some c) (r : Search)
    (hr : recur { s with color := s.color.set u c } = some (true, r)) :
    color_loop recur g u cs s = some (true, r) := by
  induction cs with
  | nil => simp at h
  | cons c0 cs ih =>
    rw [List.find?_cons] at h
    rw [color_loop]
    cases hcan : can_color g u c0 s.color with
    | true =>
      rw [hcan] at h
      simp only [Option.some.injEq] at h
      subst h
      simp only [Bool.not_true, Bool.false_eq_true, if_false, hr]
    | false =>
      rw [hcan] at h
      simp only [Bool.not_false, if_true]
      exact ih h

theorem color_loop_fail_backtracks (recur : Search → Option (Bool × Search)) (g : Graph)
    (u : Nat) (hmono : ∀ t b r, recur t = some (b, r) → t.backtracks ≤ r.backtracks)
    (cs : List Int) (s s1 : Search) (h : color_loop recur g u cs s = some (false, s1)) :
    s.backtracks + 1 ≤ s1.backtracks := by
  induction cs generalizing s with
  | nil =>
    simp only [color_loop, Option.some.injEq, Prod.mk.injEq, true_and] at h
    rw [← h]
  | cons c cs ih =>
    rw [color_loop] at h
    split at h
    · exact ih s h
    · split at h
      · exact absurd h (by simp)
      · exact absurd h (by simp)
      · rename_i r heq
        have h1 := hmono _ _ _ heq
        have h2 := ih _ h
        simp only at h1 h2
        omega

theorem backtrack_exact_fail_backtracks (g : Graph) (k : Int) (degree : List Int)
    (fuel : Nat) (s s1 : Search)
    (h : backtrack_exact g k degree no_deadline fuel s = some (false, s1)) :
    s.backtracks + 1 ≤ s1.backtracks := by
  cases fuel with
  | zero => simp [backtrack_exact] at h
  | succ fuel =>
    rw [backtrack_exact] at h
    simp only [no_deadline, Bool.false_eq_true, if_false] at h
    split at h
    · exact absurd h (by simp)
    · have := color_loop_fail_backtracks _ g _
        (fun t b r hr => (backtrack_exact_counters g k degree no_deadline fuel t b r hr).2.1)
        _ _ s1 h
      simpa using this

theorem all_colored_of_count_zero {A : List Int} (h : uncoloredCount A = 0) :
    ∀ u, A.getD u 0 ≠ -1 := by
  intro u hu
  have := uncoloredCount_pos_of_uncolored hu
  omega

theorem greedy_then_engine (g : Graph) (k : Int) (degree : List Int) (steps : Nat)
    (A : List Int) (nodes : Nat) (fuel : Nat) (s : Search) (hs : s.color = A)
    (hl : A.length = g.n) (hst : uncoloredCount A ≤ steps) (hf : uncoloredCount A < fuel)
    (hgr : (greedy_loop g k degree steps A nodes).success = true) :
    ∃ s1, backtrack_exact g k degree no_deadline fuel s = some (true, s1) ∧
      s1.color = (greedy_loop g k degree steps A nodes).color ∧
      s1.backtracks = s.backtracks ∧ s1.nodes = s.nodes + uncoloredCount A + 1 ∧
      (greedy_loop g k degree steps A nodes).nodes = nodes + uncoloredCount A := by
  induction steps generalizing A nodes fuel s with
  | zero =>
    have h0 : uncoloredCount A = 0 := by omega
    have hch : choose_vertex_dsatur g s.color degree = -1 := by
      rw [hs]
      exact (choose_eq_neg_one_iff g A degree).mpr (fun u _ => all_colored_of_count_zero h0 u)
    obtain ⟨f, rfl⟩ : ∃ f, fuel = f + 1 := ⟨fuel - 1, by omega⟩
    rw [backtrack_exact]
    simp only [no_deadline, Bool.false_eq_true, if_false, hch, if_true]
    exact ⟨_, rfl, by simp only [greedy_loop]; exact hs, rfl, by simp only; omega,
      by simp only [greedy_loop]; omega⟩
  | succ steps ih =>
    obtain ⟨f, rfl⟩ : ∃ f, fuel = f + 1 := ⟨fuel - 1, by omega⟩
    rw [greedy_loop] at hgr ⊢
    rw [backtrack_exact]
    simp only [no_deadline, Bool.false_eq_true, if_false, hs]
    by_cases hch : choose_vertex_dsatur g A degree = -1
    · have hall := (choose_eq_neg_one_iff g A degree).mp hch
      have h0 : uncoloredCount A = 0 :=
        count_zero_of_all_colored (fun u hu => hall u (by rw [← hl]; exact hu))
      simp only [hch, if_true]
      exact ⟨_, rfl, rfl, rfl, by simp only; omega, by omega⟩
    · rw [if_neg hch] at hgr
      simp only [hch, if_false]
      obtain ⟨_, huc⟩ := choose_uncolored g A degree hch
      cases hfind : (colors k).find?
          (fun c => can_color g (choose_vertex_dsatur g A degree).toNat c A) with
      | none => rw [hfind] at hgr; exact absurd hgr (by simp)
      | some c =>
        rw [hfind] at hgr
        simp only at hgr ⊢
        have hc : c ∈ colors k := List.mem_of_find?_eq_some hfind
        have hcnt := count_set_uncolored A _ c huc (colors_ne_neg_one k c hc)
        obtain ⟨s1, h1, h2, h3, h4, h5⟩ := ih
          (A.set (choose_vertex_dsatur g A degree).toNat c) (nodes + 1) f
          { s with color := A.set (choose_vertex_dsatur g A degree).toNat c,
                   nodes := s.nodes + 1, clock := s.clock + 1 }
          rfl (by rw [List.length_set]; exact hl) (by omega) (by omega) hgr
        simp only at h3 h4
        refine ⟨s1, ?_, h2, h3, by omega, by omega⟩
        exact color_loop_find_some _ g _ (colors k)
          { s with color := A, nodes := s.nodes + 1, clock := s.clock + 1 } c hfind s1 h1

theorem color_loop_first_descent (g : Graph) (k : Int) (degree : List Int) (f : Nat) (u : Nat)
    (cs : List Int) (s s1 : Search) (hu : s.color.getD u 0 = -1)
    (h : color_loop (backtrack_exact g k degree no_deadline f) g u cs s = some (true, s1))
    (hb : s1.backtracks = s.backtracks) :
    ∃ c, cs.find? (fun c => can_color g u c s.color) = some c ∧
      backtrack_exact g k degree no_deadline f { s with color := s.color.set u c } =
        some (true, s1) := by
  induction cs generalizing s with
  | nil => simp [color_loop] at h
  | cons c cs ih =>
    rw [color_loop] at h
    rw [List.find?_cons]
    cases hcan : can_color g u c s.color with
    | false =>
      simp only [hcan, Bool.not_false, if_true] at h
      exact ih s hu h hb
    | true =>
      simp only [hcan, Bool.not_true, Bool.false_eq_true, if_false] at h
      split at h
      · exact absurd h (by simp)
      · rename_i r heq
        simp only [Option.some.injEq, Prod.mk.injEq, true_and] at h
        subst h
        exact ⟨c, rfl, heq⟩
      · rename_i r heq
        exfalso
        have h1 := backtrack_exact_fail_backtracks g k degree f _ r heq
        have h2 := color_loop_counters _ g u
          (fun t b r hr => backtrack_exact_counters g k degree no_deadline f t b r hr) cs _ true
          s1 h
        simp only at h1 h2
        omega

theorem engine_then_greedy (g : Graph) (k : Int) (degree : List Int) (fuel : Nat)
    (s s1 : Search) (h : backtrack_exact g k degree no_deadline fuel s = some (true, s1))
    (hb : s1.backtracks = s.backtracks) (steps nodes : Nat)
    (hst : uncoloredCount s.color ≤ steps) :
    (greedy_loop g k degree steps s.color nodes).success = true := by
  induction fuel generalizing s steps nodes with
  | zero => simp [backtrack_exact] at h
  | succ f ih =>
    rw [backtrack_exact] at h
    simp only [no_deadline, Bool.false_eq_true, if_false] at h
    by_cases hch : choose_vertex_dsatur g s.color degree = -1
    · cases steps with
      | zero => rfl
      | succ steps => rw [greedy_loop]; simp only [hch, if_true]
    · simp only [hch, if_false] at h
      obtain ⟨_, huc⟩ := choose_uncolored g s.color degree hch
      have hpos := uncoloredCount_pos_of_uncolored huc
      obtain ⟨m, rfl⟩ : ∃ m, steps = m + 1 := ⟨steps - 1, by omega⟩
      obtain ⟨c, hfind, hrec⟩ := color_loop_first_descent g k degree f _ (colors k)
        { s with nodes := s.nodes + 1, clock := s.clock + 1 } s1 huc h hb
      simp only at hfind hrec
      have hc : c ∈ colors k := List.mem_of_find?_eq_some hfind
      have hcnt := count_set_uncolored s.color _ c huc (colors_ne_neg_one k c hc)
      rw [greedy_loop]
      simp only [hch, if_false, hfind]
      exact ih _ hrec hb m (nodes + 1) (by simp only; omega)

theorem greedy_first_descent (g : Graph) (k : Int) :
    ∃ b s1, backtrack_exact g k (degrees g) no_deadline (g.n + 1) (Search.start g) =
        some (b, s1) ∧
      ((color_greedy_dsatur g k).success = true ↔ (b = true ∧ s1.backtracks = 0)) ∧
      ((color_greedy_dsatur g k).success = true →
        (color_greedy_dsatur g k).color = s1.color ∧
        (color_greedy_dsatur g k).nodes = g.n ∧ s1.nodes = g.n + 1) ∧
      (k ≠ 2 → ∃ r, color_serial_exact g k no_deadline = some r ∧ r.success = b ∧
        r.color = if b = true then s1.color else []) := by
  have hlen : (uncolored g).length = g.n := by simp [uncolored]
  have hcnt := uncoloredCount_uncolored g
  obtain ⟨⟨b, s1⟩, hr⟩ := backtrack_exact_total g k (degrees g) no_deadline (g.n + 1)
    (Search.start g) (by simp [Search.start, hcnt])
  have hfwd : (color_greedy_dsatur g k).success = true →
      b = true ∧ s1.backtracks = 0 ∧ (color_greedy_dsatur g k).color = s1.color ∧
      (color_greedy_dsatur g k).nodes = g.n ∧ s1.nodes = g.n + 1 := by
    intro hgr
    obtain ⟨t1, h1, h2, h3, h4, h5⟩ := greedy_then_engine g k (degrees g) g.n (uncolored g) 0
      (g.n + 1) (Search.start g) rfl hlen (by omega) (by omega) hgr
    rw [hr] at h1
    simp only [Option.some.injEq, Prod.mk.injEq] at h1
    obtain ⟨rfl, rfl⟩ := h1
    simp only [Search.start, hcnt] at h3 h4
    unfold color_greedy_dsatur
    rw [hcnt] at h5
    exact ⟨rfl, h3, h2.symm, by omega, by omega⟩
  refine ⟨b, s1, hr, ⟨fun hgr => ⟨(hfwd hgr).1, (hfwd hgr).2.1⟩, ?_⟩,
    fun hgr => (hfwd hgr).2.2, ?_⟩
  · rintro ⟨rfl, hb0⟩
    exact engine_then_greedy g k (degrees g) (g.n + 1) (Search.start g) s1 hr
      (by simp only [Search.start]; exact hb0) g.n 0 (by simp [Search.start, hcnt])
  · intro hk
    unfold color_serial_exact
    rw [if_neg hk]
    by_cases hgr : (color_greedy_dsatur g k).success = true
    · simp only [hgr, if_true]
      obtain ⟨hb, _, hcol, _⟩ := hfwd hgr
      subst hb
      exact ⟨_, rfl, hgr, by simp only [if_true]; exact hcol⟩
    · simp only [hgr, if_false, hr]
      exact ⟨_, rfl, rfl, rfl⟩

/-! ## Complete graphs -/

theorem add_edge_in_range (g : Graph) (hl : g.adj.length = g.n) (u v : Int)
    (hu0 : 0 ≤ u) (hun : u < (g.n : Int)) (hv0 : 0 ≤ v) (hvn : v < (g.n : Int)) :
    ∃ g1, g.add_edge u v = some g1 ∧ g1.n = g.n ∧ g1.adj.length = g1.n ∧
      (∀ a b, b ∈ g.nbrs a → b ∈ g1.nbrs a) ∧
      (u ≠ v → v.toNat ∈ g1.nbrs u.toNat ∧ u.toNat ∈ g1.nbrs v.toNat) := by
  unfold Graph.add_edge
  rw [if_neg (by omega)]
  by_cases huv : u = v
  · rw [if_pos huv]
    exact ⟨g, rfl, rfl, hl, fun _ _ h => h, fun h => absurd huv h⟩
  · rw [if_neg huv]
    have hab : u.toNat ≠ v.toNat := by omega
    have key := fun w => getD_push_push g.adj u.toNat v.toNat w (by omega) (by omega) hab
    refine ⟨_, rfl, rfl, by simp [push_back, hl], ?_, fun _ => ⟨?_, ?_⟩⟩
    · intro a b hb
      simp only [Graph.nbrs] at hb ⊢
      rw [key]
      simp only [List.mem_append]
      exact Or.inl (Or.inl hb)
    · simp only [Graph.nbrs]
      rw [key]
      simp
    · simp only [Graph.nbrs]
      rw [key]
      simp

theorem add_edges_in_range (es : List (Int × Int)) (g : Graph) (hl : g.adj.length = g.n)
    (hes : ∀ e ∈ es, 0 ≤ e.1 ∧ e.1 < (g.n : Int) ∧ 0 ≤ e.2 ∧ e.2 < (g.n : Int)) :
    ∃ g1, g.add_edges es = some g1 ∧ g1.n = g.n ∧
      (∀ a b, b ∈ g.nbrs a → b ∈ g1.nbrs a) ∧
      (∀ e ∈ es, e.1 ≠ e.2 → e.2.toNat ∈ g1.nbrs e.1.toNat ∧ e.1.toNat ∈ g1.nbrs e.2.toNat) := by
  induction es generalizing g with
  | nil => exact ⟨g, rfl, rfl, fun _ _ h => h, fun e he => absurd he (List.not_mem_nil e)⟩
  | cons e es ih =>
    obtain ⟨h1, h2, h3, h4⟩ := hes e (List.mem_cons_self e es)
    obtain ⟨g0, hg0, hn0, hl0, hmono0, hedge0⟩ := add_edge_in_range g hl e.1 e.2 h1 h2 h3 h4
    obtain ⟨g1, hg1, hn1, hmono1, hedge1⟩ := ih g0 hl0 (by
      intro x hx
      rw [hn0]
      exact hes x (List.mem_cons_of_mem _ hx))
    refine ⟨g1, ?_, by rw [hn1, hn0], fun a b hb => hmono1 a b (hmono0 a b hb), ?_⟩
    · rw [Graph.add_edges, hg0]
      exact hg1
    · intro x hx hne
      rcases List.mem_cons.mp hx with rfl | hx1
      · exact ⟨hmono1 _ _ (hedge0 hne).1, hmono1 _ _ (hedge0 hne).2⟩
      · exact hedge1 x hx1 hne

theorem mem_complete_pairs (n : Nat) (e : Int × Int) :
    e ∈ complete_pairs n ↔ ∃ i j : Nat, i < j ∧ j < n ∧ e = ((i : Int), (j : Int)) := by
  unfold complete_pairs
  simp only [List.mem_flatMap, List.mem_range, List.mem_map, List.mem_range'_1]
  constructor
  · rintro ⟨i, hi, j, ⟨hj1, hj2⟩, rfl⟩
    exact ⟨i, j, by omega, by omega, rfl⟩
  · rintro ⟨i, j, hij, hj, rfl⟩
    exact ⟨i, by omega, j, ⟨by omega, by omega⟩, rfl⟩

theorem make_complete_spec (n : Nat) :
    ∃ g, make_complete n = some g ∧ g.Built ∧ g.n = n ∧
      ∀ u v, u < n → v < n → u ≠ v → v ∈ g.nbrs u := by
  have hinit : (Graph.init n).adj.length = (Graph.init n).n := by simp [Graph.init]
  obtain ⟨g, hg, hn, _, hedge⟩ := add_edges_in_range (complete_pairs n) (Graph.init n) hinit (by
    intro e he
    obtain ⟨i, j, hij, hj, rfl⟩ := (mem_complete_pairs n e).mp he
    simp only [Graph.init]
    omega)
  have hn' : g.n = n := hn
  refine ⟨g, hg, built_of_build n _ g hg, hn', ?_⟩
  intro u v hu hv huv
  rcases Nat.lt_or_gt_of_ne huv with hlt | hgt
  · have := hedge ((u : Int), (v : Int)) ((mem_complete_pairs n _).mpr ⟨u, v, hlt, hv, rfl⟩)
      (by simp only; omega)
    simpa using this.1
  · have := hedge ((v : Int), (u : Int)) ((mem_complete_pairs n _).mpr ⟨v, u, hgt, hu, rfl⟩)
      (by simp only; omega)
    simpa using this.2

theorem complete_colorable_iff {g : Graph} (hg : g.WellFormed)
    (hc : ∀ u v, u < g.n → v < g.n → u ≠ v → v ∈ g.nbrs u) (k : Int) (hk : 0 ≤ k) :
    Colorable g k ↔ (g.n : Int) ≤ k := by
  constructor
  · rintro ⟨C, hC⟩
    have hinj : Set.InjOn (fun u => (C.getD u 0).toNat) (Finset.range g.n : Set Nat) := by
      intro u hu v hv huv
      have hu' : u < g.n := by simpa using hu
      have hv' : v < g.n := by simpa using hv
      by_contra hne
      have h1 := hC.2.2 u hu' v (hc u v hu' hv' hne)
      have h2 := (hC.2.1 u hu').1
      have h3 := (hC.2.1 v hv').1
      simp only at huv
      omega
    have hmaps : ∀ u ∈ Finset.range g.n,
        (fun u => (C.getD u 0).toNat) u ∈ Finset.range k.toNat := by
      intro u hu
      have hu' : u < g.n := by simpa using hu
      have := hC.2.1 u hu'
      simp only [Finset.mem_range]
      omega
    have := Finset.card_le_card_of_injOn _ hmaps hinj
    simp only [Finset.card_range] at this
    omega
  · intro hle
    refine ⟨(List.range g.n).map (fun i : Nat => (i : Int)), by simp, ?_, ?_⟩
    · intro u hu
      rw [getD_map_range _ _ u hu]
      omega
    · intro u hu v hv
      obtain ⟨hvn, hne, _⟩ := hg.2 u hu v hv
      rw [getD_map_range _ _ u hu, getD_map_range _ _ v hvn]
      omega


/-! ## Shape of the two-colour witness -/

theorem bfs_visit_keeps (u : Nat) (vs : List Nat) (s s1 : Bfs)
    (h : bfs_visit u vs s = .ok s1) : Keeps s.color s1.color := by
  induction vs generalizing s with
  | nil =>
    simp only [bfs_visit, Except.ok.injEq] at h
    subst h
    exact keeps_refl _
  | cons v vs ih =>
    rw [bfs_visit] at h
    split at h
    · rename_i hv
      exact keeps_trans (keeps_set hv _) (ih _ h)
    · split at h
      · exact absurd h (by simp)
      · exact ih _ h

theorem bfs_while_keeps (g : Graph) (fuel : Nat) (s s1 : Bfs)
    (h : bfs_while g fuel s = some (.ok s1)) : Keeps s.color s1.color := by
  induction fuel generalizing s with
  | zero =>
    rw [bfs_while] at h
    split at h
    · simp only [Option.some.injEq, Except.ok.injEq] at h
      subst h
      exact keeps_refl _
    · exact absurd h (by simp)
  | succ fuel ih =>
    rw [bfs_while] at h
    split at h
    · simp only [Option.some.injEq, Except.ok.injEq] at h
      subst h
      exact keeps_refl _
    · rename_i u rest hq
      split at h
      · exact absurd h (by simp)
      · rename_i s2 hvis
        exact keeps_trans (bfs_visit_keeps u _ ⟨s.color, rest, s.nodes + 1⟩ s2 hvis) (ih s2 h)

theorem bfs_starts_keeps (g : Graph) (starts : List Nat) (s s1 : Bfs)
    (h : bfs_starts g starts s = some (.ok s1)) : Keeps s.color s1.color := by
  induction starts generalizing s with
  | nil =>
    simp only [bfs_starts, Option.some.injEq, Except.ok.injEq] at h
    subst h
    exact keeps_refl _
  | cons start rest ih =>
    rw [bfs_starts] at h
    split at h
    · exact ih s h
    · rename_i hsc
      have hsc : s.color.getD start 0 = -1 := not_not.mp hsc
      split at h
      · exact absurd h (by simp)
      · exact absurd h (by simp)
      · rename_i s2 hw
        exact keeps_trans (keeps_trans (keeps_set hsc 0) (bfs_while_keeps g _ _ s2 hw)) (ih s2 h)

theorem bfs_visit_avoid (P : Nat → Prop) (u : Nat) (vs : List Nat) (s s1 : Bfs)
    (hvs : ∀ v ∈ vs, P v) (hc : ∀ w, s.color.getD w 0 ≠ -1 → P w) (hq : ∀ w ∈ s.q, P w)
    (h : bfs_visit u vs s = .ok s1) :
    (∀ w, s1.color.getD w 0 ≠ -1 → P w) ∧ (∀ w ∈ s1.q, P w) := by
  induction vs generalizing s with
  | nil =>
    simp only [bfs_visit, Except.ok.injEq] at h
    subst h
    exact ⟨hc, hq⟩
  | cons v vs ih =>
    have hvs1 : ∀ x ∈ vs, P x := fun x hx => hvs x (List.mem_cons_of_mem _ hx)
    have hPv : P v := hvs v (List.mem_cons_self v vs)
    rw [bfs_visit] at h
    split at h
    · refine ih _ hvs1 ?_ ?_ h
      · intro w hw
        simp only at hw
        by_cases hwv : v = w
        · subst hwv; exact hPv
        · rw [getD_set_other _ _ _ _ hwv] at hw; exact hc w hw
      · intro w hw
        simp only at hw
        rcases List.mem_append.mp hw with h1 | h1
        · exact hq w h1
        · have : w = v := by simpa using h1
          subst this; exact hPv
    · split at h
      · exact absurd h (by simp)
      · exact ih _ hvs1 hc hq h

theorem bfs_while_avoid (g : Graph) (P : Nat → Prop)
    (hcl : ∀ u v, v ∈ g.nbrs u → P u → P v) (fuel : Nat) (s s1 : Bfs)
    (hc : ∀ w, s.color.getD w 0 ≠ -1 → P w) (hq : ∀ w ∈ s.q, P w)
    (h : bfs_while g fuel s = some (.ok s1)) :
    (∀ w, s1.color.getD w 0 ≠ -1 → P w) ∧ (∀ w ∈ s1.q, P w) := by
  induction fuel generalizing s with
  | zero =>
    rw [bfs_while] at h
    split at h
    · simp only [Option.some.injEq, Except.ok.injEq] at h
      subst h
      exact ⟨hc, hq⟩
    · exact absurd h (by simp)
  | succ fuel ih =>
    rw [bfs_while] at h
    split at h
    · simp only [Option.some.injEq, Except.ok.injEq] at h
      subst h
      exact ⟨hc, hq⟩
    · rename_i u rest hqe
      have hPu : P u := hq u (by rw [hqe]; exact List.mem_cons_self u rest)
      split at h
      · exact absurd h (by simp)
      · rename_i s2 hvis
        obtain ⟨a, b⟩ := bfs_visit_avoid P u (g.nbrs u) ⟨s.color, rest, s.nodes + 1⟩ s2
          (fun v hv => hcl u v hv hPu) hc
          (fun w (hw : w ∈ rest) => hq w (by rw [hqe]; exact List.mem_cons_of_mem _ hw)) hvis
        exact ih s2 a b h

theorem bfs_starts_avoid (g : Graph) (P : Nat → Prop)
    (hcl : ∀ u v, v ∈ g.nbrs u → P u → P v) (starts : List Nat) (hst : ∀ x ∈ starts, P x)
    (s s1 : Bfs) (hc : ∀ w, s.color.getD w 0 ≠ -1 → P w) (hq : ∀ w ∈ s.q, P w)
    (h : bfs_starts g starts s = some (.ok s1)) :
    ∀ w, s1.color.getD w 0 ≠ -1 → P w := by
  induction starts generalizing s with
  | nil =>
    simp only [bfs_starts, Option.some.injEq, Except.ok.injEq] at h
    subst h
    exact hc
  | cons start rest ih =>
    have hst1 : ∀ x ∈ rest, P x := fun x hx => hst x (List.mem_cons_of_mem _ hx)
    have hPs : P start := hst start (List.mem_cons_self start rest)
    rw [bfs_starts] at h
    split at h
    · exact ih hst1 s hc hq h
    · split at h
      · exact absurd h (by simp)
      · exact absurd h (by simp)
      · rename_i s2 hw
        obtain ⟨a, b⟩ := bfs_while_avoid g P hcl _ _ s2 (by
            intro w hwc
            simp only at hwc
            by_cases hws : start = w
            · subst hws; exact hPs
            · rw [getD_set_other _ _ _ _ hws] at hwc; exact hc w hwc) (by
            intro w hwq
            simp only at hwq
            rcases List.mem_append.mp hwq with h1 | h1
            · exact hq w h1
            · have : w = start := by simpa using h1
              subst this; exact hPs) hw
        exact ih hst1 s2 a b h

theorem bfs_starts_append (g : Graph) (l1 l2 : List Nat) (s s1 : Bfs)
    (h : bfs_starts g (l1 ++ l2) s = some (.ok s1)) :
    ∃ s0, bfs_starts g l1 s = some (.ok s0) ∧ bfs_starts g l2 s0 = some (.ok s1) := by
  induction l1 generalizing s with
  | nil => exact ⟨s, rfl, h⟩
  | cons start rest ih =>
    rw [List.cons_append, bfs_starts] at h
    rw [bfs_starts]
    split
    · rename_i hsc
      rw [if_pos hsc] at h
      exact ih s h
    · rename_i hsc
      rw [if_neg hsc] at h
      split at h
      · exact absurd h (by simp)
      · exact absurd h (by simp)
      · rename_i s2 hw
        exact ih s2 h

theorem range_split (n m : Nat) (h : m < n) :
    ∃ post, List.range n = List.range m ++ m :: post := by
  induction n with
  | zero => exact absurd h (Nat.not_lt_zero m)
  | succ n ih =>
    rw [List.range_succ]
    rcases Nat.lt_succ_iff_lt_or_eq.mp h with hlt | rfl
    · obtain ⟨post, hp⟩ := ih hlt
      exact ⟨post ++ [n], by rw [hp]; simp⟩
    · exact ⟨[], rfl⟩

theorem nbrs_lt_length {g : Graph} {u v : Nat} (h : v ∈ g.nbrs u) : u < g.adj.length := by
  by_contra hlt
  simp only [Graph.nbrs, List.getD_eq_getElem?_getD,
    List.getElem?_eq_none (Nat.le_of_not_lt hlt)] at h
  simp at h

theorem walk_parity {g : Graph} (hg : g.WellFormed) {C : List Int}
    (hC : IsProperColoring g 2 C) {u v L : Nat} (hw : Walk g u v L) (hu : u < g.n) :
    v < g.n ∧ C.getD v 0 = (C.getD u 0 + (L : Int)) % 2 := by
  induction hw with
  | nil =>
    have := hC.2.1 u hu
    exact ⟨hu, by omega⟩
  | @cons w v L _ hvw ih =>
    obtain ⟨hwn, hcw⟩ := ih
    have hvn := (hg.2 w hwn v hvw).1
    have h1 := hC.2.2 w hwn v hvw
    have h2 := hC.2.1 w hwn
    have h3 := hC.2.1 v hvn
    have h4 := hC.2.1 u hu
    refine ⟨hvn, ?_⟩
    push_cast
    omega

theorem component_min_colored_zero {g : Graph} (hg : g.WellFormed) (r : ColoringResult)
    (h : color_two_color_bipartite g = some r) (hs : r.success = true) (m : Nat)
    (hm : IsComponentMin g m) : r.color.getD m 0 = 0 := by
  unfold color_two_color_bipartite at h
  split at h
  · exact absurd h (by simp)
  · simp only [Option.some.injEq] at h
    rw [← h] at hs
    exact absurd hs (by simp)
  · rename_i sfin hrun
    simp only [Option.some.injEq] at h
    rw [← h]
    simp only
    obtain ⟨post, hsplit⟩ := range_split g.n m hm.1
    rw [hsplit] at hrun
    obtain ⟨s0, hpre, hpost⟩ := bfs_starts_append g _ _ _ sfin hrun
    have hcl : ∀ u v, v ∈ g.nbrs u → (u < g.n → ¬ Reach g m u) → (v < g.n → ¬ Reach g m v) := by
      intro u v hv hnu _ hrv
      have hun : u < g.n := by rw [← hg.1]; exact nbrs_lt_length hv
      apply hnu hun
      obtain ⟨L, hL⟩ := hrv
      exact ⟨L + 1, Walk.cons hL (hg.2 u hun v hv).2.2⟩
    have hav := bfs_starts_avoid g (fun w => w < g.n → ¬ Reach g m w) hcl (List.range m)
      (fun x hx _ hr => by
        have := hm.2 x hr
        have := List.mem_range.mp hx
        omega)
      ⟨uncolored g, [], 0⟩ s0 (fun w hw hwn => absurd (getD_uncolored g w hwn) hw)
      (fun w hw => by simp at hw) hpre
    have hm0 : s0.color.getD m 0 = -1 := by
      by_contra hne
      exact hav m hne hm.1 ⟨0, Walk.nil⟩
    rw [bfs_starts, if_neg (not_not.mpr hm0)] at hpost
    split at hpost
    · exact absurd hpost (by simp)
    · exact absurd hpost (by simp)
    · rename_i s2 hw
      have hk1 := bfs_while_keeps g _ _ s2 hw
      have hk2 := bfs_starts_keeps g post s2 sfin hpost
      have e1 : (s0.color.set m 0).getD m 0 = 0 :=
        getD_set_self _ _ _ (lt_length_of_uncolored hm0)
      have e2 := hk1 m (by simp only; rw [e1]; omega)
      simp only at e2
      have e3 := hk2 m (by rw [e2, e1]; omega)
      rw [e3, e2, e1]

theorem walk_trans {g : Graph} {u w v L1 L2 : Nat} (h1 : Walk g u w L1) (h2 : Walk g w v L2) :
    Walk g u v (L1 + L2) := by
  induction h2 with
  | nil => exact h1
  | cons _ hvx ih => exact Walk.cons ih hvx

theorem walk_reverse {g : Graph} (hg : g.WellFormed) {u v L : Nat} (h : Walk g u v L) :
    Reach g v u := by
  induction h with
  | nil => exact ⟨0, Walk.nil⟩
  | @cons w v L _ hvw ih =>
    obtain ⟨L1, hL1⟩ := ih
    have hwn : w < g.n := by rw [← hg.1]; exact nbrs_lt_length hvw
    have hstep : Walk g v w (0 + 1) := Walk.cons Walk.nil (hg.2 w hwn v hvw).2.2
    exact ⟨_, walk_trans hstep hL1⟩

theorem exists_component_min {g : Graph} (hg : g.WellFormed) (v : Nat) (hv : v < g.n) :
    ∃ m L, IsComponentMin g m ∧ IsDist g m v L := by
  classical
  have hex : ∃ x, Reach g v x := ⟨v, 0, Walk.nil⟩
  have hvm : Reach g v (Nat.find hex) := Nat.find_spec hex
  have hle : Nat.find hex ≤ v := Nat.find_min' hex ⟨0, Walk.nil⟩
  obtain ⟨L0, hL0⟩ := hvm
  have hmv : ∃ L, Walk g (Nat.find hex) v L := walk_reverse hg hL0
  refine ⟨Nat.find hex, Nat.find hmv, ⟨by omega, ?_⟩, Nat.find_spec hmv, ?_⟩
  · rintro x ⟨L, hL⟩
    exact Nat.find_min' hex ⟨_, walk_trans hL0 hL⟩
  · intro L1 hL1
    exact Nat.find_min' hmv hL1


/-! ## Split search on the generated list -/

theorem split_search_list (g : Graph) (hg : g.WellFormed) (k : Int)
    (degree : List Int) (d : Int) (fuel : Nat) (hf : g.n < fuel) (clock : Nat) :
    (∃ r, backtrack_exact g k degree no_deadline fuel (Search.start g) = some r) ∧
    (∀ sp ∈ subproblem_list g k degree d,
      ∃ r, backtrack_exact_stop g k degree never_found no_deadline fuel ⟨sp, 0, 0, clock⟩ =
        some r) ∧
    ((∃ s1, backtrack_exact g k degree no_deadline fuel (Search.start g) = some (true, s1)) ↔
      ∃ sp ∈ subproblem_list g k degree d,
        ∃ s1, backtrack_exact_stop g k degree never_found no_deadline fuel ⟨sp, 0, 0, clock⟩ =
          some (true, s1)) := by
  have hsub : ∀ sp ∈ subproblem_list g k degree d, IsPartialColoring g k sp :=
    gen_levels_partial hg k degree _ _ (by
      intro sp hsp
      simp only [List.mem_singleton] at hsp
      subst hsp
      exact partial_uncolored g k)
  have htot : ∀ A, IsPartialColoring g k A → ∀ nd bk cl,
      ∃ r, backtrack_exact g k degree no_deadline fuel ⟨A, nd, bk, cl⟩ = some r := by
    intro A hA nd bk cl
    apply backtrack_exact_total
    have := uncoloredCount_le_length A
    rw [hA.1] at this
    simp only
    omega
  have hiff : ∀ A, IsPartialColoring g k A → ∀ nd bk cl,
      ((∃ s1, backtrack_exact g k degree no_deadline fuel ⟨A, nd, bk, cl⟩ = some (true, s1)) ↔
        ∃ C, IsProperColoring g k C ∧ Agrees g A C) := by
    intro A hA nd bk cl
    constructor
    · rintro ⟨s1, hs1⟩
      obtain ⟨h1, h2⟩ := backtrack_exact_sound hg k degree no_deadline fuel _ s1 hA hs1
      exact ⟨s1.color, h1, h2⟩
    · rintro ⟨C, hC, hag⟩
      obtain ⟨⟨b, s1⟩, hr⟩ := htot A hA nd bk cl
      have := backtrack_exact_complete hg k degree fuel _ b s1 hA C hC hag hr
      subst this
      exact ⟨s1, hr⟩
  refine ⟨htot _ (partial_uncolored g k) 0 0 0, ?_, ?_⟩
  · intro sp hsp
    obtain ⟨r, hr⟩ := htot sp (hsub sp hsp) 0 0 clock
    have hsim := backtrack_exact_stop_sim g k degree fuel ⟨sp, 0, 0, clock⟩ ⟨sp, 0, 0, clock⟩
      ⟨rfl, rfl, rfl⟩
    rw [hr] at hsim
    cases hx : backtrack_exact_stop g k degree never_found no_deadline fuel ⟨sp, 0, 0, clock⟩ with
    | none => rw [hx] at hsim; exact absurd hsim (by simp [SameResult])
    | some x => exact ⟨x, rfl⟩
  · have hstart : Search.start g = ⟨uncolored g, 0, 0, 0⟩ := rfl
    rw [hstart, hiff _ (partial_uncolored g k)]
    constructor
    · rintro ⟨C, hC, _⟩
      obtain ⟨⟨sp, hsp, hag⟩, _⟩ := partition_of_count hg k degree d C hC
      refine ⟨sp, hsp, ?_⟩
      rw [stop_true_iff_serial_true]
      exact (hiff sp (hsub sp hsp) 0 0 clock).mpr ⟨C, hC, hag⟩
    · rintro ⟨sp, hsp, hex⟩
      rw [stop_true_iff_serial_true] at hex
      obtain ⟨C, hC, _⟩ := (hiff sp (hsub sp hsp) 0 0 clock).mp hex
      exact ⟨C, hC, fun w hw hwc => absurd (getD_uncolored g w hw) hwc⟩

/-! ## Claims -/

/-- C1. Soundness of the serial solver: on every well-formed graph (in particular on
every graph built from `Graph(n)` by `add_edge`, see `wellFormed_of_built`), for
every `k` and every behaviour of the deadline, `color_serial_exact` returns a
record, and if that record has `success = true` then `verify_coloring` accepts its
assignment.  All three paths are covered: `k = 2`, greedy pre-pass, backtracking. -/
theorem color_serial_exact_sound (g : Graph) (hg : g.WellFormed) (k : Int)
    (expired : Nat → Bool) :
    ∃ r, color_serial_exact g k expired = some r ∧
      (r.success = true → verify_coloring g r.color k = true) := by
  obtain ⟨r, hr, h1, _⟩ := serial_spec hg k expired
  exact ⟨r, hr, fun hs => (verify_coloring_iff_proper hg _ _).mpr (h1 hs)⟩

theorem color_serial_exact_sound_witness :
    triangle.WellFormed ∧ ∃ r, color_serial_exact triangle 3 no_deadline = some r ∧
      (r.success = true → verify_coloring triangle r.color 3 = true) :=
  ⟨by decide, color_serial_exact_sound triangle (by decide) 3 no_deadline⟩

/-- C2. Exactness of the serial solver: on every well-formed graph and for every
`k`, with no deadline, `color_serial_exact` returns a record whose `success` is
true exactly when some assignment is accepted by `verify_coloring g · k`.  In
particular it succeeds at the chromatic number `χ`, and for `χ ≥ 1` it fails at
`χ - 1`. -/
theorem color_serial_exact_exact (g : Graph) (hg : g.WellFormed) :
    (∀ k : Int, ∃ r, color_serial_exact g k no_deadline = some r ∧
      (r.success = true ↔ ∃ A, verify_coloring g A k = true)) ∧
    (∀ χ : Int, IsChromaticNumber g χ →
      (∃ r, color_serial_exact g χ no_deadline = some r ∧ r.success = true) ∧
      (1 ≤ χ → ∃ r, color_serial_exact g (χ - 1) no_deadline = some r ∧ r.success = false)) := by
  refine ⟨fun k => serial_iff_colorable hg k, ?_⟩
  rintro χ ⟨_, hex, hmin⟩
  constructor
  · obtain ⟨r, hr, hiff⟩ := serial_iff_colorable hg χ
    exact ⟨r, hr, hiff.mpr hex⟩
  · intro h1
    obtain ⟨r, hr, hiff⟩ := serial_iff_colorable hg (χ - 1)
    refine ⟨r, hr, ?_⟩
    cases hs : r.success with
    | false => rfl
    | true => exact absurd (hiff.mp hs) (hmin (χ - 1) (by omega) (by omega))

theorem color_serial_exact_exact_witness :
    triangle.WellFormed ∧ IsChromaticNumber triangle 3 ∧
    (∃ r, color_serial_exact triangle 3 no_deadline = some r ∧ r.success = true) ∧
    (∃ r, color_serial_exact triangle (3 - 1) no_deadline = some r ∧ r.success = false) := by
  have h := color_serial_exact_exact triangle (by decide)
  have hχ : IsChromaticNumber triangle 3 := by
    refine ⟨by decide, ⟨[0, 1, 2], by decide⟩, ?_⟩
    intro j h0 h3 hex
    obtain ⟨r, hr, hiff⟩ := h.1 j
    have hs := hiff.mpr hex
    have hj : j = 0 ∨ j = 1 ∨ j = 2 := by omega
    rcases hj with rfl | rfl | rfl
    · have e : color_serial_exact triangle 0 no_deadline = some ⟨false, [], 1, 1⟩ := by decide
      rw [e] at hr
      simp only [Option.some.injEq] at hr
      rw [← hr] at hs
      exact absurd hs (by decide)
    · have e : color_serial_exact triangle 1 no_deadline = some ⟨false, [], 2, 2⟩ := by decide
      rw [e] at hr
      simp only [Option.some.injEq] at hr
      rw [← hr] at hs
      exact absurd hs (by decide)
    · have e : color_serial_exact triangle 2 no_deadline = some ⟨false, [], 2, 0⟩ := by decide
      rw [e] at hr
      simp only [Option.some.injEq] at hr
      rw [← hr] at hs
      exact absurd hs (by decide)
  exact ⟨by decide, hχ, (h.2 3 hχ).1, (h.2 3 hχ).2 (by decide)⟩

/-- C3. Completeness of the backtracking engine from a partial assignment: on a
well-formed graph, from a proper partial assignment `A`, with no deadline and fuel
above `n`, `backtrack_exact` returns, and it returns `true` exactly when some
complete proper `k`-colouring agrees with `A` on every vertex `A` has coloured. -/
theorem backtrack_exact_iff_extension (g : Graph) (hg : g.WellFormed) (k : Int)
    (A : List Int) (hA : IsPartialColoring g k A) (degree : List Int) (fuel : Nat)
    (hf : g.n < fuel) (nodes backtracks clock : Nat) :
    ∃ b s1, backtrack_exact g k degree no_deadline fuel ⟨A, nodes, backtracks, clock⟩ =
        some (b, s1) ∧
      (b = true ↔ ∃ C, IsProperColoring g k C ∧ Agrees g A C) := by
  have hcnt : uncoloredCount A < fuel := by
    have := uncoloredCount_le_length A
    rw [hA.1] at this
    omega
  obtain ⟨⟨b, s1⟩, hr⟩ := backtrack_exact_total g k degree no_deadline fuel
    ⟨A, nodes, backtracks, clock⟩ hcnt
  refine ⟨b, s1, hr, ?_, ?_⟩
  · intro hb
    subst hb
    obtain ⟨h1, h2⟩ := backtrack_exact_sound hg k degree no_deadline fuel _ s1 hA hr
    exact ⟨s1.color, h1, h2⟩
  · rintro ⟨C, hC, hag⟩
    exact backtrack_exact_complete hg k degree fuel _ b s1 hA C hC hag hr

theorem backtrack_exact_iff_extension_witness :
    triangle.WellFormed ∧ IsPartialColoring triangle 3 [1, -1, -1] ∧ triangle.n < 4 ∧
    ∃ b s1, backtrack_exact triangle 3 (degrees triangle) no_deadline 4 ⟨[1, -1, -1], 0, 0, 0⟩ =
        some (b, s1) ∧
      (b = true ↔ ∃ C, IsProperColoring triangle 3 C ∧ Agrees triangle [1, -1, -1] C) :=
  ⟨by decide, by decide, by decide,
    backtrack_exact_iff_extension triangle (by decide) 3 [1, -1, -1] (by decide)
      (degrees triangle) 4 (by decide) 0 0 0⟩

theorem partition_negative_k_counterexample :
    (Graph.init 0).WellFormed ∧ IsProperColoring (Graph.init 0) (-1) [] ∧
    generate_subproblems (Graph.init 0) (-1) (degrees (Graph.init 0)) 1 = none := by
  decide

/-- C4 (amended). Sub-problem partition law: on a well-formed graph, for every degree
vector and every `k` and split depth `d` with `k ≥ 0` or `d ≤ 0`,
`generate_subproblems` returns a list, each complete proper `k`-colouring `C`
agrees with some entry of it, and two positions of the list whose entries both
agree with `C` are the same position.  For `k < 0` and `d ≥ 1` the call ends in
`std::length_error` and no list is produced. -/
theorem generate_subproblems_partition (g : Graph) (hg : g.WellFormed) (k : Int)
    (degree : List Int) (d : Int) (C : List Int) (hC : IsProperColoring g k C) :
    ((0 ≤ k ∨ d ≤ 0) → ∃ subs, generate_subproblems g k degree d = some subs ∧
      (∃ sp ∈ subs, Agrees g sp C) ∧
      ∀ (i j : Nat) (hi : i < subs.length) (hj : j < subs.length),
        Agrees g (subs.get ⟨i, hi⟩) C → Agrees g (subs.get ⟨j, hj⟩) C → i = j) ∧
    (k < 0 → 0 < d → generate_subproblems g k degree d = none) := by
  obtain ⟨h1, h2⟩ := partition_of_count hg k degree d C hC
  exact ⟨fun hkd => ⟨_, generate_returns g k degree d hkd, h1, h2⟩,
    fun hk hd => generate_throws g k degree d hk hd⟩

theorem generate_subproblems_partition_witness :
    triangle.WellFormed ∧ IsProperColoring triangle 3 [2, 0, 1] ∧
    ((0 : Int) ≤ 3 ∨ (2 : Int) ≤ 0) ∧
    (∃ subs, generate_subproblems triangle 3 (degrees triangle) 2 = some subs ∧
      (∃ sp ∈ subs, Agrees triangle sp [2, 0, 1]) ∧
      ∀ (i j : Nat) (hi : i < subs.length) (hj : j < subs.length),
        Agrees triangle (subs.get ⟨i, hi⟩) [2, 0, 1] →
        Agrees triangle (subs.get ⟨j, hj⟩) [2, 0, 1] → i = j) ∧
    ((Graph.init 0).WellFormed ∧ IsProperColoring (Graph.init 0) (-1) [] ∧
      (-1 : Int) < 0 ∧ (0 : Int) < 1 ∧
      generate_subproblems (Graph.init 0) (-1) (degrees (Graph.init 0)) 1 = none) :=
  ⟨by decide, by decide, by decide,
    (generate_subproblems_partition triangle (by decide) 3 (degrees triangle) 2 [2, 0, 1]
      (by decide)).1 (by decide),
    by decide, by decide, by decide, by decide,
    (generate_subproblems_partition (Graph.init 0) (by decide) (-1)
      (degrees (Graph.init 0)) 1 [] (by decide)).2 (by decide) (by decide)⟩

theorem split_negative_k_counterexample :
    (Graph.init 0).WellFormed ∧
    (backtrack_exact (Graph.init 0) (-1) (degrees (Graph.init 0)) no_deadline 1
      (Search.start (Graph.init 0))).map Prod.fst = some true ∧
    generate_subproblems (Graph.init 0) (-1) (degrees (Graph.init 0)) 1 = none := by
  decide

/-- C5 (amended). Split search equals serial search: on a well-formed graph, for every
`k`, degree vector and split depth `d`, with the stop flag never set, no deadline
and fuel above `n`, the serial engine returns from the all-uncoloured assignment.
When `k ≥ 0` or `d ≤ 0`, `generate_subproblems` returns a list, the threaded
engine returns on every entry of it, and the serial engine returns `true` exactly
when the threaded engine returns `true` on at least one entry.  When `k < 0` and
`d ≥ 1`, `generate_subproblems` ends in `std::length_error` and produces no
sub-problem. -/
theorem split_search_iff_serial (g : Graph) (hg : g.WellFormed) (k : Int)
    (degree : List Int) (d : Int) (fuel : Nat) (hf : g.n < fuel) (clock : Nat) :
    (∃ r, backtrack_exact g k degree no_deadline fuel (Search.start g) = some r) ∧
    ((0 ≤ k ∨ d ≤ 0) → ∃ subs, generate_subproblems g k degree d = some subs ∧
      (∀ sp ∈ subs,
        ∃ r, backtrack_exact_stop g k degree never_found no_deadline fuel ⟨sp, 0, 0, clock⟩ =
          some r) ∧
      ((∃ s1, backtrack_exact g k degree no_deadline fuel (Search.start g) = some (true, s1)) ↔
        ∃ sp ∈ subs,
          ∃ s1, backtrack_exact_stop g k degree never_found no_deadline fuel
            ⟨sp, 0, 0, clock⟩ = some (true, s1))) ∧
    (k < 0 → 0 < d → generate_subproblems g k degree d = none) := by
  obtain ⟨h1, h2, h3⟩ := split_search_list g hg k degree d fuel hf clock
  exact ⟨h1, fun hkd => ⟨_, generate_returns g k degree d hkd, h2, h3⟩,
    fun hk hd => generate_throws g k degree d hk hd⟩

theorem split_search_iff_serial_witness :
    triangle.WellFormed ∧ triangle.n < 4 ∧ ((0 : Int) ≤ 3 ∨ (1 : Int) ≤ 0) ∧
    (∃ subs, generate_subproblems triangle 3 (degrees triangle) 1 = some subs ∧
      (∀ sp ∈ subs,
        ∃ r, backtrack_exact_stop triangle 3 (degrees triangle) never_found no_deadline 4
          ⟨sp, 0, 0, 0⟩ = some r) ∧
      ((∃ s1, backtrack_exact triangle 3 (degrees triangle) no_deadline 4
          (Search.start triangle) = some (true, s1)) ↔
        ∃ sp ∈ subs,
          ∃ s1, backtrack_exact_stop triangle 3 (degrees triangle) never_found no_deadline 4
            ⟨sp, 0, 0, 0⟩ = some (true, s1))) ∧
    ((Graph.init 0).WellFormed ∧ (Graph.init 0).n < 1 ∧ (-1 : Int) < 0 ∧ (0 : Int) < 1 ∧
      generate_subproblems (Graph.init 0) (-1) (degrees (Graph.init 0)) 1 = none) :=
  ⟨by decide, by decide, by decide,
    (split_search_iff_serial triangle (by decide) 3 (degrees triangle) 1 4 (by decide) 0).2.1
      (by decide),
    by decide, by decide, by decide, by decide,
    (split_search_iff_serial (Graph.init 0) (by decide) (-1) (degrees (Graph.init 0)) 1 1
      (by decide) 0).2.2 (by decide) (by decide)⟩

/-- C6. Verifier specification: on a well-formed graph `verify_coloring g A k` is
true exactly when `A` has length `n`, every `A[u]` lies in `{0, …, k-1}`, and no
vertex has a neighbour of its own colour. -/
theorem verify_coloring_spec (g : Graph) (hg : g.WellFormed) (A : List Int) (k : Int) :
    verify_coloring g A k = true ↔
      (A.length = g.n ∧
        (∀ u, u < g.n → 0 ≤ A.getD u 0 ∧ A.getD u 0 < k) ∧
        ∀ u, u < g.n → ∀ v ∈ g.nbrs u, A.getD u 0 ≠ A.getD v 0) :=
  verify_coloring_iff_proper hg A k

theorem verify_coloring_spec_witness :
    path3.WellFormed ∧
    (verify_coloring path3 [0, 1, 0] 2 = true ↔
      (([0, 1, 0] : List Int).length = path3.n ∧
        (∀ u, u < path3.n →
          0 ≤ ([0, 1, 0] : List Int).getD u 0 ∧ ([0, 1, 0] : List Int).getD u 0 < 2) ∧
        ∀ u, u < path3.n → ∀ v ∈ path3.nbrs u,
          ([0, 1, 0] : List Int).getD u 0 ≠ ([0, 1, 0] : List Int).getD v 0)) :=
  ⟨by decide, verify_coloring_spec path3 (by decide) [0, 1, 0] 2⟩

/-- C7. The 2-colour fast path decides bipartiteness: on a well-formed graph
`color_two_color_bipartite` returns a record; its `success` is true exactly when the
graph has a proper 2-colouring; and on success the returned assignment has length
`n`, every entry `0` or `1`, and no vertex has a neighbour of its own colour. -/
theorem color_two_color_bipartite_decides (g : Graph) (hg : g.WellFormed) :
    ∃ r, color_two_color_bipartite g = some r ∧
      (r.success = true ↔ ∃ C, IsProperColoring g 2 C) ∧
      (r.success = true →
        r.color.length = g.n ∧
        (∀ u, u < g.n → r.color.getD u 0 = 0 ∨ r.color.getD u 0 = 1) ∧
        ∀ u, u < g.n → ∀ v ∈ g.nbrs u, r.color.getD u 0 ≠ r.color.getD v 0) := by
  obtain ⟨r, hr, h1, h2⟩ := two_color_spec hg
  refine ⟨r, hr, ⟨fun hs => ⟨r.color, h1 hs⟩, h2⟩, ?_⟩
  intro hs
  obtain ⟨hl, hv, he⟩ := h1 hs
  refine ⟨hl, ?_, he⟩
  intro u hu
  have := hv u hu
  omega

theorem color_two_color_bipartite_decides_witness :
    path3.WellFormed ∧
    ∃ r, color_two_color_bipartite path3 = some r ∧
      (r.success = true ↔ ∃ C, IsProperColoring path3 2 C) ∧
      (r.success = true →
        r.color.length = path3.n ∧
        (∀ u, u < path3.n → r.color.getD u 0 = 0 ∨ r.color.getD u 0 = 1) ∧
        ∀ u, u < path3.n → ∀ v ∈ path3.nbrs u, r.color.getD u 0 ≠ r.color.getD v 0) :=
  ⟨by decide, color_two_color_bipartite_decides path3 (by decide)⟩


/-- C8. DSATUR selection rule: `choose_vertex_dsatur` returns `-1` exactly when no
vertex below `n` is uncoloured; otherwise it returns an uncoloured vertex `u` such
that every uncoloured vertex `w` has a lexicographically smaller pair
(saturation, degree), or the same pair and an index not below `u`.  Here
`saturation` counts the distinct colours other than `-1` among the neighbours.  No
assumption on the degree vector is needed. -/
theorem choose_vertex_dsatur_selection (g : Graph) (A degree : List Int) :
    (choose_vertex_dsatur g A degree = -1 ↔ ∀ u, u < g.n → A.getD u 0 ≠ -1) ∧
    (choose_vertex_dsatur g A degree ≠ -1 →
      ∃ u, u < g.n ∧ choose_vertex_dsatur g A degree = (u : Int) ∧ A.getD u 0 = -1 ∧
        ∀ w, w < g.n → A.getD w 0 = -1 →
          (saturation g A w < saturation g A u ∨
            (saturation g A w = saturation g A u ∧ degree.getD w 0 < degree.getD u 0) ∨
            (saturation g A w = saturation g A u ∧ degree.getD w 0 = degree.getD u 0 ∧
              u ≤ w))) := by
  refine ⟨choose_eq_neg_one_iff g A degree, ?_⟩
  intro hne
  rcases choose_inv g A degree with ⟨_, he⟩ | ⟨u, hu, huc, he, hmax⟩
  · exact absurd he hne
  · refine ⟨u, hu, he, huc, ?_⟩
    intro w hw hwc
    have := hmax w hw hwc
    rw [sat_of_eq_saturation, sat_of_eq_saturation] at this
    omega

/-- C9. Greedy is only a heuristic: there is a graph built by `add_edge` (hence
well-formed) and a `k` for which `color_greedy_dsatur` returns `success = false`
although some assignment is accepted by the verifier, and `color_serial_exact`
returns `success = true` after backtracking. -/
theorem greedy_not_a_decision :
    ∃ (g : Graph) (k : Int), g.Built ∧ g.WellFormed ∧
      (color_greedy_dsatur g k).success = false ∧
      (∃ A, verify_coloring g A k = true) ∧
      ∃ r, color_serial_exact g k no_deadline = some r ∧ r.success = true ∧
        0 < r.backtracks := by
  refine ⟨hardGraph, 3, ?_, by decide, by decide,
    ⟨[0, 1, 0, 1, 2, 2, 2], by decide⟩, ?_⟩
  · exact built_of_build 7
      [(0, 1), (0, 5), (0, 6), (1, 4), (1, 6), (2, 3), (2, 4), (2, 5), (3, 4), (3, 5)]
      hardGraph (by decide)
  · exact ⟨⟨true, [0, 1, 0, 1, 2, 2, 2], 13, 5⟩, by decide, rfl, by decide⟩

/-- C10. Boundary `k = 1`: on a well-formed graph, with no deadline,
`color_serial_exact g 1` returns a record whose `success` is true exactly when every
adjacency list is empty, and then the assignment is `n` zeros.  On the edgeless
graph with 5 vertices the record is success with `[0, 0, 0, 0, 0]`. -/
theorem color_serial_exact_one_color (g : Graph) (hg : g.WellFormed) :
    (∃ r, color_serial_exact g 1 no_deadline = some r ∧
      (r.success = true ↔ ∀ u, u < g.n → g.nbrs u = []) ∧
      (r.success = true → r.color = List.replicate g.n 0)) ∧
    color_serial_exact (Graph.init 5) 1 no_deadline = some ⟨true, [0, 0, 0, 0, 0], 5, 0⟩ := by
  refine ⟨?_, by decide⟩
  obtain ⟨r, hr, h1, h2⟩ := serial_spec hg 1 no_deadline
  refine ⟨r, hr, ⟨?_, ?_⟩, ?_⟩
  · intro hs; exact no_edges_of_one_coloring hg (h1 hs)
  · intro hne; exact h2 rfl ⟨_, one_coloring_of_no_edges hne⟩
  · intro hs; exact eq_zeros_of_one_coloring (h1 hs)

theorem color_serial_exact_one_color_witness :
    path3.WellFormed ∧
    ((∃ r, color_serial_exact path3 1 no_deadline = some r ∧
      (r.success = true ↔ ∀ u, u < path3.n → path3.nbrs u = []) ∧
      (r.success = true → r.color = List.replicate path3.n 0)) ∧
    color_serial_exact (Graph.init 5) 1 no_deadline = some ⟨true, [0, 0, 0, 0, 0], 5, 0⟩) :=
  ⟨by decide, color_serial_exact_one_color path3 (by decide)⟩

/-- C11. Boundary `k ≥ n`: on a well-formed graph with `n` vertices and `k ≥ n`,
`color_greedy_dsatur` returns `success = true`, and `color_serial_exact` returns a
record with `success = true` and `backtracks = 0`, whatever the deadline does. -/
theorem color_serial_exact_many_colors (g : Graph) (hg : g.WellFormed) (k : Int)
    (hk : (g.n : Int) ≤ k) (expired : Nat → Bool) :
    (color_greedy_dsatur g k).success = true ∧
    ∃ r, color_serial_exact g k expired = some r ∧ r.success = true ∧ r.backtracks = 0 := by
  have hgr : (color_greedy_dsatur g k).success = true :=
    greedy_loop_large_k hg hk (degrees g) g.n (uncolored g) 0
  refine ⟨hgr, ?_⟩
  unfold color_serial_exact
  by_cases hk2 : k = 2
  · rw [if_pos hk2]
    subst hk2
    obtain ⟨r, hr, _, h2⟩ := two_color_spec hg
    have hcol : Colorable g 2 :=
      ⟨_, greedy_loop_sound hg 2 (degrees g) g.n (uncolored g) 0 (partial_uncolored g 2)
        (by rw [uncoloredCount_uncolored]) hgr⟩
    exact ⟨r, hr, h2 hcol, two_color_backtracks g r hr⟩
  · rw [if_neg hk2]
    simp only [hgr, if_true]
    exact ⟨_, rfl, hgr, greedy_loop_backtracks g k (degrees g) g.n (uncolored g) 0⟩

theorem color_serial_exact_many_colors_witness :
    triangle.WellFormed ∧ (triangle.n : Int) ≤ 3 ∧
    ((color_greedy_dsatur triangle 3).success = true ∧
    ∃ r, color_serial_exact triangle 3 no_deadline = some r ∧ r.success = true ∧
      r.backtracks = 0) :=
  ⟨by decide, by decide,
    color_serial_exact_many_colors triangle (by decide) 3 (by decide) no_deadline⟩

/-- C12. Boundary `n = 0`: on the graph with zero vertices, for every `k` (also
`k = 2` and `k = 0`) and every deadline behaviour, `color_serial_exact` returns
`success = true` with the empty assignment. -/
theorem color_serial_exact_zero_vertices (k : Int) (expired : Nat → Bool) :
    color_serial_exact (Graph.init 0) k expired = some ⟨true, [], 0, 0⟩ := by
  unfold color_serial_exact
  by_cases hk : k = 2
  · rw [if_pos hk]; rfl
  · rw [if_neg hk]
    have hgr : color_greedy_dsatur (Graph.init 0) k = ⟨true, [], 0, 0⟩ := rfl
    simp only [hgr, if_true]

theorem negative_k_counterexample :
    color_serial_exact (Graph.init 1) (-1) no_deadline = some ⟨false, [], 1, 1⟩ := by
  decide

/-- C13 (amended). A negative `k` is not rejected: for every graph and every
`k < 0`, `color_serial_exact` returns an ordinary record.  With `n = 0` it is
success with the empty assignment; with `n ≥ 1` it is `success = false`, empty
assignment, `nodes = 1`, and `backtracks = 1` unless the deadline fires at the
first check. -/
theorem color_serial_exact_negative_k (g : Graph) (k : Int) (hk : k < 0)
    (expired : Nat → Bool) :
    color_serial_exact g k expired =
      some (if g.n = 0 then ⟨true, [], 0, 0⟩
        else ⟨false, [], 1, if expired 0 = true then 0 else 1⟩) :=
  serial_negative_k g k hk expired

theorem color_serial_exact_negative_k_witness :
    (-3 : Int) < 0 ∧
    color_serial_exact triangle (-3) no_deadline =
      some (if triangle.n = 0 then ⟨true, [], 0, 0⟩
        else ⟨false, [], 1, if no_deadline 0 = true then 0 else 1⟩) :=
  ⟨by decide, color_serial_exact_negative_k triangle (-3) (by decide) no_deadline⟩


theorem nonpositive_threads_counterexample :
    color_threads_exact hardGraph 3 0 2 no_deadline = some (.result ⟨false, [], 0, 0⟩) ∧
    verify_coloring hardGraph [0, 1, 0, 1, 2, 2, 2] 3 = true ∧
    color_threads_exact triangle 3 (-1) 2 no_deadline = some (.result ⟨true, [0, 1, 2], 3, 0⟩) := by
  decide

/-- C14 (amended). A non-positive thread count is not rejected up front: for every
graph, `k`, split depth `d` and `threads ≤ 0`, when `k = 2` or the greedy pre-pass
succeeds, `color_threads_exact` returns the same ordinary record as
`color_serial_exact`.  Otherwise, when `k ≥ 0` or `d ≤ 0`, `generate_subproblems`
returns and then with `threads = 0` the call returns `success = false` with empty
assignment and both counters `0`, and with `threads < 0` it ends in
`std::length_error` thrown by `pool.reserve`; when `k < 0` and `d ≥ 1` the call ends
in `std::length_error` thrown by `next.reserve` inside `generate_subproblems`. -/
theorem color_threads_exact_nonpositive_threads (g : Graph) (k : Int) (threads d : Int)
    (ht : threads ≤ 0) (expired : Nat → Bool) :
    ((k = 2 ∨ (color_greedy_dsatur g k).success = true) →
      color_threads_exact g k threads d expired =
        (color_serial_exact g k expired).map ThreadsOutcome.result) ∧
    (k ≠ 2 → (color_greedy_dsatur g k).success = false → (0 ≤ k ∨ d ≤ 0) →
      (∃ subs, generate_subproblems g k (degrees g) d = some subs) ∧
      color_threads_exact g k threads d expired =
        some (if threads = 0 then .result ⟨false, [], 0, 0⟩ else .length_error)) ∧
    ((color_greedy_dsatur g k).success = false → k < 0 → 0 < d →
      generate_subproblems g k (degrees g) d = none ∧
      color_threads_exact g k threads d expired = some .length_error) := by
  refine ⟨?_, ?_, ?_⟩
  · intro h
    unfold color_threads_exact color_serial_exact
    by_cases hk : k = 2
    · rw [if_pos hk, if_pos hk]
    · rw [if_neg hk, if_neg hk]
      have hs : (color_greedy_dsatur g k).success = true := h.resolve_left hk
      simp only [hs, if_true, Option.map_some']
  · intro hk hgr hkd
    refine ⟨⟨_, generate_returns g k (degrees g) d hkd⟩, ?_⟩
    rw [threads_after_generate g k threads d expired hk hgr hkd]
    by_cases h0 : threads = 0
    · rw [if_neg (by omega), if_pos h0, if_pos h0]
    · rw [if_pos (by omega), if_neg h0]
  · intro hgr hk hd
    exact ⟨generate_throws g k (degrees g) d hk hd,
      threads_generate_throws g k threads d expired hk hd hgr⟩

theorem color_threads_exact_nonpositive_threads_witness :
    (0 : Int) ≤ 0 ∧ (3 : Int) ≠ 2 ∧ (color_greedy_dsatur hardGraph 3).success = false ∧
    ((0 : Int) ≤ 3 ∨ (2 : Int) ≤ 0) ∧
    ((∃ subs, generate_subproblems hardGraph 3 (degrees hardGraph) 2 = some subs) ∧
      color_threads_exact hardGraph 3 0 2 no_deadline =
        some (if (0 : Int) = 0 then .result ⟨false, [], 0, 0⟩ else .length_error)) ∧
    ((color_greedy_dsatur triangle (-3)).success = false ∧ (-3 : Int) < 0 ∧ (0 : Int) < 2 ∧
      generate_subproblems triangle (-3) (degrees triangle) 2 = none ∧
      color_threads_exact triangle (-3) 0 2 no_deadline = some .length_error) :=
  ⟨by decide, by decide, by decide, by decide,
    (color_threads_exact_nonpositive_threads hardGraph 3 0 2 (by decide) no_deadline).2.1
      (by decide) (by decide) (by decide),
    by decide, by decide, by decide,
    (color_threads_exact_nonpositive_threads triangle (-3) 0 2 (by decide) no_deadline).2.2
      (by decide) (by decide) (by decide)⟩

/-- C15. Result record shape: for every graph with `n` vertices and every `k`, each
of `color_two_color_bipartite`, `color_greedy_dsatur` and `color_serial_exact`
(whatever the deadline does) returns a record whose assignment is empty when
`success = false` and has exactly `n` entries when `success = true`. -/
theorem result_record_shape (g : Graph) (k : Int) (expired : Nat → Bool) :
    (∃ r, color_two_color_bipartite g = some r ∧
      (r.success = false → r.color = []) ∧ (r.success = true → r.color.length = g.n)) ∧
    (((color_greedy_dsatur g k).success = false → (color_greedy_dsatur g k).color = []) ∧
      ((color_greedy_dsatur g k).success = true →
        (color_greedy_dsatur g k).color.length = g.n)) ∧
    (∃ r, color_serial_exact g k expired = some r ∧
      (r.success = false → r.color = []) ∧ (r.success = true → r.color.length = g.n)) := by
  refine ⟨?_, ?_, ?_⟩
  · obtain ⟨r, hr, h1, _⟩ := two_color_shape g
    exact ⟨r, hr, h1⟩
  · obtain ⟨a, b, _, _⟩ := greedy_loop_shape g k (degrees g) g.n (uncolored g) 0
    refine ⟨a, fun hs => ?_⟩
    have := b hs
    simp only [uncolored, List.length_replicate] at this
    exact this
  · obtain ⟨r, hr, h1, _⟩ := serial_shape g k expired
    exact ⟨r, hr, h1⟩

/-- C16. Counter invariant: for every graph with `n ≥ 1` and every `k`, the record
returned by `color_serial_exact` with no deadline has `nodes ≥ 1` and
`backtracks ≤ nodes`; and every call of `backtrack_exact` with enough fuel returns
with both counters not decreased and `backtracks` increased by no more than
`nodes`. -/
theorem counter_invariant (g : Graph) (hn : 1 ≤ g.n) (k : Int) :
    (∃ r, color_serial_exact g k no_deadline = some r ∧ 1 ≤ r.nodes ∧
      r.backtracks ≤ r.nodes) ∧
    (∀ (degree : List Int) (expired : Nat → Bool) (fuel : Nat) (s : Search),
      uncoloredCount s.color < fuel →
      ∃ b s1, backtrack_exact g k degree expired fuel s = some (b, s1) ∧
        s.nodes ≤ s1.nodes ∧ s.backtracks ≤ s1.backtracks ∧
        s1.backtracks - s.backtracks ≤ s1.nodes - s.nodes) := by
  constructor
  · obtain ⟨r, hr, _, h2, h3⟩ := serial_shape g k no_deadline
    exact ⟨r, hr, h2 (by omega), h3⟩
  · intro degree expired fuel s hf
    obtain ⟨⟨b, s1⟩, hr⟩ := backtrack_exact_total g k degree expired fuel s hf
    have := backtrack_exact_counters g k degree expired fuel s b s1 hr
    exact ⟨b, s1, hr, by omega, by omega, by omega⟩

theorem counter_invariant_witness :
    1 ≤ triangle.n ∧
    ((∃ r, color_serial_exact triangle 1 no_deadline = some r ∧ 1 ≤ r.nodes ∧
      r.backtracks ≤ r.nodes) ∧
    (∀ (degree : List Int) (expired : Nat → Bool) (fuel : Nat) (s : Search),
      uncoloredCount s.color < fuel →
      ∃ b s1, backtrack_exact triangle 1 degree expired fuel s = some (b, s1) ∧
        s.nodes ≤ s1.nodes ∧ s.backtracks ≤ s1.backtracks ∧
        s1.backtracks - s.backtracks ≤ s1.nodes - s.nodes)) :=
  ⟨by decide, counter_invariant triangle (by decide) 1⟩

theorem threaded_counters_counterexample :
    (1 : Int) ≠ 2 ∧ (color_greedy_dsatur edge2 1).success = false ∧
    color_serial_exact edge2 1 no_deadline = some ⟨false, [], 2, 2⟩ ∧
    color_threads_exact edge2 1 1 1 no_deadline = some (.result ⟨false, [], 1, 1⟩) := by
  decide

/-- C17 (amended). Threaded counters against serial counters, one worker: for every
instance that requires search (`k ≠ 2` and the greedy pre-pass fails), every split
depth `d` and no deadline, when `k ≥ 0` or `d ≤ 0`, `color_serial_exact` and
`color_threads_exact` with `threads = 1` both return; the threaded record has the
same `success` and the same assignment, and its `nodes` and `backtracks` are each at
most the serial ones (the nodes above the split depth are expanded by
`generate_subproblems` without being counted); with split depth `≤ 0` the two
records are equal.  When `k < 0` and `d ≥ 1` the threaded call ends in
`std::length_error`. -/
theorem threads_one_counters_le_serial (g : Graph) (k : Int) (hk : k ≠ 2)
    (hgr : (color_greedy_dsatur g k).success = false) (d : Int) :
    ((0 ≤ k ∨ d ≤ 0) →
      ∃ rs rt, color_serial_exact g k no_deadline = some rs ∧
        color_threads_exact g k 1 d no_deadline = some (.result rt) ∧
        rt.success = rs.success ∧ rt.color = rs.color ∧
        rt.nodes ≤ rs.nodes ∧ rt.backtracks ≤ rs.backtracks ∧ (d ≤ 0 → rt = rs)) ∧
    (k < 0 → 0 < d → color_threads_exact g k 1 d no_deadline = some .length_error) :=
  ⟨fun hkd => threads_one_vs_serial g k hk hgr d hkd,
    fun hk0 hd => threads_generate_throws g k 1 d no_deadline hk0 hd hgr⟩

theorem threads_one_counters_le_serial_witness :
    (3 : Int) ≠ 2 ∧ (color_greedy_dsatur hardGraph 3).success = false ∧
    ((0 : Int) ≤ 3 ∨ (2 : Int) ≤ 0) ∧
    (∃ rs rt, color_serial_exact hardGraph 3 no_deadline = some rs ∧
      color_threads_exact hardGraph 3 1 2 no_deadline = some (.result rt) ∧
      rt.success = rs.success ∧ rt.color = rs.color ∧
      rt.nodes ≤ rs.nodes ∧ rt.backtracks ≤ rs.backtracks ∧ ((2 : Int) ≤ 0 → rt = rs)) ∧
    ((-3 : Int) ≠ 2 ∧ (color_greedy_dsatur triangle (-3)).success = false ∧
      (-3 : Int) < 0 ∧ (0 : Int) < 2 ∧
      color_threads_exact triangle (-3) 1 2 no_deadline = some .length_error) :=
  ⟨by decide, by decide, by decide,
    (threads_one_counters_le_serial hardGraph 3 (by decide) (by decide) 2).1 (by decide),
    by decide, by decide, by decide, by decide,
    (threads_one_counters_le_serial triangle (-3) (by decide) (by decide) 2).2
      (by decide) (by decide)⟩

/-- C19. Sub-problem count bound: for every graph, every `k ≥ 1`, every degree
vector and every split depth `d`, `generate_subproblems` returns a list, and the
list has at most `k ^ d` entries (`d` counted as `0` when negative). -/
theorem generate_subproblems_count_bound (g : Graph) (k : Int) (hk : 1 ≤ k)
    (degree : List Int) (d : Int) :
    ∃ subs, generate_subproblems g k degree d = some subs ∧
      (subs.length : Int) ≤ k ^ d.toNat := by
  refine ⟨_, generate_returns g k degree d (Or.inl (by omega)), ?_⟩
  have h := gen_levels_length_le g k degree hk d.toNat [uncolored g]
  simp only [List.length_singleton, Nat.mul_one] at h
  unfold subproblem_list
  have hk' : ((k.toNat : Nat) : Int) = k := Int.toNat_of_nonneg (by omega)
  calc ((gen_levels_list g k degree d.toNat [uncolored g]).length : Int)
      ≤ ((k.toNat ^ d.toNat : Nat) : Int) := by exact_mod_cast h
    _ = k ^ d.toNat := by rw [Nat.cast_pow, hk']

theorem generate_subproblems_count_bound_witness :
    (1 : Int) ≤ 3 ∧
    ∃ subs, generate_subproblems triangle 3 (degrees triangle) 2 = some subs ∧
      (subs.length : Int) ≤ 3 ^ (2 : Int).toNat :=
  ⟨by decide, generate_subproblems_count_bound triangle 3 (by decide) (degrees triangle) 2⟩

/-- C20. Graph model invariant: a graph obtained from `Graph(n)` by calls of
`add_edge` that do not throw has one adjacency list per vertex, every entry below
`n`, no vertex in its own list, and as many occurrences of `v` in `adj[u]` as of `u`
in `adj[v]`.  On every graph, `add_edge(u, u)` with `u` in range returns the graph
unchanged, and `add_edge` with `u` or `v` outside `[0, n)` throws (the check is the
first statement, so nothing is modified). -/
theorem graph_model_invariant (g : Graph) (h : g.Built) :
    (g.adj.length = g.n ∧
      (∀ u, u < g.n → ∀ v ∈ g.nbrs u, v < g.n) ∧
      (∀ u, u ∉ g.nbrs u) ∧
      (∀ u v, (g.nbrs u).count v = (g.nbrs v).count u)) ∧
    (∀ (g1 : Graph) (u : Int), 0 ≤ u → u < (g1.n : Int) → g1.add_edge u u = some g1) ∧
    (∀ (g1 : Graph) (u v : Int), u < 0 ∨ v < 0 ∨ (g1.n : Int) ≤ u ∨ (g1.n : Int) ≤ v →
      g1.add_edge u v = none) :=
  ⟨modelInv_of_built h, add_edge_self, add_edge_out_of_range⟩

theorem graph_model_invariant_witness :
    hardGraph.Built ∧
    ((hardGraph.adj.length = hardGraph.n ∧
      (∀ u, u < hardGraph.n → ∀ v ∈ hardGraph.nbrs u, v < hardGraph.n) ∧
      (∀ u, u ∉ hardGraph.nbrs u) ∧
      (∀ u v, (hardGraph.nbrs u).count v = (hardGraph.nbrs v).count u)) ∧
    (∀ (g1 : Graph) (u : Int), 0 ≤ u → u < (g1.n : Int) → g1.add_edge u u = some g1) ∧
    (∀ (g1 : Graph) (u v : Int), u < 0 ∨ v < 0 ∨ (g1.n : Int) ≤ u ∨ (g1.n : Int) ≤ v →
      g1.add_edge u v = none)) :=
  have hb : hardGraph.Built := built_of_build 7
    [(0, 1), (0, 5), (0, 6), (1, 4), (1, 6), (2, 3), (2, 4), (2, 5), (3, 4), (3, 5)]
    hardGraph (by decide)
  ⟨hb, graph_model_invariant hardGraph hb⟩

/-- C21. Complete graphs: for every `n` and every `k ≥ 0`, `make_complete n` returns
a graph, `color_serial_exact` with no deadline returns a record on it, and the
record has `success = true` exactly when `k ≥ n`.  In particular `K₃` fails with
`k = 2` and succeeds with `k = 3`, and `K₄` fails with `k = 3` and succeeds with
`k = 4`. -/
theorem complete_graph_colorable_iff (n : Nat) (k : Int) (hk : 0 ≤ k) :
    (∃ g r, make_complete n = some g ∧ color_serial_exact g k no_deadline = some r ∧
      (r.success = true ↔ (n : Int) ≤ k)) ∧
    make_complete 3 = some ⟨3, [[1, 2], [0, 2], [0, 1]]⟩ ∧
    color_serial_exact ⟨3, [[1, 2], [0, 2], [0, 1]]⟩ 2 no_deadline = some ⟨false, [], 2, 0⟩ ∧
    color_serial_exact ⟨3, [[1, 2], [0, 2], [0, 1]]⟩ 3 no_deadline =
      some ⟨true, [0, 1, 2], 3, 0⟩ ∧
    make_complete 4 = some ⟨4, [[1, 2, 3], [0, 2, 3], [0, 1, 3], [0, 1, 2]]⟩ ∧
    color_serial_exact ⟨4, [[1, 2, 3], [0, 2, 3], [0, 1, 3], [0, 1, 2]]⟩ 3 no_deadline =
      some ⟨false, [], 16, 16⟩ ∧
    color_serial_exact ⟨4, [[1, 2, 3], [0, 2, 3], [0, 1, 3], [0, 1, 2]]⟩ 4 no_deadline =
      some ⟨true, [0, 1, 2, 3], 4, 0⟩ := by
  refine ⟨?_, by decide, by decide, by decide, by decide, by decide, by decide⟩
  obtain ⟨g, hg, hb, hn, hc⟩ := make_complete_spec n
  have hwf := wellFormed_of_built hb
  obtain ⟨r, hr, h1, h2⟩ := serial_spec hwf k no_deadline
  have hiff := complete_colorable_iff hwf (by rw [hn]; exact hc) k hk
  rw [hn] at hiff
  exact ⟨g, r, hg, hr, fun hs => hiff.mp ⟨r.color, h1 hs⟩, fun hle => h2 rfl (hiff.mpr hle)⟩

theorem complete_graph_colorable_iff_witness :
    (0 : Int) ≤ 4 ∧
    (∃ g r, make_complete 5 = some g ∧ color_serial_exact g 4 no_deadline = some r ∧
      (r.success = true ↔ ((5 : Nat) : Int) ≤ 4)) :=
  ⟨by decide, (complete_graph_colorable_iff 5 4 (by decide)).1⟩

/-- C22. For every well-formed graph, `color_two_color_bipartite` returns, and when it
succeeds the lowest-numbered vertex of each connected component has colour 0, every
vertex at shortest-path distance `L` from the lowest-numbered vertex of its component
has colour `L mod 2`, and every vertex has such a component minimum and distance.  For
the edges (0,3), (0,4), (1,3), (1,4), (2,3), (2,4) on 5 vertices the result is
`[0, 0, 0, 1, 1]`. -/
theorem two_color_witness_shape (g : Graph) (hg : g.WellFormed) :
    (∃ r, color_two_color_bipartite g = some r ∧
      (r.success = true →
        (∀ m, IsComponentMin g m → r.color.getD m 0 = 0) ∧
        (∀ m v L, IsComponentMin g m → IsDist g m v L →
          r.color.getD v 0 = ((L % 2 : Nat) : Int)) ∧
        (∀ v, v < g.n → ∃ m L, IsComponentMin g m ∧ IsDist g m v L ∧
          r.color.getD v 0 = ((L % 2 : Nat) : Int)))) ∧
    color_two_color_bipartite bip5 = some ⟨true, [0, 0, 0, 1, 1], 5, 0⟩ := by
  refine ⟨?_, by decide⟩
  obtain ⟨r, hr, hproper, _⟩ := two_color_spec hg
  refine ⟨r, hr, fun hs => ?_⟩
  have hC := hproper hs
  have hmin : ∀ m, IsComponentMin g m → r.color.getD m 0 = 0 :=
    fun m hm => component_min_colored_zero hg r hr hs m hm
  have hdist : ∀ m v L, IsComponentMin g m → IsDist g m v L →
      r.color.getD v 0 = ((L % 2 : Nat) : Int) := by
    intro m v L hm hd
    have h1 := (walk_parity hg hC hd.1 hm.1).2
    rw [hmin m hm] at h1
    rw [h1]
    push_cast
    omega
  refine ⟨hmin, hdist, ?_⟩
  intro v hv
  obtain ⟨m, L, hm, hd⟩ := exists_component_min hg v hv
  exact ⟨m, L, hm, hd, hdist m v L hm hd⟩

theorem two_color_witness_shape_witness :
    bip5.WellFormed ∧
    ((∃ r, color_two_color_bipartite bip5 = some r ∧
      (r.success = true →
        (∀ m, IsComponentMin bip5 m → r.color.getD m 0 = 0) ∧
        (∀ m v L, IsComponentMin bip5 m → IsDist bip5 m v L →
          r.color.getD v 0 = ((L % 2 : Nat) : Int)) ∧
        (∀ v, v < bip5.n → ∃ m L, IsComponentMin bip5 m ∧ IsDist bip5 m v L ∧
          r.color.getD v 0 = ((L % 2 : Nat) : Int)))) ∧
    color_two_color_bipartite bip5 = some ⟨true, [0, 0, 0, 1, 1], 5, 0⟩) :=
  ⟨by decide, two_color_witness_shape bip5 (by decide)⟩

/-- C23. Assignment is restored on failure: for every graph, `k`, degree vector and
input state, under every behaviour of the deadline and of the stop flag, each of
`backtrack_exact` and `backtrack_exact_stop` returns when the fuel exceeds the
number of uncoloured entries, and whenever it returns `false` the assignment is
the one it was given. -/
theorem engine_restores_assignment (g : Graph) (k : Int) (degree : List Int)
    (found expired : Nat → Bool) (fuel : Nat) (s : Search)
    (hf : uncoloredCount s.color < fuel) :
    (∃ b s1, backtrack_exact g k degree expired fuel s = some (b, s1) ∧
      (b = false → s1.color = s.color)) ∧
    (∃ b s1, backtrack_exact_stop g k degree found expired fuel s = some (b, s1) ∧
      (b = false → s1.color = s.color)) := by
  constructor
  · obtain ⟨⟨b, s1⟩, hr⟩ := backtrack_exact_total g k degree expired fuel s hf
    refine ⟨b, s1, hr, ?_⟩
    intro hb
    subst hb
    exact backtrack_exact_frame g k degree expired fuel s s1 hr
  · obtain ⟨⟨b, s1⟩, hr⟩ := backtrack_exact_stop_total g k degree found expired fuel s hf
    refine ⟨b, s1, hr, ?_⟩
    intro hb
    subst hb
    exact backtrack_exact_stop_frame g k degree found expired fuel s s1 hr

theorem engine_restores_assignment_witness :
    uncoloredCount [0, -1, -1] < 3 ∧
    ((∃ b s1, backtrack_exact triangle 2 (degrees triangle) no_deadline 3 ⟨[0, -1, -1], 0, 0, 0⟩ =
        some (b, s1) ∧ (b = false → s1.color = [0, -1, -1])) ∧
    (∃ b s1, backtrack_exact_stop triangle 2 (degrees triangle) never_found no_deadline 3
        ⟨[0, -1, -1], 0, 0, 0⟩ = some (b, s1) ∧ (b = false → s1.color = [0, -1, -1]))) :=
  ⟨by decide, engine_restores_assignment triangle 2 (degrees triangle) never_found no_deadline 3
    ⟨[0, -1, -1], 0, 0, 0⟩ (by decide)⟩


theorem stopped_entry_counterexample :
    backtrack_exact_stop (Graph.init 1) 1 [0] (fun _ => true) no_deadline 1 ⟨[-1], 0, 0, 0⟩ =
      some (false, ⟨[-1], 0, 0, 1⟩) := by
  decide

/-- C24 (amended). Node accounting at a stopped entry: for every graph, `k` and
state, a call of `backtrack_exact_stop` that finds the stop flag set at entry
returns failure with the assignment, `nodes` and `backtracks` all unchanged (the
flag is tested before the node is counted); a call that finds the flag clear and
the deadline elapsed returns failure with `nodes` increased by exactly 1 and
`backtracks` unchanged. -/
theorem backtrack_exact_stop_entry (g : Graph) (k : Int) (degree : List Int)
    (found expired : Nat → Bool) (fuel : Nat) (s : Search) :
    (found s.clock = true →
      ∃ s1, backtrack_exact_stop g k degree found expired (fuel + 1) s = some (false, s1) ∧
        s1.color = s.color ∧ s1.nodes = s.nodes ∧ s1.backtracks = s.backtracks) ∧
    (found s.clock = false → expired (s.clock + 1) = true →
      ∃ s1, backtrack_exact_stop g k degree found expired (fuel + 1) s = some (false, s1) ∧
        s1.color = s.color ∧ s1.nodes = s.nodes + 1 ∧ s1.backtracks = s.backtracks) := by
  constructor
  · intro hf
    rw [backtrack_exact_stop, if_pos hf]
    exact ⟨_, rfl, rfl, rfl, rfl⟩
  · intro hf he
    rw [backtrack_exact_stop, if_neg (by simp [hf]), if_pos he]
    exact ⟨_, rfl, rfl, rfl, rfl⟩

theorem backtrack_exact_stop_entry_witness :
    (∃ s1, backtrack_exact_stop triangle 3 (degrees triangle) (fun _ => true) no_deadline (3 + 1)
        ⟨[-1, -1, -1], 0, 0, 0⟩ = some (false, s1) ∧
      s1.color = [-1, -1, -1] ∧ s1.nodes = 0 ∧ s1.backtracks = 0) ∧
    (∃ s1, backtrack_exact_stop triangle 3 (degrees triangle) never_found (fun _ => true) (3 + 1)
        ⟨[-1, -1, -1], 0, 0, 0⟩ = some (false, s1) ∧
      s1.color = [-1, -1, -1] ∧ s1.nodes = 0 + 1 ∧ s1.backtracks = 0) :=
  ⟨(backtrack_exact_stop_entry triangle 3 (degrees triangle) (fun _ => true) no_deadline 3
      ⟨[-1, -1, -1], 0, 0, 0⟩).1 rfl,
    (backtrack_exact_stop_entry triangle 3 (degrees triangle) never_found (fun _ => true) 3
      ⟨[-1, -1, -1], 0, 0, 0⟩).2 rfl rfl⟩


/-- C25. Engine success postcondition: on a well-formed graph, from a proper partial
assignment `A`, with fuel above `n` and any behaviour of the deadline,
`backtrack_exact` returns, and if it returns `true` the final assignment has no
`-1` entry, agrees with `A` on every vertex `A` had coloured, has all values in
`{0, …, k-1}`, and is accepted by `verify_coloring`. -/
theorem backtrack_exact_success_post (g : Graph) (hg : g.WellFormed) (k : Int)
    (A : List Int) (hA : IsPartialColoring g k A) (degree : List Int)
    (expired : Nat → Bool) (fuel : Nat) (hf : g.n < fuel) (nodes backtracks clock : Nat) :
    ∃ b s1, backtrack_exact g k degree expired fuel ⟨A, nodes, backtracks, clock⟩ =
        some (b, s1) ∧
      (b = true →
        (-1 : Int) ∉ s1.color ∧ Agrees g A s1.color ∧
        (∀ u, u < g.n → 0 ≤ s1.color.getD u 0 ∧ s1.color.getD u 0 < k) ∧
        verify_coloring g s1.color k = true) := by
  have hcnt : uncoloredCount A < fuel := by
    have := uncoloredCount_le_length A
    rw [hA.1] at this
    omega
  obtain ⟨⟨b, s1⟩, hr⟩ := backtrack_exact_total g k degree expired fuel
    ⟨A, nodes, backtracks, clock⟩ hcnt
  refine ⟨b, s1, hr, ?_⟩
  intro hb
  subst hb
  obtain ⟨h1, h2⟩ := backtrack_exact_sound hg k degree expired fuel _ s1 hA hr
  exact ⟨no_uncolored_of_proper h1, h2, h1.2.1, (verify_coloring_iff_proper hg _ _).mpr h1⟩

theorem backtrack_exact_success_post_witness :
    triangle.WellFormed ∧ IsPartialColoring triangle 3 [2, -1, -1] ∧ triangle.n < 4 ∧
    ∃ b s1, backtrack_exact triangle 3 (degrees triangle) no_deadline 4 ⟨[2, -1, -1], 0, 0, 0⟩ =
        some (b, s1) ∧
      (b = true →
        (-1 : Int) ∉ s1.color ∧ Agrees triangle [2, -1, -1] s1.color ∧
        (∀ u, u < triangle.n → 0 ≤ s1.color.getD u 0 ∧ s1.color.getD u 0 < 3) ∧
        verify_coloring triangle s1.color 3 = true) :=
  ⟨by decide, by decide, by decide,
    backtrack_exact_success_post triangle (by decide) 3 [2, -1, -1] (by decide)
      (degrees triangle) no_deadline 4 (by decide) 0 0 0⟩


/-- C26. One engine under all strategies: for every graph, `k`, degree vector and
state, with enough fuel, `backtrack_exact_stop` with the stop flag never set and no
deadline and `backtrack_exact` with no deadline both return, with the same boolean,
the same final assignment and the same final `nodes` and `backtracks`. -/
theorem stop_engine_eq_serial_engine (g : Graph) (k : Int) (degree : List Int) (fuel : Nat)
    (s : Search) (hf : uncoloredCount s.color < fuel) :
    ∃ b s1 t1,
      backtrack_exact_stop g k degree never_found no_deadline fuel s = some (b, s1) ∧
      backtrack_exact g k degree no_deadline fuel s = some (b, t1) ∧
      s1.color = t1.color ∧ s1.nodes = t1.nodes ∧ s1.backtracks = t1.backtracks :=
  stop_sim_self g k degree fuel s hf

theorem stop_engine_eq_serial_engine_witness :
    uncoloredCount [-1, -1, -1] < 4 ∧
    ∃ b s1 t1,
      backtrack_exact_stop triangle 3 (degrees triangle) never_found no_deadline 4
        ⟨[-1, -1, -1], 0, 0, 0⟩ = some (b, s1) ∧
      backtrack_exact triangle 3 (degrees triangle) no_deadline 4 ⟨[-1, -1, -1], 0, 0, 0⟩ =
        some (b, t1) ∧
      s1.color = t1.color ∧ s1.nodes = t1.nodes ∧ s1.backtracks = t1.backtracks :=
  ⟨by decide, stop_engine_eq_serial_engine triangle 3 (degrees triangle) 4
    ⟨[-1, -1, -1], 0, 0, 0⟩ (by decide)⟩

/-- C27. The greedy pre-pass is the first descent of the exact search: for every
graph and every `k`, `backtrack_exact` from the all-uncoloured assignment with no
deadline returns; `color_greedy_dsatur` succeeds exactly when that call returns
`true` with `backtracks = 0`; in that case the two assignments are identical,
greedy reports `nodes = n` and the engine `nodes = n + 1`; and for `k ≠ 2` the record
of `color_serial_exact` has the success value and the witness of that engine call. -/
theorem greedy_is_first_descent (g : Graph) (k : Int) :
    ∃ b s1, backtrack_exact g k (degrees g) no_deadline (g.n + 1) (Search.start g) =
        some (b, s1) ∧
      ((color_greedy_dsatur g k).success = true ↔ (b = true ∧ s1.backtracks = 0)) ∧
      ((color_greedy_dsatur g k).success = true →
        (color_greedy_dsatur g k).color = s1.color ∧
        (color_greedy_dsatur g k).nodes = g.n ∧ s1.nodes = g.n + 1) ∧
      (k ≠ 2 → ∃ r, color_serial_exact g k no_deadline = some r ∧ r.success = b ∧
        r.color = if b = true then s1.color else []) :=
  greedy_first_descent g k

/-- C28. Sub-problem well-formedness: on a well-formed graph with `n` vertices, for
every `k`, degree vector and split depth `d`, `generate_subproblems` returns a list
unless `k < 0` and `d ≥ 1` (then `next.reserve` throws and there is no entry); every
entry of a returned list is a proper partial assignment (length `n`, every value
`-1` or in `{0, …, k-1}`, no coloured vertex with a neighbour of its colour) whose
uncoloured entries number `n - min(d, n)`, that is, exactly `min(d, n)` vertices are
coloured (`d` counted as `0` when negative); for `d ≤ 0` the list is the single
all-uncoloured assignment. -/
theorem generate_subproblems_wellformed (g : Graph) (hg : g.WellFormed) (k : Int)
    (degree : List Int) (d : Int) :
    (generate_subproblems g k degree d = none ↔ (k < 0 ∧ 0 < d)) ∧
    (∀ subs, generate_subproblems g k degree d = some subs → ∀ sp ∈ subs,
      IsPartialColoring g k sp ∧ sp.length = g.n ∧
      uncoloredCount sp + min d.toNat g.n = g.n) ∧
    (d ≤ 0 → generate_subproblems g k degree d = some [uncolored g]) := by
  refine ⟨generate_none_iff g k degree d, ?_, ?_⟩
  · intro subs hsubs sp hsp
    have hkd : 0 ≤ k ∨ d ≤ 0 := by
      by_contra hn
      rw [generate_throws g k degree d (by omega) (by omega)] at hsubs
      exact absurd hsubs (by simp)
    rw [generate_returns g k degree d hkd] at hsubs
    simp only [Option.some.injEq] at hsubs
    subst hsubs
    have h := gen_levels_level hg k degree d.toNat 0 [uncolored g] (by
      intro x hx
      simp only [List.mem_singleton] at hx
      subst hx
      exact ⟨ partial_uncolored g k, by rw [uncoloredCount_uncolored]; simp⟩) sp hsp
    rw [Nat.zero_add] at h
    exact ⟨h.1, h.1.1, h.2⟩
  · intro hd
    have hd0 : d.toNat = 0 := by omega
    unfold generate_subproblems
    rw [hd0]; rfl

theorem generate_subproblems_wellformed_witness :
    triangle.WellFormed ∧
    generate_subproblems triangle 3 (degrees triangle) 2 =
      some [[0, 1, -1], [0, 2, -1], [1, 0, -1], [1, 2, -1], [2, 0, -1], [2, 1, -1]] ∧
    ((generate_subproblems triangle 3 (degrees triangle) 2 = none ↔
      ((3 : Int) < 0 ∧ (0 : Int) < 2)) ∧
    (∀ subs, generate_subproblems triangle 3 (degrees triangle) 2 = some subs → ∀ sp ∈ subs,
      IsPartialColoring triangle 3 sp ∧ sp.length = triangle.n ∧
      uncoloredCount sp + min (2 : Int).toNat triangle.n = triangle.n) ∧
    ((2 : Int) ≤ 0 →
      generate_subproblems triangle 3 (degrees triangle) 2 = some [uncolored triangle])) :=
  ⟨by decide, by decide,
    generate_subproblems_wellformed triangle (by decide) 3 (degrees triangle) 2⟩

theorem threads_one_negative_k_counterexample :
    color_serial_exact triangle (-3) no_deadline = some ⟨false, [], 1, 1⟩ ∧
    color_threads_exact triangle (-3) 1 2 no_deadline = some .length_error := by
  decide

/-- C29 (amended). The single-worker threaded run reproduces the serial witness
whenever the generator returns: for every graph, every `k` and every split depth
`d` with `k ≥ 0` or `d ≤ 0` or `n = 0`, with `threads = 1` and no deadline,
`color_serial_exact` and `color_threads_exact` both return, with the same `success`
and the same assignment.  For `k < 0`, `d ≥ 1` and `n ≥ 1` the threaded call ends in
`std::length_error`. -/
theorem threads_one_reproduces_serial (g : Graph) (k : Int) (d : Int) :
    ((0 ≤ k ∨ d ≤ 0 ∨ g.n = 0) →
      ∃ rs rt, color_serial_exact g k no_deadline = some rs ∧
        color_threads_exact g k 1 d no_deadline = some (.result rt) ∧
        rt.success = rs.success ∧ rt.color = rs.color) ∧
    (k < 0 → 0 < d → 0 < g.n →
      color_threads_exact g k 1 d no_deadline = some .length_error) :=
  ⟨fun hkd => threads_one_result g k d hkd,
    fun hk hd hn => threads_generate_throws g k 1 d no_deadline hk hd
      (by rw [greedy_negative_k g k hk hn])⟩

theorem threads_one_reproduces_serial_witness :
    ((0 : Int) ≤ 3 ∨ (2 : Int) ≤ 0 ∨ hardGraph.n = 0) ∧
    (∃ rs rt, color_serial_exact hardGraph 3 no_deadline = some rs ∧
      color_threads_exact hardGraph 3 1 2 no_deadline = some (.result rt) ∧
      rt.success = rs.success ∧ rt.color = rs.color) ∧
    ((-3 : Int) < 0 ∧ (0 : Int) < 2 ∧ 0 < triangle.n ∧
      color_threads_exact triangle (-3) 1 2 no_deadline = some .length_error) :=
  ⟨by decide, (threads_one_reproduces_serial hardGraph 3 2).1 (by decide),
    by decide, by decide, by decide,
    (threads_one_reproduces_serial triangle (-3) 2).2 (by decide) (by decide) (by decide)⟩

/-- C30. The engine terminates with a bounded node count: for every graph, every
`k ≥ 0`, every degree vector and every state whose assignment has `r` uncoloured
entries, `backtrack_exact` with no deadline returns as soon as the fuel (the
recursion depth allowed) exceeds `r`, and it increases `nodes` by at most
`k^0 + k^1 + … + k^r`. -/
theorem backtrack_exact_node_bound (g : Graph) (k : Int) (hk : 0 ≤ k) (degree : List Int)
    (fuel : Nat) (s : Search) (hf : uncoloredCount s.color < fuel) :
    ∃ b s1, backtrack_exact g k degree no_deadline fuel s = some (b, s1) ∧
      (s1.nodes : Int) ≤ (s.nodes : Int) +
        ∑ i ∈ Finset.range (uncoloredCount s.color + 1), k ^ i := by
  obtain ⟨⟨b, s1⟩, hr⟩ := backtrack_exact_total g k degree no_deadline fuel s hf
  refine ⟨b, s1, hr, ?_⟩
  have h := backtrack_exact_nodes_le g k degree no_deadline fuel (uncoloredCount s.color) s
    (le_refl _) b s1 hr
  rw [nodeBound_eq_sum] at h
  have hk' : ((k.toNat : Nat) : Int) = k := Int.toNat_of_nonneg hk
  have hcast : ((∑ i ∈ Finset.range (uncoloredCount s.color + 1), k.toNat ^ i : Nat) : Int) =
      ∑ i ∈ Finset.range (uncoloredCount s.color + 1), k ^ i := by
    rw [Nat.cast_sum]
    apply Finset.sum_congr rfl
    intro i _
    rw [Nat.cast_pow, hk']
  rw [← hcast]
  exact_mod_cast h

theorem backtrack_exact_node_bound_witness :
    (0 : Int) ≤ 3 ∧ uncoloredCount (Search.start triangle).color < 4 ∧
    ∃ b s1, backtrack_exact triangle 3 (degrees triangle) no_deadline 4 (Search.start triangle) =
        some (b, s1) ∧
      (s1.nodes : Int) ≤ ((Search.start triangle).nodes : Int) +
        ∑ i ∈ Finset.range (uncoloredCount (Search.start triangle).color + 1), (3 : Int) ^ i :=
  ⟨by decide, by decide,
    backtrack_exact_node_bound triangle 3 (by decide) (degrees triangle) 4 (Search.start triangle)
      (by decide)⟩

end GraphColoring
